import Mathlib

/-!
pocket-allocator: a shallow embedding of `src/allocator.c`

The arena is a flat byte memory addressed by 64-bit machine addresses.
Pointers and `size_t` values are natural numbers below `2^64`; every pointer
or `size_t` addition and subtraction of the source is taken modulo `2^64`
(`add64`, `sub64`), the null pointer is address `0`.

`block_header_t` is laid out as on an LP64 little-endian target:
`block_size` in bytes `0..7` of the header, `is_free` in byte `8`, bytes
`9..15` are padding, `sizeof(block_header_t) = 16`.

Loops of the source (`while (current != NULL)`) are embedded with a fuel
argument: the result is `none` when the fuel runs out before the loop exits.
The pointer returned by the two allocation functions is an `Option`: `none`
stands for the statement `return NULL`. A load through the null pointer is
the outcome `fault`; every other load reads the flat memory.
-/

namespace PocketAllocator

/-! ## Machine arithmetic -/

/-- Number of values of a `size_t` / pointer: `2^64`. -/
def WORD : Nat := 18446744073709551616

/-- Unsigned 64-bit addition (`size_t` and `uint8_t*` arithmetic). -/
def add64 (a b : Nat) : Nat := (a + b) % WORD

/-- Unsigned 64-bit subtraction (`size_t` and `uint8_t*` arithmetic). -/
def sub64 (a b : Nat) : Nat := (a + WORD - b % WORD) % WORD

/-- The constant `ALIGNMENT` of `allocator.h`. -/
def ALIGNMENT : Nat := 16

/-- The value of `sizeof(block_header_t)`: an 8-byte `size_t`, a 1-byte `bool`, 7 bytes padding. -/
def header_size : Nat := 16

/-- The constant `MAX_HEAP_SIZE` of `allocator.c`. -/
def MAX_HEAP_SIZE : Nat := 8000

/-- The constant `MY_API_SUCCESS`. -/
def MY_API_SUCCESS : Nat := 0

/-- The constant `MY_API_ERROR_INVALID_ARGUMENT`. -/
def MY_API_ERROR_INVALID_ARGUMENT : Nat := 1

/-- The constant `MALLOC_FAIL`. -/
def MALLOC_FAIL : Nat := 2

/-! ## Byte memory and the header codec -/

/-- Byte memory: address to byte (only the value modulo 256 is ever read). -/
abbrev Mem := Nat → Nat

/-- Load of `header->block_size` for the header at address `h` (8 bytes, little endian). -/
def read_block_size (m : Mem) (h : Nat) : Nat :=
  m h % 256 + (m (h + 1) % 256) * 256 + (m (h + 2) % 256) * 65536
    + (m (h + 3) % 256) * 16777216 + (m (h + 4) % 256) * 4294967296
    + (m (h + 5) % 256) * 1099511627776 + (m (h + 6) % 256) * 281474976710656
    + (m (h + 7) % 256) * 72057594037927936

/-- Load of `header->is_free` for the header at address `h` (byte 8 of the header). -/
def read_is_free (m : Mem) (h : Nat) : Bool := m (h + 8) % 256 != 0

/-- Store `header->block_size = v` for the header at address `h`. -/
def write_block_size (m : Mem) (h v : Nat) : Mem := fun a =>
  if a = h then v % 256
  else if a = h + 1 then v / 256 % 256
  else if a = h + 2 then v / 65536 % 256
  else if a = h + 3 then v / 16777216 % 256
  else if a = h + 4 then v / 4294967296 % 256
  else if a = h + 5 then v / 1099511627776 % 256
  else if a = h + 6 then v / 281474976710656 % 256
  else if a = h + 7 then v / 72057594037927936 % 256
  else m a

/-- Store `header->is_free = b` for the header at address `h`. -/
def write_is_free (m : Mem) (h : Nat) (b : Bool) : Mem := fun a =>
  if a = h + 8 then (if b then 1 else 0) else m a

/-! ## Global state -/

/-- The two globals of `allocator.c` (`heap`, `heap_size`) and the byte memory. -/
structure State where
  /-- The global `uint8_t *heap`; `0` is `NULL`. -/
  heap : Nat
  /-- The global `size_t heap_size`. -/
  heap_size : Nat
  /-- The byte memory. -/
  mem : Mem

/-- Rounding of a size to the alignment unit, as written at the head of `init_heap`,
`my_alloc_ff`, `my_alloc_bf` and `my_realloc_general`:
`if (n % 16 != 0) n = n + (16 - (n % 16));`. -/
def round_up (n : Nat) : Nat :=
  if n % 16 ≠ 0 then add64 n (16 - n % 16) else n

/-- Embedding of `init_heap(size)`. The result of the call `malloc(size)` is the argument
`fresh` (`0` when `malloc` fails); the content of fresh storage is whatever the memory
holds there. Returns the status code and the new state. -/
def init_heap (s : State) (size : Nat) (fresh : Nat) : Nat × State :=
  if size < 1 ∨ size > MAX_HEAP_SIZE then (MY_API_ERROR_INVALID_ARGUMENT, s)
  else
    let s1 : State := if s.heap ≠ 0 then { s with heap_size := 0 } else s
    let size := round_up size
    let s2 : State := { s1 with heap := fresh }
    if fresh = 0 then (MALLOC_FAIL, s2)
    else
      let m1 := write_block_size s2.mem fresh (sub64 size header_size)
      let m2 := write_is_free m1 fresh true
      (MY_API_SUCCESS, { heap := fresh, heap_size := size, mem := m2 })

/-- Embedding of `next_block_header(current_block)`; `0` is `NULL`. -/
def next_block_header (s : State) (current_block : Nat) : Nat :=
  let base := current_block
  let next := add64 (add64 base header_size) (read_block_size s.mem current_block)
  if add64 next header_size ≥ add64 s.heap s.heap_size then 0 else next

/-- The `while (present != NULL)` loop of `previous_block_header`. -/
def previous_block_header_loop (s : State) (current_block : Nat) : Nat → Nat → Option Nat
  | 0, _ => none
  | fuel + 1, present =>
    if present = 0 then some 0
    else if next_block_header s present = current_block then some present
    else previous_block_header_loop s current_block fuel (next_block_header s present)

/-- Embedding of `previous_block_header(current_block)`. -/
def previous_block_header (fuel : Nat) (s : State) (current_block : Nat) : Option Nat :=
  if current_block = 0 then some 0
  else if s.heap = 0 then some 0
  else previous_block_header_loop s current_block fuel s.heap

/-- Embedding of `is_block_free(current_block)`. -/
def is_block_free (s : State) (current_block : Nat) : Bool :=
  if current_block = 0 then false else read_is_free s.mem current_block

/-- Embedding of `header_from_data_ptr(data)`; `0` is `NULL`. -/
def header_from_data_ptr (s : State) (data : Nat) : Nat :=
  if data = 0 then 0
  else
    let byte_ptr := sub64 data header_size
    if byte_ptr < s.heap ∨ byte_ptr ≥ add64 s.heap s.heap_size then 0 else byte_ptr

/-- The grant-and-split tail shared verbatim by `my_alloc_ff` (lines 115-128) and
`my_alloc_bf` (lines 161-174): the selected block `blk` is given size `requested_bytes`
and marked occupied, and a free remainder header is written unless
`left_over_space < sizeof(block_header_t)`. Returns the payload pointer and the state. -/
def grant_block (s : State) (blk requested_bytes : Nat) : Nat × State :=
  let original_size := read_block_size s.mem blk
  let p_my_alloc := add64 blk header_size
  let m1 := write_block_size s.mem blk requested_bytes
  let m2 := write_is_free m1 blk false
  let left_over_space := sub64 (sub64 original_size requested_bytes) header_size
  if left_over_space < header_size then (p_my_alloc, { s with mem := m2 })
  else
    let new_block := add64 (add64 blk header_size) requested_bytes
    let m3 := write_block_size m2 new_block left_over_space
    let m4 := write_is_free m3 new_block true
    (p_my_alloc, { s with mem := m4 })

/-- The `while (current != NULL)` loop of `my_alloc_ff`. The returned pointer is `none` for
the statement `return NULL` and `some p` for `return p_my_alloc`. -/
def my_alloc_ff_loop (s : State) (requested_bytes : Nat) :
    Nat → Nat → Option (Option Nat × State)
  | 0, _ => none
  | fuel + 1, current =>
    if current = 0 then some (none, s)
    else if read_is_free s.mem current ∧ read_block_size s.mem current ≥ requested_bytes then
      some (some (grant_block s current requested_bytes).1,
        (grant_block s current requested_bytes).2)
    else my_alloc_ff_loop s requested_bytes fuel (next_block_header s current)

/-- Embedding of `my_alloc_ff(requested_bytes)`: the returned pointer (`none` is `NULL`) and
the state after the call. -/
def my_alloc_ff (fuel : Nat) (s : State) (requested_bytes : Nat) :
    Option (Option Nat × State) :=
  if s.heap = 0 then some (none, s)
  else if requested_bytes > s.heap_size then some (none, s)
  else if requested_bytes ≤ 0 then some (none, s)
  else my_alloc_ff_loop s (round_up requested_bytes) fuel s.heap

/-- The `while (current != NULL)` loop of `my_alloc_bf`: returns the final `smallest_block`
(`0` is `NULL`). -/
def my_alloc_bf_loop (s : State) (requested_bytes : Nat) : Nat → Nat → Nat → Option Nat
  | 0, _, _ => none
  | fuel + 1, current, smallest_block =>
    if current = 0 then some smallest_block
    else
      let smallest_block :=
        if read_is_free s.mem current ∧ read_block_size s.mem current ≥ requested_bytes then
          if smallest_block = 0
              ∨ read_block_size s.mem current < read_block_size s.mem smallest_block then
            current
          else smallest_block
        else smallest_block
      my_alloc_bf_loop s requested_bytes fuel (next_block_header s current) smallest_block

/-- Embedding of `my_alloc_bf(requested_bytes)`: the returned pointer (`none` is `NULL`) and
the state after the call. -/
def my_alloc_bf (fuel : Nat) (s : State) (requested_bytes : Nat) :
    Option (Option Nat × State) :=
  if s.heap = 0 then some (none, s)
  else if requested_bytes > s.heap_size then some (none, s)
  else if requested_bytes ≤ 0 then some (none, s)
  else
    match my_alloc_bf_loop s (round_up requested_bytes) fuel s.heap 0 with
    | none => none
    | some smallest_block =>
      if smallest_block = 0 then some (none, s)
      else some (some (grant_block s smallest_block (round_up requested_bytes)).1,
        (grant_block s smallest_block (round_up requested_bytes)).2)

/-- Embedding of `my_free(p)`. -/
def my_free (fuel : Nat) (s : State) (p : Nat) : Option State :=
  if p = 0 then some s
  else
    let p_block := header_from_data_ptr s p
    if p_block = 0 then some s
    else if read_is_free s.mem p_block then some s
    else
      let s1 : State := { s with mem := write_is_free s.mem p_block true }
      let next_block := next_block_header s1 p_block
      let s2 : State :=
        if next_block ≠ 0 ∧ read_is_free s1.mem next_block then
          let merged := add64 (add64 (read_block_size s1.mem p_block) header_size)
            (read_block_size s1.mem next_block)
          { s1 with mem := write_block_size s1.mem p_block merged }
        else s1
      match previous_block_header fuel s2 p_block with
      | none => none
      | some previous_block =>
        if previous_block ≠ 0 ∧ read_is_free s2.mem previous_block then
          let merged := add64 (add64 (read_block_size s2.mem previous_block) header_size)
            (read_block_size s2.mem p_block)
          some { s2 with mem := write_block_size s2.mem previous_block merged }
        else some s2

/-- Embedding of `is_valid_header(header)`. -/
def is_valid_header (s : State) (header : Nat) : Bool :=
  let ptr := header
  if ¬ (ptr ≥ s.heap ∧ ptr < add64 s.heap s.heap_size) then false
  else if header % ALIGNMENT ≠ 0 then false
  else if read_block_size s.mem header % ALIGNMENT ≠ 0 then false
  else
    let block_end := add64 (add64 header header_size) (read_block_size s.mem header)
    if block_end > add64 s.heap s.heap_size then false
    else if read_is_free s.mem header ≠ true ∧ read_is_free s.mem header ≠ false then false
    else true

/-- The `while (current != NULL)` loop of `check_heap_integrity`, with the running
`total_accounted`; returns `some false` on an invalid header and otherwise the final total
compared with `heap_size`. -/
def check_heap_integrity_loop (s : State) : Nat → Nat → Nat → Option Bool
  | 0, _, _ => none
  | fuel + 1, current, total_accounted =>
    if current = 0 then
      if total_accounted ≠ s.heap_size then some false else some true
    else if ¬ is_valid_header s current then some false
    else
      check_heap_integrity_loop s fuel (next_block_header s current)
        (add64 total_accounted (add64 header_size (read_block_size s.mem current)))

/-- Embedding of `check_heap_integrity()`. -/
def check_heap_integrity (fuel : Nat) (s : State) : Option Bool :=
  if s.heap = 0 then some false
  else check_heap_integrity_loop s fuel s.heap 0

/-- The block walk of `export_heap_snapshot`: for each block visited from the arena start,
its header address, `block_size` and `is_free` (the source prints the offset
`current - heap` of the same header). -/
def heap_walk (s : State) : Nat → Nat → Option (List (Nat × Nat × Bool))
  | 0, _ => none
  | fuel + 1, current =>
    if current = 0 then some []
    else
      match heap_walk s fuel (next_block_header s current) with
      | none => none
      | some rest =>
        some ((current, read_block_size s.mem current, read_is_free s.mem current) :: rest)

/-- Embedding of `memcpy(dst, src, n)`: the `n` bytes at `dst` become the bytes at `src`. -/
def memcpy (m : Mem) (dst src n : Nat) : Mem := fun a =>
  if dst ≤ a ∧ a < dst + n then m (src + (a - dst)) else m a

/-- Result of a call of `my_realloc_general`: either the call dereferences the null pointer
(`fault`), or it returns a pointer (`none` is `NULL`) and leaves a state. -/
inductive Outcome where
  | fault : Outcome
  | ret : Option Nat → State → Outcome

/-- Embedding of `my_realloc_general(ptr, new_size, is_best_fit)`. The call
`next_block_header(ptr_header)` loads `ptr_header->block_size`: when `ptr_header` is `NULL`
the outcome is `fault`. -/
def my_realloc_general (fuel : Nat) (s : State) (ptr new_size : Nat) (is_best_fit : Bool) :
    Option Outcome :=
  if new_size ≤ 0 then
    match my_free fuel s ptr with
    | none => none
    | some s' => some (Outcome.ret none s')
  else
    let new_size := round_up new_size
    if ptr = 0 then
      match (if is_best_fit then my_alloc_bf fuel s new_size
        else my_alloc_ff fuel s new_size) with
      | none => none
      | some r => some (Outcome.ret r.1 r.2)
    else if new_size > s.heap_size then some (Outcome.ret none s)
    else
      let ptr_header := header_from_data_ptr s ptr
      if ptr_header = 0 then some Outcome.fault
      else
        let next_header := next_block_header s ptr_header
        if new_size < read_block_size s.mem ptr_header then
          if add64 new_size header_size < read_block_size s.mem ptr_header then
            let leftover_space :=
              sub64 (read_block_size s.mem ptr_header) (add64 new_size header_size)
            let m1 := write_block_size s.mem ptr_header new_size
            let new_free := add64 ptr new_size
            let m2 := write_block_size m1 new_free leftover_space
            let m3 := write_is_free m2 new_free true
            some (Outcome.ret (some ptr) ⟨s.heap, s.heap_size, m3⟩)
          else
            some (Outcome.ret (some ptr)
              ⟨s.heap, s.heap_size, write_block_size s.mem ptr_header new_size⟩)
        else
          let new_required_space := sub64 new_size (read_block_size s.mem ptr_header)
          if next_header ≠ 0 ∧ read_is_free s.mem next_header = true
              ∧ add64 (read_block_size s.mem next_header) header_size ≥ new_required_space then
            let available_space := add64 header_size (read_block_size s.mem next_header)
            if available_space ≥ add64 (add64 new_required_space header_size) ALIGNMENT then
              let m1 := write_block_size s.mem ptr_header new_size
              let new_free := add64 ptr new_size
              let m2 := write_block_size m1 new_free
                (sub64 (sub64 available_space new_required_space) header_size)
              let m3 := write_is_free m2 new_free true
              some (Outcome.ret (some ptr) ⟨s.heap, s.heap_size, m3⟩)
            else
              some (Outcome.ret (some ptr) ⟨s.heap, s.heap_size,
                write_block_size s.mem ptr_header
                  (add64 (read_block_size s.mem ptr_header) available_space)⟩)
          else
            match (if is_best_fit then my_alloc_bf fuel s new_size
              else my_alloc_ff fuel s new_size) with
            | none => none
            | some (none, s1) => some (Outcome.ret none s1)
            | some (some new_ptr, s1) =>
              let copy_size :=
                if read_block_size s1.mem ptr_header < new_size then
                  read_block_size s1.mem ptr_header
                else new_size
              match my_free fuel ⟨s1.heap, s1.heap_size, memcpy s1.mem new_ptr ptr copy_size⟩
                  ptr with
              | none => none
              | some s3 => some (Outcome.ret (some new_ptr) s3)

/-- Embedding of `my_realloc_ff(ptr, new_size)`. -/
def my_realloc_ff (fuel : Nat) (s : State) (ptr new_size : Nat) : Option Outcome :=
  my_realloc_general fuel s ptr new_size false

/-- Embedding of `my_realloc_bf(ptr, new_size)`. -/
def my_realloc_bf (fuel : Nat) (s : State) (ptr new_size : Nat) : Option Outcome :=
  my_realloc_general fuel s ptr new_size true

/-! ## Layout predicates used by the proofs -/

/-- A block of the walk: header address, `block_size`, `is_free`. -/
abbrev Blk := Nat × Nat × Bool

/-- Layout of a run of blocks: the headers of `w` are stored back to back from address `a`
up to exactly `e`, every address and size is 16-aligned, and every block that has a
successor leaves room for more than one header before `e`. -/
def Seg (m : Mem) (e : Nat) : Nat → List Blk → Prop
  | a, [] => a = e
  | a, b :: rest =>
    b.1 = a ∧ a % 16 = 0 ∧ read_block_size m a = b.2.1 ∧ read_is_free m a = b.2.2
      ∧ b.2.1 % 16 = 0 ∧ (rest ≠ [] → a + 16 + b.2.1 + 16 < e)
      ∧ Seg m e (a + 16 + b.2.1) rest

/-- The arena is tiled by the blocks `w`: the structure every accepted arena has. -/
def Lay (s : State) (w : List Blk) : Prop :=
  s.heap ≠ 0 ∧ s.heap + s.heap_size + 16 < WORD ∧ w ≠ []
    ∧ Seg s.mem (s.heap + s.heap_size) s.heap w

/-- No block of the walk has an end address `address + header_size + block_size` that wraps
around the 64-bit address space. -/
def walk_no_wrap (fuel : Nat) (s : State) : Bool :=
  match heap_walk s fuel s.heap with
  | none => false
  | some w => w.all (fun b => decide (b.1 + header_size + b.2.1 < WORD))

/-- A block satisfies a request of `R` bytes: it is free and its `block_size` is at least `R`
(the test `current->is_free && current->block_size >= requested_bytes`). -/
def fits (R : Nat) (b : Blk) : Prop := b.2.2 = true ∧ R ≤ b.2.1

instance (R : Nat) (b : Blk) : Decidable (fits R b) := by
  unfold fits
  exact inferInstance

/-- One step of the best-fit walk on the candidate `acc` (the block `smallest_block` points
to, if any): a fitting block `b` replaces the candidate when there is none or when `b` is
strictly smaller. -/
def bf_step (R : Nat) (b : Blk) (acc : Option Blk) : Option Blk :=
  if fits R b then
    match acc with
    | none => some b
    | some c => if b.2.1 < c.2.1 then some b else some c
  else acc

/-- The choice made by the best-fit walk over the blocks `w`, starting from the candidate
`acc`. -/
def bf_pick (R : Nat) : List Blk → Option Blk → Option Blk
  | [], acc => acc
  | b :: rest, acc => bf_pick R rest (bf_step R b acc)

/-- Address of a candidate block, `0` (`NULL`) when there is none. -/
def cand_addr : Option Blk → Nat
  | none => 0
  | some c => c.1

/-- The forward coalescing step of `my_free` (lines 193-196) on the block at `x`, as a
function of the state in which `x` has just been marked free. -/
def coalesce_next (s1 : State) (x : Nat) : State :=
  if next_block_header s1 x ≠ 0 ∧ read_is_free s1.mem (next_block_header s1 x) then
    ⟨s1.heap, s1.heap_size, write_block_size s1.mem x
      (add64 (add64 (read_block_size s1.mem x) header_size)
        (read_block_size s1.mem (next_block_header s1 x)))⟩
  else s1

/-- The backward coalescing step of `my_free` (lines 198-201) on the block at `x`. -/
def coalesce_prev (fuel : Nat) (s2 : State) (x : Nat) : Option State :=
  match previous_block_header fuel s2 x with
  | none => none
  | some previous_block =>
    if previous_block ≠ 0 ∧ read_is_free s2.mem previous_block then
      some ⟨s2.heap, s2.heap_size, write_block_size s2.mem previous_block
        (add64 (add64 (read_block_size s2.mem previous_block) header_size)
          (read_block_size s2.mem x))⟩
    else some s2

/-- The block before the run `pre` ends is occupied, or there is none. -/
def left_occ (pre : List Blk) : Prop := ∀ pre' q, pre = pre' ++ [q] → q.2.2 = false

/-- The block at the head of `post` is occupied, or there is none. -/
def right_occ (post : List Blk) : Prop := ∀ y post', post = y :: post' → y.2.2 = false

/-- Three calls of `my_free` in a row, on the pointers `p1`, `p2`, `p3`. -/
def free3 (fuel : Nat) (s : State) (p1 p2 p3 : Nat) : Option State :=
  match my_free fuel s p1 with
  | none => none
  | some s1 =>
    match my_free fuel s1 p2 with
    | none => none
    | some s2 => my_free fuel s2 p3

/-- The six orders in which three pointers can be freed. -/
def six_orders (x y z : Nat) : List (Nat × Nat × Nat) :=
  [(x, y, z), (x, z, y), (y, x, z), (y, z, x), (z, x, y), (z, y, x)]

/-! ## Concrete states used to instantiate the theorems -/

/-- A memory holding zero bytes everywhere. -/
def zero_mem : Mem := fun _ => 0

/-- The state before any call: `heap = NULL`, `heap_size = 0`. -/
def boot_state : State := { heap := 0, heap_size := 0, mem := zero_mem }

/-- The state after `init_heap(64)` when `malloc` returns address 4096. -/
def arena64 : State := (init_heap boot_state 64 4096).2

/-- The state after `init_heap(1000)` when `malloc` returns address 4096. -/
def arena1000 : State := (init_heap boot_state 1000 4096).2

/-- The state after a call of `my_alloc_ff(n)` (the state itself if the call does not
return). -/
def after_ff (fuel : Nat) (s : State) (n : Nat) : State :=
  match my_alloc_ff fuel s n with
  | some r => r.2
  | none => s

/-- The state after `init_heap(1000)` and three calls `my_alloc_ff(10)`: three occupied
blocks of 16 bytes followed by the trailing free block. -/
def arena1000_three : State := after_ff 8 (after_ff 8 (after_ff 8 arena1000 10) 10) 10

/-- What a caller observes of an outcome: `none` for a fault, otherwise the returned
pointer and the block walk of the state left behind. -/
def outcome_view (fuel : Nat) : Outcome → Option (Option Nat × Option (List Blk))
  | Outcome.fault => none
  | Outcome.ret p s => some (p, heap_walk s fuel s.heap)

/-- The bytes `bs` stored from address `a` on (a client writing into its payload). -/
def store_bytes (m : Mem) (a : Nat) : List Nat → Mem
  | [] => m
  | b :: bs => store_bytes (fun x => if x = a then b else m x) (a + 1) bs

/-- The state after a client has stored the bytes `bs` at address `a`. -/
def poke (s : State) (a : Nat) (bs : List Nat) : State :=
  ⟨s.heap, s.heap_size, store_bytes s.mem a bs⟩

/-- The state after a call of `my_free(p)` (the state itself if the call does not return). -/
def after_free (fuel : Nat) (s : State) (p : Nat) : State :=
  match my_free fuel s p with
  | some s' => s'
  | none => s

/-- The `n` bytes stored from address `p` on. -/
def payload (s : State) (p n : Nat) : List Nat :=
  (List.range n).map (fun i => s.mem (p + i) % 256)

/-- The payload bytes at `q` after a call of `my_realloc_general` that returned. -/
def outcome_payload (q n : Nat) : Outcome → Option (List Nat)
  | Outcome.fault => none
  | Outcome.ret _ s => some (payload s q n)

/-- The state after `init_heap(1000)` and `my_alloc_ff(50)` twice: two occupied blocks of 64
bytes followed by the trailing free block. -/
def arena1000_two : State := after_ff 8 (after_ff 8 arena1000 50) 50

/-- The arena of `init_heap(1000)` after `block_size` of its first header has been
overwritten with `2^64 - 16`. -/
def arena1000_bad : State :=
  ⟨arena1000.heap, arena1000.heap_size, write_block_size arena1000.mem 4096 (WORD - 16)⟩

/-- The state after `init_heap(1000)`, `a = my_alloc_ff(48)` and the client storing the
bytes of `2^64 - 48` in the last 16 bytes of the payload of `a`. -/
def move_step1 : State :=
  poke (after_ff 8 arena1000 48) 4144 [208, 255, 255, 255, 255, 255, 255, 255]

/-- The state after, in addition, `p = my_alloc_ff(16)`, a further `my_alloc_ff(16)` and
`my_free(a)`. -/
def move_step2 : State := after_free 8 (after_ff 8 (after_ff 8 move_step1 16) 16) 4112

/-- The state after, in addition, the client storing 9 bytes (the number 32, then a 1) at
the start of the payload of `p`. -/
def move_state : State := poke move_step2 4176 [32, 0, 0, 0, 0, 0, 0, 0, 1]

/-- The state after `init_heap(1000)`, `p1 = my_alloc_ff(50)`, `p2 = my_alloc_ff(50)` and
`my_free(p1)`: a free block of 64 bytes, an occupied block of 64 bytes, the trailing free
block. -/
def arena_refit : State := after_free 8 arena1000_two 4112

/-- The state after, in addition, a third call `my_alloc_ff(50)`, which is served from the
free block of exactly 64 bytes. -/
def arena_exact : State := after_ff 8 arena_refit 50

/-- Sum of `header_size + block_size` over a walk, the total of `check_heap_integrity`. -/
def walk_sum (w : List Blk) : Nat := (w.map (fun b => header_size + b.2.1)).sum

/-- The total that `check_heap_integrity` accumulates over the walk `w`: the sum of
`header_size + block_size` in `size_t` arithmetic (`total_accounted` of the source). -/
def total_accounted (w : List Blk) : Nat :=
  w.foldl (fun t b => add64 t (add64 header_size b.2.1)) 0

/-- The walk that starts at address `a` visits the blocks `w`, in this order, and then
arrives at address `e` (`0` when the walk ends there): every block is read from its header
and its successor is the result of `next_block_header`. -/
def Path (s : State) : Nat → List Blk → Nat → Prop
  | a, [], e => a = e
  | a, b :: rest, e =>
    a ≠ 0 ∧ b.1 = a ∧ read_block_size s.mem a = b.2.1 ∧ read_is_free s.mem a = b.2.2
      ∧ Path s (next_block_header s a) rest e

/-- The state is accepted by `check_heap_integrity` with walk `w`: the walk from the arena
start visits `w` and ends, every header visited passes `is_valid_header`, and the total of
`header_size + block_size`, accumulated in `size_t`, is `heap_size`. Block ends may wrap
around the address space. -/
def Acc (s : State) (w : List Blk) : Prop :=
  s.heap ≠ 0 ∧ Path s s.heap w 0 ∧ (∀ b ∈ w, is_valid_header s b.1 = true)
    ∧ walk_sum w % WORD = s.heap_size

/-- The memory `m` with the header `(size, free)` stored at address `h`. -/
def put_header (m : Mem) (h size : Nat) (free : Bool) : Mem :=
  write_is_free (write_block_size m h size) h free

/-- An arena state (heap 4096, heap_size 128) that `check_heap_integrity` accepts although
one block end wraps: the walk is 4096 (48, occupied), 4160 (`2^64 - 48`, free), whose end
address wraps to 4128, then 4128 (48, free) and 4192 (16, occupied), which ends at the
arena end. -/
def wrap_ff : State :=
  ⟨4096, 128, put_header (put_header (put_header (put_header zero_mem 4096 48 false)
    4160 (WORD - 48) true) 4128 48 true) 4192 16 false⟩

/-- An arena state (heap 4096, heap_size 160) that `check_heap_integrity` accepts although
one block end wraps: the walk is 4096 (80, occupied), 4192 (16, free), 4224
(`2^64 - 112`, occupied), whose end address wraps to 4128, then 4128 (16, free) and 4160
(80, occupied), which ends at the arena end. -/
def wrap_bf : State :=
  ⟨4096, 160, put_header (put_header (put_header (put_header (put_header zero_mem
    4096 80 false) 4192 16 true) 4224 (WORD - 112) false) 4128 16 true) 4160 80 false⟩

/-- An arena state (heap 4096, heap_size 144) that `check_heap_integrity` accepts although
one block end wraps: the walk is 4096 (16, occupied), 4128 (64, free), 4208
(`2^64 - 80`, occupied), whose end address wraps to 4144, then 4144 (80, occupied), which
ends at the arena end. -/
def wrap_grow : State :=
  ⟨4096, 144, put_header (put_header (put_header (put_header zero_mem 4096 16 false)
    4128 64 true) 4208 (WORD - 80) false) 4144 80 false⟩

/-- An arena state (heap 4096, heap_size 128) that `check_heap_integrity` accepts although
one block end wraps: the walk is the three occupied blocks 4096 (48), 4160 (16) and 4192
(`2^64 - 80`), in address order, the last one ending (wrapped) at 4128, then the occupied
block 4128 (80), which ends at the arena end. -/
def wrap_three : State :=
  ⟨4096, 128, put_header (put_header (put_header (put_header zero_mem 4096 48 false)
    4160 16 false) 4192 (WORD - 80) false) 4128 80 false⟩

/-- The state after a call of `my_realloc_general` (the state itself if the call faults or
does not return). -/
def after_realloc (fuel : Nat) (s : State) (p n : Nat) (strategy : Bool) : State :=
  match my_realloc_general fuel s p n strategy with
  | some (Outcome.ret _ s') => s'
  | _ => s

/-! ## Codec and layout lemmas -/

theorem read_block_size_lt (m : Mem) (h : Nat) : read_block_size m h < WORD := by
  unfold read_block_size WORD
  omega

theorem read_write_block_size (m : Mem) (h v : Nat) :
    read_block_size (write_block_size m h v) h = v % WORD := by
  unfold read_block_size write_block_size WORD
  simp
  omega

theorem write_block_size_out (m : Mem) (h v a : Nat) (ha : a < h ∨ h + 8 ≤ a) :
    write_block_size m h v a = m a := by
  unfold write_block_size
  have h0 : a ≠ h := by omega
  have h1 : a ≠ h + 1 := by omega
  have h2 : a ≠ h + 2 := by omega
  have h3 : a ≠ h + 3 := by omega
  have h4 : a ≠ h + 4 := by omega
  have h5 : a ≠ h + 5 := by omega
  have h6 : a ≠ h + 6 := by omega
  have h7 : a ≠ h + 7 := by omega
  simp [h0, h1, h2, h3, h4, h5, h6, h7]

theorem write_is_free_out (m : Mem) (h : Nat) (b : Bool) (a : Nat) (ha : a ≠ h + 8) :
    write_is_free m h b a = m a := by
  unfold write_is_free
  simp [ha]

theorem read_write_is_free (m : Mem) (h : Nat) (b : Bool) :
    read_is_free (write_is_free m h b) h = b := by
  unfold read_is_free write_is_free
  cases b <;> simp

theorem read_block_size_congr (m m' : Mem) (h : Nat)
    (hm : ∀ x, h ≤ x → x < h + 8 → m' x = m x) :
    read_block_size m' h = read_block_size m h := by
  unfold read_block_size
  rw [hm h (by omega) (by omega), hm (h + 1) (by omega) (by omega),
    hm (h + 2) (by omega) (by omega), hm (h + 3) (by omega) (by omega),
    hm (h + 4) (by omega) (by omega), hm (h + 5) (by omega) (by omega),
    hm (h + 6) (by omega) (by omega), hm (h + 7) (by omega) (by omega)]

theorem read_is_free_congr (m m' : Mem) (h : Nat) (hm : m' (h + 8) = m (h + 8)) :
    read_is_free m' h = read_is_free m h := by
  unfold read_is_free
  rw [hm]


theorem Seg_le {m : Mem} {e : Nat} : ∀ {w : List Blk} {a : Nat}, Seg m e a w → a ≤ e
  | [], a, h => by simp [Seg] at h; omega
  | b :: rest, a, h => by
    obtain ⟨_, _, _, _, _, _, h7⟩ := h
    have := Seg_le h7
    omega

theorem Seg_len {m : Mem} {e : Nat} : ∀ {w : List Blk} {a : Nat}, Seg m e a w →
    a + 16 * w.length ≤ e
  | [], a, h => by simp [Seg] at h; simp; omega
  | b :: rest, a, h => by
    obtain ⟨_, _, _, _, _, _, h7⟩ := h
    have := Seg_len h7
    simp only [List.length_cons]
    omega

theorem Seg_congr {m m' : Mem} {e : Nat} : ∀ {w : List Blk} {a : Nat},
    (∀ x, a ≤ x → m' x = m x) → Seg m e a w → Seg m' e a w
  | [], a, _, h => h
  | b :: rest, a, hm, h => by
    obtain ⟨h1, h2, h3, h4, h5, h6, h7⟩ := h
    refine ⟨h1, h2, ?_, ?_, h5, h6, ?_⟩
    · rw [read_block_size_congr m m' a (fun x hx _ => hm x hx)]; exact h3
    · rw [read_is_free_congr m m' a (hm _ (by omega))]; exact h4
    · exact Seg_congr (fun x hx => hm x (by omega)) h7

theorem Seg_split {m : Mem} {e : Nat} {x : Blk} {post : List Blk} :
    ∀ {pre : List Blk} {a : Nat}, Seg m e a (pre ++ x :: post) →
      Seg m e x.1 (x :: post) ∧ a ≤ x.1 ∧ (pre ≠ [] → a + 16 ≤ x.1)
  | [], a, h => by
    have h1 : x.1 = a := h.1
    simp only [List.nil_append] at h
    rw [h1]
    exact ⟨h, le_refl _, fun hp => absurd rfl hp⟩
  | b :: pre, a, h => by
    obtain ⟨_, _, _, _, _, _, h7⟩ := h
    obtain ⟨r1, r2, _⟩ := Seg_split h7
    exact ⟨r1, by omega, fun _ => by omega⟩

theorem Seg_replace {m m' : Mem} {e : Nat} {x : Blk} {post mid : List Blk} (hmid : mid ≠ []) :
    ∀ {pre : List Blk} {a : Nat}, Seg m e a (pre ++ x :: post) →
      (∀ y, y < x.1 → m' y = m y) → Seg m' e x.1 mid → Seg m' e a (pre ++ mid)
  | [], a, h, _, hn => by
    have h1 : x.1 = a := h.1
    simpa [h1] using hn
  | b :: pre, a, h, hm, hn => by
    obtain ⟨h1, h2, h3, h4, h5, h6, h7⟩ := h
    obtain ⟨_, r2, _⟩ := Seg_split h7
    refine ⟨h1, h2, ?_, ?_, h5, ?_, Seg_replace hmid h7 hm hn⟩
    · rw [read_block_size_congr m m' a (fun y _ hy => hm y (by omega))]; exact h3
    · rw [read_is_free_congr m m' a (hm _ (by omega))]; exact h4
    · intro _
      exact h6 (by simp)

theorem next_block_header_seg {s : State} {b : Blk} {rest : List Blk} {a : Nat}
    (hW : s.heap + s.heap_size + 16 < WORD)
    (h : Seg s.mem (s.heap + s.heap_size) a (b :: rest)) :
    next_block_header s a = if rest = [] then 0 else a + 16 + b.2.1 := by
  obtain ⟨h1, h2, h3, h4, h5, h6, h7⟩ := h
  have hle := Seg_le h7
  unfold next_block_header add64 header_size
  simp only [h3]
  unfold WORD at *
  by_cases hr : rest = []
  · subst hr
    simp only [Seg] at h7
    simp only [if_true]
    rw [if_pos]
    omega
  · have := h6 hr
    simp only [hr, if_false]
    rw [if_neg]
    · omega
    · omega


theorem heap_walk_seg {s : State} (hW : s.heap + s.heap_size + 16 < WORD) :
    ∀ {w : List Blk} {a : Nat} (fuel : Nat), w ≠ [] → 0 < a →
      Seg s.mem (s.heap + s.heap_size) a w → w.length < fuel → heap_walk s fuel a = some w
  | [], _, _, hne, _, _, _ => absurd rfl hne
  | b :: rest, a, 0, _, _, _, hf => by simp at hf
  | b :: rest, a, fuel + 1, _, ha, h, hf => by
    have hn := next_block_header_seg hW h
    obtain ⟨h1, h2, h3, h4, h5, h6, h7⟩ := h
    have ha0 : a ≠ 0 := by omega
    simp only [heap_walk, ha0, if_false, hn]
    by_cases hr : rest = []
    · subst hr
      cases fuel with
      | zero => simp at hf
      | succ f =>
        simp only [if_true, heap_walk]
        rw [h3, h4, ← h1]
    · simp only [hr, if_false]
      have hlen : rest.length < fuel := by simp only [List.length_cons] at hf; omega
      rw [heap_walk_seg hW fuel hr (by omega) h7 hlen]
      simp only
      rw [h3, h4, ← h1]

theorem is_valid_header_seg {s : State} {b : Blk} {rest : List Blk} {a : Nat}
    (hW : s.heap + s.heap_size + 16 < WORD) (hlo : s.heap ≤ a)
    (h : Seg s.mem (s.heap + s.heap_size) a (b :: rest)) : is_valid_header s a = true := by
  obtain ⟨h1, h2, h3, h4, h5, h6, h7⟩ := h
  have hle := Seg_le h7
  unfold is_valid_header add64 header_size ALIGNMENT
  simp only [h3]
  unfold WORD at *
  rw [if_neg (by omega), if_neg (by omega), if_neg (by omega), if_neg (by omega)]
  cases read_is_free s.mem a <;> simp

theorem check_loop_seg {s : State} (hW : s.heap + s.heap_size + 16 < WORD) :
    ∀ {w : List Blk} {a : Nat} (fuel total : Nat), w ≠ [] → 0 < a → s.heap ≤ a →
      total + s.heap = a →
      Seg s.mem (s.heap + s.heap_size) a w → w.length < fuel →
      check_heap_integrity_loop s fuel a total = some true
  | [], _, _, _, hne, _, _, _, _, _ => absurd rfl hne
  | b :: rest, a, 0, _, _, _, _, _, _, hf => by simp at hf
  | b :: rest, a, fuel + 1, total, _, ha, hlo, ht, h, hf => by
    have hn := next_block_header_seg hW h
    have hv := is_valid_header_seg hW hlo h
    obtain ⟨h1, h2, h3, h4, h5, h6, h7⟩ := h
    have hle := Seg_le h7
    have ha0 : a ≠ 0 := by omega
    simp only [check_heap_integrity_loop, ha0, if_false, hn, hv, not_true_eq_false]
    have htot : add64 total (add64 header_size (read_block_size s.mem a))
        = total + 16 + b.2.1 := by
      unfold add64 header_size
      rw [h3]
      unfold WORD at *
      omega
    rw [htot]
    by_cases hr : rest = []
    · subst hr
      simp only [Seg] at h7
      cases fuel with
      | zero => simp at hf
      | succ f =>
        simp only [if_true, check_heap_integrity_loop]
        rw [if_neg]
        omega
    · simp only [hr, if_false]
      have hlen : rest.length < fuel := by simp only [List.length_cons] at hf; omega
      exact check_loop_seg hW fuel _ hr (by omega) (by omega) (by omega) h7 hlen

theorem Lay_fuel {s : State} {w : List Blk} (h : Lay s w) {fuel : Nat}
    (hf : s.heap_size ≤ fuel) : w.length < fuel := by
  obtain ⟨_, _, hne, hs⟩ := h
  have := Seg_len hs
  cases w with
  | nil => exact absurd rfl hne
  | cons b rest =>
    simp only [List.length_cons] at *
    omega

theorem Lay_heap_walk {s : State} {w : List Blk} (h : Lay s w) {fuel : Nat}
    (hf : s.heap_size ≤ fuel) : heap_walk s fuel s.heap = some w :=
  heap_walk_seg h.2.1 fuel h.2.2.1 (Nat.pos_of_ne_zero h.1) h.2.2.2 (Lay_fuel h hf)

theorem next_block_header_eq (s : State) (cur : Nat) :
    next_block_header s cur =
      if (((cur + 16) % WORD + read_block_size s.mem cur) % WORD + 16) % WORD
          ≥ (s.heap + s.heap_size) % WORD then 0
      else ((cur + 16) % WORD + read_block_size s.mem cur) % WORD := by
  simp only [next_block_header, add64, header_size]

theorem is_valid_header_iff (s : State) (h : Nat) :
    is_valid_header s h = true ↔
      s.heap ≤ h ∧ h < (s.heap + s.heap_size) % WORD ∧ h % 16 = 0
        ∧ read_block_size s.mem h % 16 = 0
        ∧ ((h + 16) % WORD + read_block_size s.mem h) % WORD ≤ (s.heap + s.heap_size) % WORD := by
  simp only [is_valid_header, add64, header_size, ALIGNMENT]
  constructor
  · intro hv
    split at hv
    · simp at hv
    rename_i hb1
    split at hv
    · simp at hv
    rename_i hb2
    split at hv
    · simp at hv
    rename_i hb3
    split at hv
    · simp at hv
    rename_i hb4
    omega
  · rintro ⟨h1, h2, h3, h4, h5⟩
    rw [if_neg (by omega), if_neg (by omega), if_neg (by omega), if_neg (by omega)]
    cases read_is_free s.mem h <;> simp

theorem seg_of_check_loop {s : State} :
    ∀ (fuel : Nat) (cur total : Nat) (w : List Blk), cur ≠ 0 → total + s.heap = cur →
      check_heap_integrity_loop s fuel cur total = some true →
      heap_walk s fuel cur = some w →
      (∀ b ∈ w, b.1 + header_size + b.2.1 < WORD) →
      Seg s.mem (s.heap + s.heap_size) cur w ∧ w ≠ [] ∧ s.heap + s.heap_size + 16 < WORD
  | 0, _, _, _, _, _, hc, _, _ => by simp [check_heap_integrity_loop] at hc
  | fuel + 1, cur, total, w, hcur, ht, hc, hw, hnw => by
    simp only [check_heap_integrity_loop, hcur, if_false] at hc
    by_cases hv : is_valid_header s cur = true
    · simp only [hv, not_true_eq_false, if_false] at hc
      simp only [heap_walk, hcur, if_false] at hw
      cases hrest : heap_walk s fuel (next_block_header s cur) with
      | none => simp [hrest] at hw
      | some rest =>
        simp only [hrest, Option.some.injEq] at hw
        subst hw
        have hnw0 := hnw _ (List.mem_cons_self _ _)
        simp only [header_size] at hnw0
        have hnwr : ∀ b ∈ rest, b.1 + header_size + b.2.1 < WORD :=
          fun b hb => hnw b (List.mem_cons_of_mem _ hb)
        obtain ⟨hb1, hb2, hb3, hb4, hb5⟩ := (is_valid_header_iff s cur).mp hv
        have hsum : add64 total (add64 header_size (read_block_size s.mem cur))
            = total + 16 + read_block_size s.mem cur := by
          simp only [add64, header_size]
          unfold WORD at *
          omega
        rw [hsum] at hc
        have hnb := next_block_header_eq s cur
        by_cases hnx : next_block_header s cur = 0
        · rw [hnx] at hc hrest
          rw [hnx] at hnb
          cases fuel with
          | zero => simp [check_heap_integrity_loop] at hc
          | succ f =>
            simp only [check_heap_integrity_loop, if_true] at hc
            simp only [heap_walk, if_true, Option.some.injEq] at hrest
            subst hrest
            have htot : total + 16 + read_block_size s.mem cur = s.heap_size := by
              by_contra hne
              simp [hne] at hc
            unfold WORD at *
            simp only [Seg]
            refine ⟨⟨trivial, hb3, trivial, trivial, hb4, ?_, ?_⟩, by simp, ?_⟩
            · intro h; exact absurd rfl h
            · omega
            · split at hnb
              · omega
              · omega
        · have hnext : next_block_header s cur = cur + 16 + read_block_size s.mem cur := by
            rw [hnb] at hnx ⊢
            unfold WORD at *
            split at hnx
            · exact absurd rfl hnx
            · rw [if_neg (by assumption)]
              omega
          have ih := seg_of_check_loop fuel (next_block_header s cur) _ rest hnx
            (by rw [hnext]; omega) hc hrest hnwr
          obtain ⟨ih1, ih2, ih3⟩ := ih
          rw [hnext] at ih1
          have hroom : cur + 16 + read_block_size s.mem cur + 16 < s.heap + s.heap_size := by
            have hl := Seg_len ih1
            have hpos : 0 < rest.length := List.length_pos.mpr ih2
            rw [hnb] at hnx
            unfold WORD at *
            split at hnx
            · exact absurd rfl hnx
            · omega
          exact ⟨⟨rfl, hb3, rfl, rfl, hb4, fun _ => hroom, ih1⟩, by simp, ih3⟩
    · simp [hv] at hc

theorem Lay_of_check {s : State} {fuel : Nat} (hI : check_heap_integrity fuel s = some true)
    (hN : walk_no_wrap fuel s = true) : ∃ w, Lay s w := by
  unfold check_heap_integrity at hI
  by_cases hh : s.heap = 0
  · simp [hh] at hI
  · rw [if_neg hh] at hI
    unfold walk_no_wrap at hN
    cases hw : heap_walk s fuel s.heap with
    | none => simp [hw] at hN
    | some w =>
      simp only [hw, List.all_eq_true, decide_eq_true_eq] at hN
      obtain ⟨h1, h2, h3⟩ := seg_of_check_loop fuel s.heap 0 w hh (by omega) hI hw hN
      exact ⟨w, hh, h3, h2, h1⟩


theorem read_block_size_write_is_free (m : Mem) (h h' : Nat) (b : Bool)
    (hd : h + 8 < h' ∨ h' ≤ h) :
    read_block_size (write_is_free m h b) h' = read_block_size m h' :=
  read_block_size_congr _ _ _ (fun x _ _ => write_is_free_out m h b x (by omega))

theorem read_is_free_write_block_size (m : Mem) (h h' v : Nat)
    (hd : h' + 8 < h ∨ h ≤ h') :
    read_is_free (write_block_size m h v) h' = read_is_free m h' :=
  read_is_free_congr _ _ _ (write_block_size_out m h v _ (by omega))

theorem read_block_size_write_block_size (m : Mem) (h h' v : Nat)
    (hd : h' + 8 ≤ h ∨ h + 8 ≤ h') :
    read_block_size (write_block_size m h v) h' = read_block_size m h' :=
  read_block_size_congr _ _ _ (fun x _ _ => write_block_size_out m h v x (by omega))

theorem read_is_free_write_is_free (m : Mem) (h h' : Nat) (b : Bool) (hd : h ≠ h') :
    read_is_free (write_is_free m h b) h' = read_is_free m h' :=
  read_is_free_congr _ _ _ (write_is_free_out m h b _ (by omega))

theorem round_up_spec (n : Nat) (hn : n + 16 ≤ WORD) :
    round_up n % 16 = 0 ∧ n ≤ round_up n ∧ round_up n < n + 16
      ∧ ∀ k, k % 16 = 0 → n ≤ k → round_up n ≤ k := by
  unfold round_up add64
  unfold WORD at *
  split
  · have h : (n + (16 - n % 16)) % 18446744073709551616 = n + (16 - n % 16) := by omega
    rw [h]
    refine ⟨by omega, by omega, by omega, fun k hk hnk => by omega⟩
  · refine ⟨by omega, by omega, by omega, fun k _ hnk => hnk⟩


/-! ## Allocation over a tiled arena -/

theorem Seg_addr_ge {m : Mem} {e : Nat} : ∀ {w : List Blk} {a : Nat}, Seg m e a w →
    ∀ c ∈ w, a ≤ c.1
  | [], _, _, c, hc => by simp at hc
  | b :: rest, a, h, c, hc => by
    obtain ⟨h1, _, _, _, _, _, h7⟩ := h
    rcases List.mem_cons.mp hc with hc | hc
    · rw [hc, h1]
    · have := Seg_addr_ge h7 c hc
      omega

theorem Seg_post_gt {m : Mem} {e : Nat} {x : Blk} {post : List Blk} {pre : List Blk} {a : Nat}
    (h : Seg m e a (pre ++ x :: post)) : ∀ c ∈ post, x.1 < c.1 := by
  intro c hc
  obtain ⟨h1, _, _, _, _, _, h7⟩ := (Seg_split h).1
  have := Seg_addr_ge h7 c hc
  omega

theorem first_fit_split (R : Nat) : ∀ (w : List Blk), (∃ b ∈ w, fits R b) →
    ∃ pre x post, w = pre ++ x :: post ∧ fits R x ∧ ∀ c ∈ pre, ¬ fits R c
  | [], h => by simp at h
  | b :: rest, h => by
    by_cases hb : fits R b
    · exact ⟨[], b, rest, rfl, hb, by simp⟩
    · obtain ⟨c, hc, hfc⟩ := h
      have hrest : ∃ b ∈ rest, fits R b := by
        rcases List.mem_cons.mp hc with hc | hc
        · rw [hc] at hfc; exact absurd hfc hb
        · exact ⟨c, hc, hfc⟩
      obtain ⟨pre, x, post, hw, hx, hpre⟩ := first_fit_split R rest hrest
      refine ⟨b :: pre, x, post, by rw [hw]; rfl, hx, ?_⟩
      intro c hc
      rcases List.mem_cons.mp hc with hc | hc
      · rw [hc]; exact hb
      · exact hpre c hc

theorem my_alloc_ff_loop_none {s : State} (hW : s.heap + s.heap_size + 16 < WORD) (R : Nat) :
    ∀ {w : List Blk} {a : Nat} (fuel : Nat), w ≠ [] → 0 < a →
      Seg s.mem (s.heap + s.heap_size) a w → w.length < fuel → (∀ c ∈ w, ¬ fits R c) →
      my_alloc_ff_loop s R fuel a = some (none, s)
  | [], _, _, hne, _, _, _, _ => absurd rfl hne
  | b :: rest, a, 0, _, _, _, hf, _ => by simp at hf
  | b :: rest, a, fuel + 1, _, ha, h, hf, hno => by
    have hn := next_block_header_seg hW h
    obtain ⟨h1, h2, h3, h4, h5, h6, h7⟩ := h
    have ha0 : a ≠ 0 := by omega
    have hb : ¬ (read_is_free s.mem a = true ∧ read_block_size s.mem a ≥ R) := by
      rw [h3, h4]
      exact hno b (List.mem_cons_self _ _)
    simp only [my_alloc_ff_loop, ha0, if_false, hb, hn]
    by_cases hr : rest = []
    · subst hr
      cases fuel with
      | zero => simp at hf
      | succ f => simp [my_alloc_ff_loop]
    · simp only [hr, if_false]
      have hlen : rest.length < fuel := by simp only [List.length_cons] at hf; omega
      exact my_alloc_ff_loop_none hW R fuel hr (by omega) h7 hlen
        (fun c hc => hno c (List.mem_cons_of_mem _ hc))

theorem my_alloc_ff_loop_some {s : State} (hW : s.heap + s.heap_size + 16 < WORD) (R : Nat)
    {x : Blk} {post : List Blk} (hx : fits R x) :
    ∀ {pre : List Blk} {a : Nat} (fuel : Nat), 0 < a →
      Seg s.mem (s.heap + s.heap_size) a (pre ++ x :: post) → pre.length < fuel →
      (∀ c ∈ pre, ¬ fits R c) →
      my_alloc_ff_loop s R fuel a
        = some (some (grant_block s x.1 R).1, (grant_block s x.1 R).2)
  | _, a, 0, _, _, hf, _ => by simp at hf
  | [], a, fuel + 1, ha, h, _, _ => by
    obtain ⟨h1, h2, h3, h4, h5, h6, h7⟩ := h
    have ha0 : a ≠ 0 := by omega
    have hb : read_is_free s.mem a = true ∧ read_block_size s.mem a ≥ R := by
      rw [h3, h4]; exact hx
    simp only [my_alloc_ff_loop, ha0, if_false, hb, and_self, if_true, h1]
  | b :: pre, a, fuel + 1, ha, h, hf, hno => by
    have h' : Seg s.mem (s.heap + s.heap_size) a (b :: (pre ++ x :: post)) := h
    have hn := next_block_header_seg hW h'
    obtain ⟨h1, h2, h3, h4, h5, h6, h7⟩ := h'
    have ha0 : a ≠ 0 := by omega
    have hb : ¬ (read_is_free s.mem a = true ∧ read_block_size s.mem a ≥ R) := by
      rw [h3, h4]
      exact hno b (List.mem_cons_self _ _)
    have hr : pre ++ x :: post ≠ [] := by simp
    simp only [my_alloc_ff_loop, ha0, if_false, hb, hn, hr]
    have hlen : pre.length < fuel := by simp only [List.length_cons] at hf; omega
    exact my_alloc_ff_loop_some hW R hx fuel (by omega) h7 hlen
      (fun c hc => hno c (List.mem_cons_of_mem _ hc))

theorem length_pre_lt {pre : List Blk} {x : Blk} {post : List Blk} {k : Nat}
    (h : (pre ++ x :: post).length < k) : pre.length < k := by
  simp only [List.length_append, List.length_cons] at h
  omega

theorem my_alloc_ff_Lay {s : State} {w : List Blk} (hL : Lay s w) {n fuel : Nat}
    (h1 : 1 ≤ n) (h2 : n ≤ s.heap_size) (hf : s.heap_size ≤ fuel) :
    ((∀ b ∈ w, ¬ fits (round_up n) b) ∧ my_alloc_ff fuel s n = some (none, s))
    ∨ ∃ pre x post, w = pre ++ x :: post ∧ fits (round_up n) x
        ∧ (∀ c ∈ pre, ¬ fits (round_up n) c)
        ∧ my_alloc_ff fuel s n = some (some (grant_block s x.1 (round_up n)).1,
            (grant_block s x.1 (round_up n)).2) := by
  have hlen := Lay_fuel hL hf
  obtain ⟨hh, hW, hne, hs⟩ := hL
  have hdef : my_alloc_ff fuel s n = my_alloc_ff_loop s (round_up n) fuel s.heap := by
    unfold my_alloc_ff
    rw [if_neg hh, if_neg (by omega), if_neg (by omega)]
  rw [hdef]
  by_cases hex : ∃ b ∈ w, fits (round_up n) b
  · right
    obtain ⟨pre, x, post, hw, hx, hpre⟩ := first_fit_split _ w hex
    subst hw
    exact ⟨pre, x, post, rfl, hx, hpre,
      my_alloc_ff_loop_some hW _ hx fuel (Nat.pos_of_ne_zero hh) hs (length_pre_lt hlen) hpre⟩
  · left
    have hno : ∀ c ∈ w, ¬ fits (round_up n) c := fun c hc hfc => hex ⟨c, hc, hfc⟩
    exact ⟨hno, my_alloc_ff_loop_none hW _ fuel hne (Nat.pos_of_ne_zero hh) hs hlen hno⟩

theorem grant_block_split_eq {s : State} {a S R : Nat} (hS : read_block_size s.mem a = S)
    (hw : a + 16 + S < WORD) (hR : R + 32 ≤ S) :
    grant_block s a R = (a + 16, ⟨s.heap, s.heap_size,
      write_is_free (write_block_size (write_is_free (write_block_size s.mem a R) a false)
        (a + 16 + R) (S - R - 16)) (a + 16 + R) true⟩) := by
  simp only [grant_block, add64, sub64, header_size, hS]
  unfold WORD at *
  have e1 : ((S + 18446744073709551616 - R % 18446744073709551616) % 18446744073709551616
      + 18446744073709551616 - 16 % 18446744073709551616) % 18446744073709551616
      = S - R - 16 := by omega
  have e2 : (a + 16) % 18446744073709551616 = a + 16 := by omega
  have e3 : (a + 16 + R) % 18446744073709551616 = a + 16 + R := by omega
  rw [e1, e2, e3, if_neg (by omega)]

theorem grant_block_fst {s : State} {a R : Nat} (hw : a + 16 < WORD) :
    (grant_block s a R).1 = a + 16 := by
  simp only [grant_block, add64, header_size]
  unfold WORD at *
  split <;> simp only <;> omega

theorem grant_block_heap (s : State) (a R : Nat) :
    (grant_block s a R).2.heap = s.heap ∧ (grant_block s a R).2.heap_size = s.heap_size := by
  simp only [grant_block]
  split <;> exact ⟨rfl, rfl⟩

/-! ## Best fit over a tiled arena -/

theorem bf_pick_none (R : Nat) : ∀ (w : List Blk) (acc : Option Blk),
    bf_pick R w acc = none ↔ acc = none ∧ ∀ b ∈ w, ¬ fits R b
  | [], acc => by simp [bf_pick]
  | b :: rest, acc => by
    simp only [bf_pick]
    rw [bf_pick_none R rest]
    unfold bf_step
    by_cases hb : fits R b
    · simp only [hb, if_true]
      constructor
      · rintro ⟨h, _⟩
        cases acc with
        | none => simp at h
        | some c => simp only at h; split at h <;> simp at h
      · rintro ⟨_, h⟩
        exact absurd hb (h b (List.mem_cons_self _ _))
    · simp only [hb, if_false, List.mem_cons, forall_eq_or_imp, not_false_eq_true, true_and]

theorem bf_pick_some (R : Nat) : ∀ (w : List Blk) (acc : Option Blk) (x : Blk),
    bf_pick R w acc = some x →
      (acc = some x ∧ ∀ c ∈ w, fits R c → x.2.1 ≤ c.2.1)
      ∨ ∃ pre post, w = pre ++ x :: post ∧ fits R x
          ∧ (∀ c ∈ pre, fits R c → x.2.1 < c.2.1)
          ∧ (∀ c ∈ post, fits R c → x.2.1 ≤ c.2.1)
          ∧ (∀ a, acc = some a → x.2.1 < a.2.1)
  | [], acc, x, h => by
    left
    simp only [bf_pick] at h
    exact ⟨h, by simp⟩
  | b :: rest, acc, x, h => by
    simp only [bf_pick] at h
    rcases bf_pick_some R rest _ x h with ⟨hacc, hmin⟩ | ⟨pre, post, hw, hx, hpre, hpost, hlt⟩
    · unfold bf_step at hacc
      by_cases hb : fits R b
      · simp only [hb, if_true] at hacc
        cases acc with
        | none =>
          simp only [Option.some.injEq] at hacc
          subst hacc
          right
          exact ⟨[], rest, rfl, hb, by simp, hmin, by simp⟩
        | some c =>
          simp only at hacc
          by_cases hlt : b.2.1 < c.2.1
          · simp only [hlt, if_true, Option.some.injEq] at hacc
            subst hacc
            right
            refine ⟨[], rest, rfl, hb, by simp, hmin, ?_⟩
            intro a ha
            simp only [Option.some.injEq] at ha
            subst ha
            exact hlt
          · simp only [hlt, if_false, Option.some.injEq] at hacc
            subst hacc
            left
            refine ⟨rfl, ?_⟩
            intro d hd hfd
            rcases List.mem_cons.mp hd with hd | hd
            · rw [hd]; omega
            · exact hmin d hd hfd
      · simp only [hb, if_false] at hacc
        left
        refine ⟨hacc, ?_⟩
        intro d hd hfd
        rcases List.mem_cons.mp hd with hd | hd
        · rw [hd] at hfd; exact absurd hfd hb
        · exact hmin d hd hfd
    · right
      refine ⟨b :: pre, post, by rw [hw]; rfl, hx, ?_, hpost, ?_⟩
      · intro d hd hfd
        unfold bf_step at hlt
        rcases List.mem_cons.mp hd with hd | hd
        · subst hd
          simp only [hfd, if_true] at hlt
          cases acc with
          | none => exact hlt d rfl
          | some c =>
            simp only at hlt
            by_cases hdc : d.2.1 < c.2.1
            · simp only [hdc, if_true] at hlt
              exact hlt d rfl
            · simp only [hdc, if_false] at hlt
              have := hlt c rfl
              omega
        · exact hpre d hd hfd
      · intro a ha
        subst ha
        unfold bf_step at hlt
        by_cases hb : fits R b
        · simp only [hb, if_true] at hlt
          by_cases hba : b.2.1 < a.2.1
          · simp only [hba, if_true] at hlt
            have := hlt b rfl
            omega
          · simp only [hba, if_false] at hlt
            exact hlt a rfl
        · simp only [hb, if_false] at hlt
          exact hlt a rfl

theorem my_alloc_bf_loop_seg {s : State} (hW : s.heap + s.heap_size + 16 < WORD) (R : Nat) :
    ∀ {w : List Blk} {a : Nat} (fuel : Nat) (sm : Nat) (acc : Option Blk), w ≠ [] → 0 < a →
      Seg s.mem (s.heap + s.heap_size) a w → w.length < fuel →
      ((acc = none ∧ sm = 0)
        ∨ ∃ c, acc = some c ∧ sm = c.1 ∧ c.1 ≠ 0 ∧ read_block_size s.mem c.1 = c.2.1) →
      my_alloc_bf_loop s R fuel a sm = some (cand_addr (bf_pick R w acc))
  | [], _, _, _, _, hne, _, _, _, _ => absurd rfl hne
  | b :: rest, a, 0, _, _, _, _, _, hf, _ => by simp at hf
  | b :: rest, a, fuel + 1, sm, acc, _, ha, h, hf, hacc => by
    have hn := next_block_header_seg hW h
    obtain ⟨h1, h2, h3, h4, h5, h6, h7⟩ := h
    have ha0 : a ≠ 0 := by omega
    have hfit : (read_is_free s.mem a = true ∧ read_block_size s.mem a ≥ R) ↔ fits R b := by
      rw [h3, h4]; rfl
    have hstep : (bf_step R b acc = none
          ∧ (if read_is_free s.mem a = true ∧ read_block_size s.mem a ≥ R then
              if sm = 0 ∨ read_block_size s.mem a < read_block_size s.mem sm then a else sm
            else sm) = 0)
        ∨ ∃ c, bf_step R b acc = some c
          ∧ (if read_is_free s.mem a = true ∧ read_block_size s.mem a ≥ R then
              if sm = 0 ∨ read_block_size s.mem a < read_block_size s.mem sm then a else sm
            else sm) = c.1 ∧ c.1 ≠ 0 ∧ read_block_size s.mem c.1 = c.2.1 := by
      unfold bf_step
      by_cases hb : fits R b
      · right
        simp only [hb, if_true, hfit]
        rcases hacc with ⟨hacc, hsm⟩ | ⟨c, hacc, hsm, hc0, hcs⟩
        · subst hacc hsm
          exact ⟨b, rfl, by simp [h1], by rw [h1]; exact ha0, by rw [h1]; exact h3⟩
        · subst hacc
          have hsm0 : sm ≠ 0 := by rw [hsm]; exact hc0
          simp only [hsm0, false_or]
          rw [hsm, hcs, h3]
          by_cases hlt : b.2.1 < c.2.1
          · simp only [hlt, if_true]
            exact ⟨b, rfl, h1.symm, by rw [h1]; exact ha0, by rw [h1]; exact h3⟩
          · simp only [hlt, if_false]
            exact ⟨c, rfl, rfl, hc0, hcs⟩
      · have hb' : ¬ (read_is_free s.mem a = true ∧ read_block_size s.mem a ≥ R) :=
          fun hh => hb (hfit.mp hh)
        simp only [hb, hb', if_false]
        exact hacc
    simp only [my_alloc_bf_loop, ha0, if_false, hn, bf_pick]
    by_cases hr : rest = []
    · subst hr
      cases fuel with
      | zero => simp at hf
      | succ f =>
        simp only [if_true, my_alloc_bf_loop, bf_pick, Option.some.injEq]
        rcases hstep with ⟨e1, e2⟩ | ⟨c, e1, e2, _, _⟩
        · rw [e1, e2]; rfl
        · rw [e1, e2]; rfl
    · simp only [hr, if_false]
      have hlen : rest.length < fuel := by simp only [List.length_cons] at hf; omega
      exact my_alloc_bf_loop_seg hW R fuel _ _ hr (by omega) h7 hlen hstep

theorem my_alloc_bf_Lay {s : State} {w : List Blk} (hL : Lay s w) {n fuel : Nat}
    (h1 : 1 ≤ n) (h2 : n ≤ s.heap_size) (hf : s.heap_size ≤ fuel) :
    ((∀ b ∈ w, ¬ fits (round_up n) b) ∧ my_alloc_bf fuel s n = some (none, s))
    ∨ ∃ pre x post, w = pre ++ x :: post ∧ fits (round_up n) x
        ∧ (∀ c ∈ pre, fits (round_up n) c → x.2.1 < c.2.1)
        ∧ (∀ c ∈ post, fits (round_up n) c → x.2.1 ≤ c.2.1)
        ∧ my_alloc_bf fuel s n = some (some (grant_block s x.1 (round_up n)).1,
            (grant_block s x.1 (round_up n)).2) := by
  have hlen := Lay_fuel hL hf
  obtain ⟨hh, hW, hne, hs⟩ := hL
  have hnz : ∀ c ∈ w, c.1 ≠ 0 := by
    intro c hc
    have := Seg_addr_ge hs c hc
    omega
  have hloop := my_alloc_bf_loop_seg hW (round_up n) fuel 0 none hne (Nat.pos_of_ne_zero hh)
    hs hlen (Or.inl ⟨rfl, rfl⟩)
  unfold my_alloc_bf
  rw [if_neg hh, if_neg (by omega), if_neg (by omega), hloop]
  simp only
  cases hp : bf_pick (round_up n) w none with
  | none =>
    left
    simp only [cand_addr, if_true]
    exact ⟨((bf_pick_none _ w none).mp hp).2, trivial⟩
  | some x =>
    right
    rcases bf_pick_some _ w none x hp with ⟨hacc, _⟩ | ⟨pre, post, hw, hx, hpre, hpost, _⟩
    · simp at hacc
    · have hx0 : x.1 ≠ 0 := hnz x (by rw [hw]; simp)
      simp only [cand_addr, hx0, if_false]
      exact ⟨pre, x, post, hw, hx, hpre, hpost, rfl⟩

/-! ## Membership in a split walk -/

theorem mem_split_cases {pre post : List Blk} {x c : Blk} (h : c ∈ pre ++ x :: post) :
    c ∈ pre ∨ c = x ∨ c ∈ post := by
  rcases List.mem_append.mp h with h | h
  · exact Or.inl h
  · rcases List.mem_cons.mp h with h | h
    · exact Or.inr (Or.inl h)
    · exact Or.inr (Or.inr h)

theorem Lay_walk_eq {s : State} {w w' : List Blk} (hL : Lay s w) {fuel : Nat}
    (hf : s.heap_size ≤ fuel) (hw : heap_walk s fuel s.heap = some w') : w = w' := by
  rw [Lay_heap_walk hL hf] at hw
  exact Option.some.inj hw

theorem alloc_some_request {fuel : Nat} {s s' : State} {n p : Nat}
    (h : my_alloc_ff fuel s n = some (some p, s')
      ∨ my_alloc_bf fuel s n = some (some p, s')) : 1 ≤ n ∧ n ≤ s.heap_size := by
  by_contra hc
  have hbad : s.heap = 0 ∨ n = 0 ∨ n > s.heap_size := by omega
  rcases h with h | h
  · unfold my_alloc_ff at h
    by_cases h1 : s.heap = 0
    · simp [h1] at h
    · by_cases h2 : n > s.heap_size
      · simp [h1, h2] at h
      · have h3 : n = 0 := by omega
        simp [h1, h3] at h
  · unfold my_alloc_bf at h
    by_cases h1 : s.heap = 0
    · simp [h1] at h
    · by_cases h2 : n > s.heap_size
      · simp [h1, h2] at h
      · have h3 : n = 0 := by omega
        simp [h1, h3] at h

/-! ## Deallocation: the two coalescing steps -/

theorem my_free_occupied {fuel : Nat} {s : State} {p x : Nat} (hp : p ≠ 0)
    (hh : header_from_data_ptr s p = x) (hx : x ≠ 0) (hfree : read_is_free s.mem x = false) :
    my_free fuel s p
      = coalesce_prev fuel (coalesce_next ⟨s.heap, s.heap_size, write_is_free s.mem x true⟩ x)
          x := by
  unfold my_free
  rw [if_neg hp]
  simp only [hh, hx, if_false, hfree, Bool.false_eq_true]
  rfl

theorem left_occ_nil : left_occ [] := by
  intro pre' q h
  simp at h

theorem left_occ_snoc (pre : List Blk) {q : Blk} (hq : q.2.2 = false) :
    left_occ (pre ++ [q]) := by
  intro pre' q' h
  have := (List.append_inj' h rfl).2
  simp only [List.cons.injEq, and_true] at this
  rw [← this]
  exact hq

theorem right_occ_cons (post : List Blk) {y : Blk} (hy : y.2.2 = false) :
    right_occ (y :: post) := by
  intro y' post' h
  simp only [List.cons.injEq] at h
  rw [← h.1]
  exact hy

/-! ## Freeing three adjacent blocks -/

theorem free3_eq {fuel : Nat} {s s1 s2 s3 : State} {p1 p2 p3 : Nat}
    (e1 : my_free fuel s p1 = some s1) (e2 : my_free fuel s1 p2 = some s2)
    (e3 : my_free fuel s2 p3 = some s3) : free3 fuel s p1 p2 p3 = some s3 := by
  simp only [free3, e1, e2, e3]

/-! ## Pointer resolution and resizing -/

theorem round_up_aligned {r : Nat} (h : r % 16 = 0) : round_up r = r := by
  unfold round_up
  rw [if_neg (by omega)]

theorem round_up_mod (n : Nat) : round_up n % 16 = 0 := by
  unfold round_up add64 WORD
  split <;> omega
/-! ## Walks of accepted states, block ends wrapping or not -/

theorem heap_walk_path {s : State} : ∀ (fuel a : Nat) (w : List Blk),
    heap_walk s fuel a = some w → Path s a w 0 ∧ w.length < fuel
  | 0, _, _, h => by simp [heap_walk] at h
  | fuel + 1, a, w, h => by
    simp only [heap_walk] at h
    by_cases ha : a = 0
    · simp only [ha, if_true, Option.some.injEq] at h
      subst h
      exact ⟨ha, by simp⟩
    · rw [if_neg ha] at h
      cases hr : heap_walk s fuel (next_block_header s a) with
      | none => simp [hr] at h
      | some rest =>
        simp only [hr, Option.some.injEq] at h
        subst h
        obtain ⟨h1, h2⟩ := heap_walk_path fuel _ rest hr
        exact ⟨⟨ha, rfl, rfl, rfl, h1⟩, by simp only [List.length_cons]; omega⟩

theorem path_heap_walk {s : State} : ∀ (w : List Blk) (a fuel : Nat),
    Path s a w 0 → w.length < fuel → heap_walk s fuel a = some w
  | _, _, 0, _, hf => by simp at hf
  | [], a, fuel + 1, h, _ => by
    have ha : a = 0 := h
    simp [heap_walk, ha]
  | b :: rest, a, fuel + 1, h, hf => by
    obtain ⟨h1, h2, h3, h4, h5⟩ := h
    have hlen : rest.length < fuel := by simp only [List.length_cons] at hf; omega
    simp only [heap_walk, if_neg h1, path_heap_walk rest _ fuel h5 hlen]
    obtain ⟨b1, b2, b3⟩ := b
    simp only at h2 h3 h4
    subst h2 h3 h4
    rfl

theorem walk_sum_cons (b : Blk) (rest : List Blk) :
    walk_sum (b :: rest) = 16 + b.2.1 + walk_sum rest := by
  simp [walk_sum, header_size]

theorem walk_sum_nil : walk_sum [] = 0 := rfl

theorem walk_sum_append (u v : List Blk) : walk_sum (u ++ v) = walk_sum u + walk_sum v := by
  simp [walk_sum]

theorem check_loop_path {s : State} : ∀ (fuel cur total : Nat),
    check_heap_integrity_loop s fuel cur total = some true → total < WORD →
    ∃ w, Path s cur w 0 ∧ w.length < fuel ∧ (∀ b ∈ w, is_valid_header s b.1 = true)
      ∧ (total + walk_sum w) % WORD = s.heap_size
  | 0, _, _, h, _ => by simp [check_heap_integrity_loop] at h
  | fuel + 1, cur, total, h, ht => by
    simp only [check_heap_integrity_loop] at h
    by_cases hc : cur = 0
    · simp only [hc, if_true] at h
      by_cases he : total = s.heap_size
      · refine ⟨[], hc, by simp, by simp, ?_⟩
        rw [walk_sum_nil, Nat.add_zero, Nat.mod_eq_of_lt ht]
        exact he
      · simp [he] at h
    · rw [if_neg hc] at h
      by_cases hv : is_valid_header s cur = true
      · simp only [hv, not_true_eq_false, if_false] at h
        obtain ⟨w, p1, p2, p3, p4⟩ := check_loop_path fuel _ _ h
          (by unfold add64; exact Nat.mod_lt _ (by unfold WORD; omega))
        refine ⟨(cur, read_block_size s.mem cur, read_is_free s.mem cur) :: w,
          ⟨hc, rfl, rfl, rfl, p1⟩, by simp only [List.length_cons]; omega, ?_, ?_⟩
        · intro b hb
          rcases List.mem_cons.mp hb with hb | hb
          · rw [hb]
            exact hv
          · exact p3 b hb
        · rw [walk_sum_cons]
          simp only [add64, header_size] at p4
          simp only
          unfold WORD at *
          omega
      · simp [hv] at h

theorem path_check_loop {s : State} : ∀ (w : List Blk) (cur total fuel : Nat),
    Path s cur w 0 → (∀ b ∈ w, is_valid_header s b.1 = true) → w.length < fuel →
    total < WORD → (total + walk_sum w) % WORD = s.heap_size →
    check_heap_integrity_loop s fuel cur total = some true
  | _, _, _, 0, _, _, hf, _, _ => by simp at hf
  | [], cur, total, fuel + 1, h, _, _, ht, hs => by
    have hc : cur = 0 := h
    rw [walk_sum_nil, Nat.add_zero, Nat.mod_eq_of_lt ht] at hs
    simp [check_heap_integrity_loop, hc, hs]
  | b :: rest, cur, total, fuel + 1, h, hv, hf, ht, hs => by
    obtain ⟨h1, h2, h3, h4, h5⟩ := h
    have hvc : is_valid_header s cur = true := by
      rw [← h2]
      exact hv b (by simp)
    simp only [check_heap_integrity_loop, if_neg h1, hvc, not_true_eq_false, if_false]
    refine path_check_loop rest _ _ fuel h5 (fun c hc => hv c (by simp [hc]))
      (by simp only [List.length_cons] at hf; omega)
      (by unfold add64; exact Nat.mod_lt _ (by unfold WORD; omega)) ?_
    rw [walk_sum_cons] at hs
    rw [h3]
    simp only [add64, header_size]
    unfold WORD at *
    omega

theorem Acc_of_check {s : State} {fuel : Nat} (hI : check_heap_integrity fuel s = some true) :
    ∃ w, Acc s w ∧ w.length < fuel := by
  unfold check_heap_integrity at hI
  by_cases hh : s.heap = 0
  · simp [hh] at hI
  · rw [if_neg hh] at hI
    obtain ⟨w, p1, p2, p3, p4⟩ := check_loop_path fuel _ _ hI (by unfold WORD; omega)
    rw [Nat.zero_add] at p4
    exact ⟨w, ⟨hh, p1, p3, p4⟩, p2⟩

theorem Acc_check {s : State} {w : List Blk} (h : Acc s w) {fuel : Nat}
    (hf : w.length < fuel) : check_heap_integrity fuel s = some true := by
  unfold check_heap_integrity
  rw [if_neg h.1]
  exact path_check_loop w _ _ fuel h.2.1 h.2.2.1 hf (by unfold WORD; omega)
    (by rw [Nat.zero_add]; exact h.2.2.2)

theorem Acc_heap_walk {s : State} {w : List Blk} (h : Acc s w) {fuel : Nat}
    (hf : w.length < fuel) : heap_walk s fuel s.heap = some w :=
  path_heap_walk w _ fuel h.2.1 hf

theorem Path_unique {s : State} : ∀ (w w' : List Blk) (a : Nat),
    Path s a w 0 → Path s a w' 0 → w = w'
  | [], [], _, _, _ => rfl
  | [], _ :: _, a, h, h' => absurd (show a = 0 from h) h'.1
  | _ :: _, [], a, h, h' => absurd (show a = 0 from h') h.1
  | b :: rest, b' :: rest', a, h, h' => by
    obtain ⟨h1, h2, h3, h4, h5⟩ := h
    obtain ⟨k1, k2, k3, k4, k5⟩ := h'
    have e := Path_unique rest rest' _ h5 k5
    obtain ⟨b1, b2, b3⟩ := b
    obtain ⟨c1, c2, c3⟩ := b'
    simp only at h2 h3 h4 k2 k3 k4
    subst h2 h3 h4 k3 k4 e
    simp [k2]

theorem Acc_walk_eq {s : State} {w w' : List Blk} (h : Acc s w) {fuel : Nat}
    (hw : heap_walk s fuel s.heap = some w') : w = w' ∧ w.length < fuel := by
  obtain ⟨p1, p2⟩ := heap_walk_path fuel _ _ hw
  have := Path_unique _ _ _ h.2.1 p1
  subst this
  exact ⟨rfl, p2⟩

theorem Path_mem {s : State} : ∀ {w : List Blk} {a e : Nat}, Path s a w e → ∀ b ∈ w,
    b.1 ≠ 0 ∧ read_block_size s.mem b.1 = b.2.1 ∧ read_is_free s.mem b.1 = b.2.2
  | [], _, _, _, b, hb => by simp at hb
  | c :: rest, a, e, h, b, hb => by
    obtain ⟨h1, h2, h3, h4, h5⟩ := h
    rcases List.mem_cons.mp hb with hb | hb
    · subst hb
      rw [h2]
      exact ⟨h1, h3, h4⟩
    · exact Path_mem h5 b hb

theorem Path_head {s : State} {x : Blk} {rest : List Blk} {a e : Nat}
    (h : Path s a (x :: rest) e) : x.1 = a := h.2.1

theorem Path_split {s : State} {e : Nat} {rest : List Blk} : ∀ {pre : List Blk} {a : Nat},
    Path s a (pre ++ rest) e → ∃ m, Path s a pre m ∧ Path s m rest e
  | [], a, h => ⟨a, rfl, h⟩
  | b :: pre, a, h => by
    have h' : Path s a (b :: (pre ++ rest)) e := h
    obtain ⟨h1, h2, h3, h4, h5⟩ := h'
    obtain ⟨m, p1, p2⟩ := Path_split h5
    exact ⟨m, ⟨h1, h2, h3, h4, p1⟩, p2⟩

theorem Path_append {s : State} {e m : Nat} {rest : List Blk} : ∀ {pre : List Blk} {a : Nat},
    Path s a pre m → Path s m rest e → Path s a (pre ++ rest) e
  | [], a, h, h' => by
    have ha : a = m := h
    subst ha
    exact h'
  | b :: pre, a, h, h' => by
    obtain ⟨h1, h2, h3, h4, h5⟩ := h
    exact ⟨h1, h2, h3, h4, Path_append h5 h'⟩

theorem Path_split_at {s : State} {e a : Nat} {pre post : List Blk} {x : Blk}
    (h : Path s a (pre ++ x :: post) e) : Path s a pre x.1 ∧ Path s x.1 (x :: post) e := by
  obtain ⟨m, p1, p2⟩ := Path_split h
  have := Path_head p2
  subst this
  exact ⟨p1, p2⟩

theorem Path_distinct {s : State} {a : Nat} {pre post : List Blk} {x : Blk}
    (h : Path s a (pre ++ x :: post) 0) : ∀ c ∈ pre ++ post, c.1 ≠ x.1 := by
  obtain ⟨p1, p2⟩ := Path_split_at h
  intro c hc hcx
  rcases List.mem_append.mp hc with hc | hc
  · obtain ⟨u, v, e⟩ := List.append_of_mem hc
    subst e
    have h' : Path s a (u ++ c :: (v ++ x :: post)) 0 := by simpa using h
    obtain ⟨_, q2⟩ := Path_split_at h'
    rw [hcx] at q2
    have := Path_unique _ _ _ q2 p2
    have hl := congrArg List.length this
    simp at hl
    omega
  · obtain ⟨u, v, e⟩ := List.append_of_mem hc
    subst e
    have h' : Path s x.1 ((x :: u) ++ c :: v) 0 := by simpa using p2
    obtain ⟨_, q2⟩ := Path_split_at h'
    rw [hcx] at q2
    have := Path_unique _ _ _ q2 p2
    have hl := congrArg List.length this
    simp at hl
    omega

theorem next_block_header_congr (s s' : State) (hh : s'.heap = s.heap)
    (hz : s'.heap_size = s.heap_size) {a : Nat}
    (hr : read_block_size s'.mem a = read_block_size s.mem a) :
    next_block_header s' a = next_block_header s a := by
  simp only [next_block_header, hh, hz, hr]

theorem is_valid_header_congr (s s' : State) (hh : s'.heap = s.heap)
    (hz : s'.heap_size = s.heap_size) {a : Nat}
    (hr : read_block_size s'.mem a = read_block_size s.mem a) :
    is_valid_header s' a = true ↔ is_valid_header s a = true := by
  rw [is_valid_header_iff, is_valid_header_iff, hh, hz, hr]

theorem Path_congr {s s' : State} (hh : s'.heap = s.heap) (hz : s'.heap_size = s.heap_size) :
    ∀ {w : List Blk} {a e : Nat},
      (∀ b ∈ w, read_block_size s'.mem b.1 = read_block_size s.mem b.1
        ∧ read_is_free s'.mem b.1 = read_is_free s.mem b.1) →
      Path s a w e → Path s' a w e
  | [], _, _, _, h => h
  | b :: rest, a, e, hm, h => by
    obtain ⟨h1, h2, h3, h4, h5⟩ := h
    obtain ⟨m1, m2⟩ := hm b (by simp)
    rw [h2] at m1 m2
    refine ⟨h1, h2, by rw [m1]; exact h3, by rw [m2]; exact h4, ?_⟩
    rw [next_block_header_congr s s' hh hz m1]
    exact Path_congr hh hz (fun c hc => hm c (by simp [hc])) h5

theorem walk_sum_mod16 {s : State} : ∀ {w : List Blk},
    (∀ b ∈ w, b.2.1 % 16 = 0) → walk_sum w % 16 = 0
  | [], _ => rfl
  | b :: rest, h => by
    rw [walk_sum_cons]
    have := h b (by simp)
    have := @walk_sum_mod16 s rest (fun c hc => h c (by simp [hc]))
    omega

theorem Acc_block {s : State} {w : List Blk} (h : Acc s w) {b : Blk} (hb : b ∈ w) :
    b.1 ≠ 0 ∧ read_block_size s.mem b.1 = b.2.1 ∧ read_is_free s.mem b.1 = b.2.2
      ∧ s.heap ≤ b.1 ∧ b.1 < (s.heap + s.heap_size) % WORD ∧ b.1 % 16 = 0
      ∧ b.2.1 % 16 = 0 ∧ b.2.1 < WORD
      ∧ ((b.1 + 16) % WORD + b.2.1) % WORD ≤ (s.heap + s.heap_size) % WORD := by
  obtain ⟨m1, m2, m3⟩ := Path_mem h.2.1 b hb
  have hv := (is_valid_header_iff s b.1).mp (h.2.2.1 b hb)
  rw [m2] at hv
  have := read_block_size_lt s.mem b.1
  rw [m2] at this
  exact ⟨m1, m2, m3, hv.1, hv.2.1, hv.2.2.1, hv.2.2.2.1, this, hv.2.2.2.2⟩

theorem Acc_ne_nil {s : State} {w : List Blk} (h : Acc s w) : w ≠ [] := by
  intro e
  subst e
  exact h.1 h.2.1

theorem Acc_first {s : State} {w : List Blk} (h : Acc s w) :
    ∃ b rest, w = b :: rest ∧ b.1 = s.heap := by
  cases w with
  | nil => exact absurd rfl (Acc_ne_nil h)
  | cons b rest => exact ⟨b, rest, rfl, Path_head h.2.1⟩

theorem Acc_bounds {s : State} {w : List Blk} (h : Acc s w) :
    s.heap % 16 = 0 ∧ s.heap_size % 16 = 0 ∧ 16 ≤ s.heap_size
      ∧ s.heap + s.heap_size + 16 ≤ WORD := by
  obtain ⟨b, rest, e, hb⟩ := Acc_first h
  have hbm : b ∈ w := by rw [e]; simp
  obtain ⟨_, _, _, k1, k2, k3, _⟩ := Acc_block h hbm
  rw [hb] at k2 k3
  have hs16 : walk_sum w % 16 = 0 :=
    @walk_sum_mod16 s w (fun c hc => (Acc_block h hc).2.2.2.2.2.2.1)
  have hsz := h.2.2.2
  unfold WORD at *
  omega

/-- Bounds of a block of an accepted walk, in plain arithmetic. -/
theorem Acc_block_bounds {s : State} {w : List Blk} (h : Acc s w) {b : Blk} (hb : b ∈ w) :
    0 < b.1 ∧ s.heap ≤ b.1 ∧ b.1 + 16 ≤ s.heap + s.heap_size ∧ b.1 % 16 = 0
      ∧ b.2.1 % 16 = 0 ∧ b.2.1 < WORD
      ∧ (b.1 + 16 + b.2.1) % WORD ≤ s.heap + s.heap_size := by
  obtain ⟨k0, _, _, k1, k2, k3, k4, k5, k6⟩ := Acc_block h hb
  obtain ⟨g1, g2, g3, g4⟩ := Acc_bounds h
  unfold WORD at *
  omega

theorem Acc_replace_rd {s s' : State} {pre old new post : List Blk} {x m : Nat}
    (h : Acc s (pre ++ old ++ post))
    (hpre : Path s s.heap pre x) (hpost : Path s m post 0)
    (hh : s'.heap = s.heap) (hz : s'.heap_size = s.heap_size)
    (hrd : ∀ c ∈ pre ++ post, read_block_size s'.mem c.1 = read_block_size s.mem c.1
      ∧ read_is_free s'.mem c.1 = read_is_free s.mem c.1)
    (hnew : Path s' x new m) (hvnew : ∀ b ∈ new, is_valid_header s' b.1 = true)
    (hsum : walk_sum new % WORD = walk_sum old % WORD) :
    Acc s' (pre ++ new ++ post) := by
  refine ⟨by rw [hh]; exact h.1, ?_, ?_, ?_⟩
  · rw [hh]
    refine Path_append (Path_append ?_ hnew) ?_
    · exact Path_congr hh hz (fun c hc => hrd c (by simp [hc])) hpre
    · exact Path_congr hh hz (fun c hc => hrd c (by simp [hc])) hpost
  · intro b hb
    rcases List.mem_append.mp hb with hb | hb
    · rcases List.mem_append.mp hb with hb | hb
      · rw [is_valid_header_congr s s' hh hz (hrd b (by simp [hb])).1]
        exact h.2.2.1 b (by simp [hb])
      · exact hvnew b hb
    · rw [is_valid_header_congr s s' hh hz (hrd b (by simp [hb])).1]
      exact h.2.2.1 b (by simp [hb])
  · have := h.2.2.2
    rw [hz, ← this]
    simp only [walk_sum_append]
    unfold WORD at *
    omega

theorem Acc_replace {s s' : State} {pre old new post : List Blk} {x m : Nat}
    (h : Acc s (pre ++ old ++ post))
    (hpre : Path s s.heap pre x) (hpost : Path s m post 0)
    (hx : ∀ c ∈ pre ++ post, c.1 ≠ x)
    (hh : s'.heap = s.heap) (hz : s'.heap_size = s.heap_size)
    (hm : ∀ c, c % 16 = 0 → c ≠ x →
      read_block_size s'.mem c = read_block_size s.mem c
        ∧ read_is_free s'.mem c = read_is_free s.mem c)
    (hnew : Path s' x new m) (hvnew : ∀ b ∈ new, is_valid_header s' b.1 = true)
    (hsum : walk_sum new % WORD = walk_sum old % WORD) :
    Acc s' (pre ++ new ++ post) := by
  have hmem : ∀ c ∈ pre ++ post, c ∈ pre ++ old ++ post := by
    intro c hc
    rcases List.mem_append.mp hc with hc | hc
    · simp [hc]
    · simp [hc]
  exact Acc_replace_rd h hpre hpost hh hz
    (fun c hc => hm c.1 (Acc_block_bounds h (hmem c hc)).2.2.2.1 (hx c hc)) hnew hvnew hsum

theorem write_is_free_frame (m : Mem) (x : Nat) (b : Bool) (hx : x % 16 = 0) (c : Nat)
    (hc : c % 16 = 0) (hne : c ≠ x) :
    read_block_size (write_is_free m x b) c = read_block_size m c
      ∧ read_is_free (write_is_free m x b) c = read_is_free m c :=
  ⟨read_block_size_write_is_free _ _ _ _ (by omega),
    read_is_free_write_is_free _ _ _ _ (by omega)⟩

theorem write_block_size_frame (m : Mem) (x v : Nat) (hx : x % 16 = 0) (c : Nat)
    (hc : c % 16 = 0) (hne : c ≠ x) :
    read_block_size (write_block_size m x v) c = read_block_size m c
      ∧ read_is_free (write_block_size m x v) c = read_is_free m c :=
  ⟨read_block_size_write_block_size _ _ _ _ (by omega),
    read_is_free_write_block_size _ _ _ _ (by omega)⟩

theorem Acc_set_free {s : State} {pre post : List Blk} {x sx : Nat} {f : Bool}
    (h : Acc s (pre ++ (x, sx, f) :: post)) (b : Bool) :
    Acc ⟨s.heap, s.heap_size, write_is_free s.mem x b⟩ (pre ++ (x, sx, b) :: post) := by
  have hd := Path_distinct h.2.1
  obtain ⟨p1, p2⟩ := Path_split_at h.2.1
  obtain ⟨k1, k2, k3, k4, k5⟩ := p2
  simp only at hd p1 k1 k2 k3 k4 k5
  obtain ⟨_, _, _, b4, _, _, _⟩ := Acc_block_bounds h
    (show (x, sx, f) ∈ pre ++ (x, sx, f) :: post by simp)
  simp only at b4
  have h' : Acc s (pre ++ [(x, sx, f)] ++ post) := by simpa using h
  have hrs : read_block_size (write_is_free s.mem x b) x = read_block_size s.mem x :=
    read_block_size_write_is_free _ _ _ _ (by omega)
  have hnew : Path ⟨s.heap, s.heap_size, write_is_free s.mem x b⟩ x [(x, sx, b)]
      (next_block_header s x) :=
    ⟨k1, rfl, by rw [hrs]; exact k3, read_write_is_free _ _ _,
      next_block_header_congr s ⟨s.heap, s.heap_size, write_is_free s.mem x b⟩ rfl rfl hrs⟩
  have hv : ∀ c ∈ [(x, sx, b)],
      is_valid_header ⟨s.heap, s.heap_size, write_is_free s.mem x b⟩ c.1 = true := by
    intro c hc
    simp only [List.mem_singleton] at hc
    subst hc
    rw [is_valid_header_congr s ⟨s.heap, s.heap_size, write_is_free s.mem x b⟩ rfl rfl hrs]
    exact h.2.2.1 (x, sx, f) (by simp)
  have hsum : walk_sum [(x, sx, b)] % WORD = walk_sum [(x, sx, f)] % WORD := by
    simp only [walk_sum, List.map_cons, List.map_nil, List.sum_cons, List.sum_nil]
  have := @Acc_replace s ⟨s.heap, s.heap_size, write_is_free s.mem x b⟩ pre [(x, sx, f)]
    [(x, sx, b)] post x (next_block_header s x) h' p1 k5 hd rfl rfl
    (fun c hc hne => write_is_free_frame _ _ _ b4 c hc hne) hnew hv hsum
  simpa using this

theorem Acc_merge {s : State} {pre post : List Blk} {x sx y sy : Nat} {f fy : Bool}
    (h : Acc s (pre ++ (x, sx, f) :: (y, sy, fy) :: post)) :
    Acc ⟨s.heap, s.heap_size, write_block_size s.mem x ((sx + 16 + sy) % WORD)⟩
      (pre ++ (x, (sx + 16 + sy) % WORD, f) :: post) := by
  have hdx := Path_distinct h.2.1
  have hA : Acc s ((pre ++ [(x, sx, f)]) ++ (y, sy, fy) :: post) := by simpa using h
  have hdy := Path_distinct hA.2.1
  obtain ⟨p1, p2⟩ := Path_split_at h.2.1
  obtain ⟨k1, k2, k3, k4, j1, j2, j3, j4, j5⟩ := p2
  simp only at hdx hdy p1 k1 k2 k3 k4 j1 j2 j3 j4 j5
  obtain ⟨_, bx2, bx3, bx4, bx5, bx6, bx7⟩ := Acc_block_bounds h
    (show (x, sx, f) ∈ pre ++ (x, sx, f) :: (y, sy, fy) :: post by simp)
  obtain ⟨_, by2, by3, by4, by5, by6, by7⟩ := Acc_block_bounds h
    (show (y, sy, fy) ∈ pre ++ (x, sx, f) :: (y, sy, fy) :: post by simp)
  obtain ⟨g1, g2, g3, g4⟩ := Acc_bounds h
  simp only at bx2 bx3 bx4 bx5 bx6 bx7 by2 by3 by4 by5 by6 by7
  rw [← j2] at j1 j3 j4 j5
  have hnx := next_block_header_eq s x
  rw [k3, ← j2] at hnx
  have hny := next_block_header_eq s y
  rw [j3] at hny
  have hrs : read_block_size (write_block_size s.mem x ((sx + 16 + sy) % WORD)) x
      = (sx + 16 + sy) % WORD := by
    rw [read_write_block_size, Nat.mod_mod]
  have hrf : read_is_free (write_block_size s.mem x ((sx + 16 + sy) % WORD)) x
      = read_is_free s.mem x := read_is_free_write_block_size _ _ _ _ (by omega)
  have hnew : next_block_header
      ⟨s.heap, s.heap_size, write_block_size s.mem x ((sx + 16 + sy) % WORD)⟩ x
      = next_block_header s y := by
    rw [next_block_header_eq, hny]
    simp only [hrs]
    split at hnx
    · omega
    · unfold WORD at *
      have e : ((x + 16) % 18446744073709551616 + (sx + 16 + sy) % 18446744073709551616)
          % 18446744073709551616
          = ((y + 16) % 18446744073709551616 + sy) % 18446744073709551616 := by omega
      rw [e]
  have h' : Acc s (pre ++ [(x, sx, f), (y, sy, fy)] ++ post) := by simpa using h
  have hd : ∀ c ∈ pre ++ post, c.1 ≠ x := by
    intro c hc
    exact hdx c (by
      rcases List.mem_append.mp hc with hc | hc
      · simp [hc]
      · simp [hc])
  have := @Acc_replace s ⟨s.heap, s.heap_size,
      write_block_size s.mem x ((sx + 16 + sy) % WORD)⟩ pre [(x, sx, f), (y, sy, fy)]
    [(x, (sx + 16 + sy) % WORD, f)] post x (next_block_header s y) h' p1 j5 hd rfl rfl
    (fun c hc hne => write_block_size_frame _ _ _ bx4 c hc hne)
    ⟨k1, rfl, hrs, by rw [hrf]; exact k4, hnew⟩
    (by
      intro c hc
      simp only [List.mem_singleton] at hc
      subst hc
      rw [is_valid_header_iff]
      simp only [hrs]
      split at hnx
      · omega
      · unfold WORD at *
        refine ⟨by omega, by omega, by omega, by omega, ?_⟩
        omega)
    (by
      simp only [walk_sum, List.map_cons, List.map_nil, List.sum_cons, List.sum_nil,
        header_size]
      unfold WORD
      omega)
  simpa using this

theorem header_from_data_ptr_acc {s : State} {w : List Blk} (h : Acc s w) {b : Blk}
    (hb : b ∈ w) : header_from_data_ptr s (b.1 + 16) = b.1 := by
  obtain ⟨b1, b2, b3, b4, b5, b6, b7⟩ := Acc_block_bounds h hb
  obtain ⟨g1, g2, g3, g4⟩ := Acc_bounds h
  simp only [header_from_data_ptr, sub64, add64, header_size]
  unfold WORD at *
  rw [if_neg (by omega)]
  have e : (b.1 + 16 + 18446744073709551616 - 16 % 18446744073709551616)
      % 18446744073709551616 = b.1 := by omega
  rw [e, if_neg (by omega)]

theorem Path_next {s : State} {b c : Blk} {rest : List Blk} {a e : Nat}
    (h : Path s a (b :: c :: rest) e) : next_block_header s b.1 = c.1 ∧ c.1 ≠ 0 := by
  obtain ⟨h1, h2, _, _, k1, k2, _⟩ := h
  rw [h2, k2]
  exact ⟨rfl, k1⟩

theorem Path_last {s : State} {b : Blk} {a e : Nat}
    (h : Path s a [b] e) : next_block_header s b.1 = e := by
  obtain ⟨h1, h2, _, _, k1⟩ := h
  rw [h2]
  exact k1

theorem prev_loop_found {s : State} {q x : Blk} {post : List Blk} {e : Nat} :
    ∀ {pre : List Blk} {a : Nat} (fuel : Nat), Path s a (pre ++ q :: x :: post) e →
      (∀ c ∈ pre ++ [q], c.1 ≠ x.1) → pre.length < fuel →
      previous_block_header_loop s x.1 fuel a = some q.1
  | _, _, 0, _, _, hf => by simp at hf
  | [], a, fuel + 1, h, _, _ => by
    have h' : Path s a (q :: x :: post) e := h
    obtain ⟨hn, _⟩ := Path_next h'
    have ha := Path_head h'
    subst ha
    simp only [previous_block_header_loop, if_neg h'.1, hn, if_true]
  | b :: pre, a, fuel + 1, h, hd, hf => by
    have h' : Path s a (b :: (pre ++ q :: x :: post)) e := h
    have ha := Path_head h'
    subst ha
    have hlen : pre.length < fuel := by simp only [List.length_cons] at hf; omega
    have hne : next_block_header s b.1 ≠ x.1 := by
      cases pre with
      | nil =>
        have h'' : Path s b.1 (b :: q :: x :: post) e := h'
        rw [(Path_next h'').1]
        exact hd q (by simp)
      | cons c pre' =>
        have h'' : Path s b.1 (b :: c :: (pre' ++ q :: x :: post)) e := h'
        rw [(Path_next h'').1]
        exact hd c (by simp)
    simp only [previous_block_header_loop, if_neg h'.1, if_neg hne]
    exact prev_loop_found fuel h'.2.2.2.2
      (fun c hc => hd c (List.mem_cons_of_mem _ hc)) hlen

theorem prev_loop_end {s : State} {t : Nat} (ht : t ≠ 0) :
    ∀ {w : List Blk} {a : Nat} (fuel : Nat), Path s a w 0 → (∀ c ∈ w.tail, c.1 ≠ t) →
      w.length < fuel → previous_block_header_loop s t fuel a = some 0
  | _, _, 0, _, _, hf => by simp at hf
  | [], a, fuel + 1, h, _, _ => by
    have ha : a = 0 := h
    simp [previous_block_header_loop, ha]
  | [b], a, fuel + 1, h, _, hf => by
    have ha := Path_head h
    subst ha
    have hn := Path_last h
    have hne : ¬ (0 = t) := fun e => ht e.symm
    simp only [previous_block_header_loop, if_neg h.1, hn, if_neg hne]
    cases fuel with
    | zero => simp at hf
    | succ f => simp [previous_block_header_loop]
  | b :: c :: rest, a, fuel + 1, h, hd, hf => by
    have ha := Path_head h
    subst ha
    obtain ⟨hn, _⟩ := Path_next h
    have hne : ¬ (c.1 = t) := hd c (by simp)
    simp only [previous_block_header_loop, if_neg h.1, hn, if_neg hne]
    have h5 := h.2.2.2.2
    rw [hn] at h5
    exact prev_loop_end ht fuel h5 (fun d hd' => hd d (by simp at hd' ⊢; exact Or.inr hd'))
      (by simp only [List.length_cons] at hf ⊢; omega)

theorem previous_first_acc {s : State} {x : Blk} {post : List Blk} (h : Acc s (x :: post))
    {fuel : Nat} (hf : (x :: post).length < fuel) :
    previous_block_header fuel s x.1 = some 0 := by
  have hx := Path_head h.2.1
  have hd := @Path_distinct s s.heap [] post x h.2.1
  have hx0 : x.1 ≠ 0 := by rw [hx]; exact h.1
  unfold previous_block_header
  rw [if_neg hx0, if_neg h.1]
  exact prev_loop_end hx0 fuel h.2.1 (by simpa using hd) hf

theorem previous_mid_acc {s : State} {pre post : List Blk} {q x : Blk}
    (h : Acc s (pre ++ q :: x :: post)) {fuel : Nat}
    (hf : (pre ++ q :: x :: post).length < fuel) :
    previous_block_header fuel s x.1 = some q.1 := by
  have hassoc : pre ++ q :: x :: post = (pre ++ [q]) ++ x :: post := by simp
  have hd : ∀ c ∈ (pre ++ [q]) ++ post, c.1 ≠ x.1 := by
    have hp := h.2.1
    rw [hassoc] at hp
    exact Path_distinct hp
  have hx0 : x.1 ≠ 0 := (Acc_block h (show x ∈ pre ++ q :: x :: post by simp)).1
  unfold previous_block_header
  rw [if_neg hx0, if_neg h.1]
  exact prev_loop_found fuel h.2.1 (fun c hc => hd c (by simp at hc ⊢; tauto))
    (by simp only [List.length_append, List.length_cons] at hf; omega)

theorem coalesce_next_occ_acc {s : State} {pre post : List Blk} {x : Blk}
    (h : Acc s (pre ++ x :: post)) (hr : right_occ post) : coalesce_next s x.1 = s := by
  obtain ⟨_, p2⟩ := Path_split_at h.2.1
  unfold coalesce_next
  cases post with
  | nil =>
    rw [Path_last p2]
    simp
  | cons y post' =>
    have hy : y.2.2 = false := hr y post' rfl
    rw [(Path_next p2).1]
    have hyf := (Acc_block h (show y ∈ pre ++ x :: y :: post' by simp)).2.2.1
    rw [if_neg]
    rw [hyf, hy]
    simp

theorem coalesce_next_free_acc {s : State} {pre post : List Blk} {x sx y sy : Nat} {f : Bool}
    (h : Acc s (pre ++ (x, sx, f) :: (y, sy, true) :: post)) :
    coalesce_next s x
      = ⟨s.heap, s.heap_size, write_block_size s.mem x ((sx + 16 + sy) % WORD)⟩ := by
  obtain ⟨_, p2⟩ := Path_split_at h.2.1
  obtain ⟨hn, hy0⟩ := Path_next p2
  simp only at hn hy0
  obtain ⟨_, bx, _⟩ := Acc_block h
    (show (x, sx, f) ∈ pre ++ (x, sx, f) :: (y, sy, true) :: post by simp)
  obtain ⟨_, by1, by2, _⟩ := Acc_block h
    (show (y, sy, true) ∈ pre ++ (x, sx, f) :: (y, sy, true) :: post by simp)
  simp only at bx by1 by2
  unfold coalesce_next
  rw [hn, if_pos ⟨hy0, by2⟩, bx, by1]
  have e : add64 (add64 sx header_size) sy = (sx + 16 + sy) % WORD := by
    simp only [add64, header_size]
    unfold WORD
    omega
  rw [e]

theorem coalesce_prev_occ_acc {s : State} {pre post : List Blk} {x : Blk}
    (h : Acc s (pre ++ x :: post)) (hl : left_occ pre) {fuel : Nat}
    (hf : (pre ++ x :: post).length < fuel) : coalesce_prev fuel s x.1 = some s := by
  unfold coalesce_prev
  rcases List.eq_nil_or_concat pre with hp | ⟨pre', q, hp⟩
  · subst hp
    rw [previous_first_acc h hf]
    simp
  · rw [List.concat_eq_append] at hp
    subst hp
    have hq : q.2.2 = false := hl pre' q rfl
    have h' : Acc s (pre' ++ q :: x :: post) := by simpa using h
    rw [previous_mid_acc h' (by simpa using hf)]
    have hqf := (Acc_block h' (show q ∈ pre' ++ q :: x :: post by simp)).2.2.1
    simp only
    rw [if_neg]
    rw [hqf, hq]
    simp

theorem coalesce_prev_free_acc {s : State} {pre post : List Blk} {q sq x sx : Nat} {f : Bool}
    (h : Acc s (pre ++ (q, sq, true) :: (x, sx, f) :: post)) {fuel : Nat}
    (hf : (pre ++ (q, sq, true) :: (x, sx, f) :: post).length < fuel) :
    coalesce_prev fuel s x
      = some ⟨s.heap, s.heap_size, write_block_size s.mem q ((sq + 16 + sx) % WORD)⟩ := by
  unfold coalesce_prev
  have hprev := @previous_mid_acc s pre post (q, sq, true) (x, sx, f) h fuel hf
  simp only at hprev
  rw [hprev]
  obtain ⟨q0, bq1, bq2, _⟩ := Acc_block h
    (show (q, sq, true) ∈ pre ++ (q, sq, true) :: (x, sx, f) :: post by simp)
  obtain ⟨_, bx1, _⟩ := Acc_block h
    (show (x, sx, f) ∈ pre ++ (q, sq, true) :: (x, sx, f) :: post by simp)
  simp only at q0 bq1 bq2 bx1
  simp only
  rw [if_pos ⟨q0, bq2⟩, bq1, bx1]
  have e : add64 (add64 sq header_size) sx = (sq + 16 + sx) % WORD := by
    simp only [add64, header_size]
    unfold WORD
    omega
  rw [e]

theorem free_start_acc {s : State} {pre post : List Blk} {x sx : Nat} {fuel : Nat}
    (h : Acc s (pre ++ (x, sx, false) :: post)) :
    my_free fuel s (x + 16)
        = coalesce_prev fuel
            (coalesce_next ⟨s.heap, s.heap_size, write_is_free s.mem x true⟩ x) x
      ∧ Acc ⟨s.heap, s.heap_size, write_is_free s.mem x true⟩
          (pre ++ (x, sx, true) :: post) := by
  have hm : (x, sx, false) ∈ pre ++ (x, sx, false) :: post := by simp
  have hh := header_from_data_ptr_acc h hm
  obtain ⟨x0, _, xf, _⟩ := Acc_block h hm
  simp only at hh x0 xf
  exact ⟨my_free_occupied (by omega) hh x0 xf, Acc_set_free h true⟩

theorem free_G1 {s : State} {pre post : List Blk} {x sx fuel : Nat}
    (h : Acc s (pre ++ (x, sx, false) :: post)) (hl : left_occ pre) (hr : right_occ post)
    (hf : (pre ++ (x, sx, false) :: post).length < fuel) :
    ∃ s', my_free fuel s (x + 16) = some s' ∧ s'.heap = s.heap ∧ s'.heap_size = s.heap_size
      ∧ Acc s' (pre ++ (x, sx, true) :: post) := by
  obtain ⟨he, h1⟩ := @free_start_acc s pre post x sx fuel h
  have hn := coalesce_next_occ_acc h1 hr
  simp only at hn
  rw [hn] at he
  have hp := coalesce_prev_occ_acc h1 hl (show _ < fuel by simpa using hf)
  simp only at hp
  rw [hp] at he
  exact ⟨_, he, rfl, rfl, h1⟩

theorem free_G2 {s : State} {pre post : List Blk} {x sx y sy fuel : Nat}
    (h : Acc s (pre ++ (x, sx, false) :: (y, sy, true) :: post)) (hl : left_occ pre)
    (hf : (pre ++ (x, sx, false) :: (y, sy, true) :: post).length < fuel) :
    ∃ s', my_free fuel s (x + 16) = some s' ∧ s'.heap = s.heap ∧ s'.heap_size = s.heap_size
      ∧ Acc s' (pre ++ (x, (sx + 16 + sy) % WORD, true) :: post) := by
  obtain ⟨he, h1⟩ := @free_start_acc s pre ((y, sy, true) :: post) x sx fuel h
  have hn := coalesce_next_free_acc h1
  simp only at hn
  rw [hn] at he
  have h2 := Acc_merge h1
  simp only at h2
  have hp := coalesce_prev_occ_acc h2 hl
    (show _ < fuel by simp only [List.length_append, List.length_cons] at hf ⊢; omega)
  simp only at hp
  rw [hp] at he
  exact ⟨_, he, rfl, rfl, h2⟩

theorem free_G3 {s : State} {pre post : List Blk} {q sq x sx fuel : Nat}
    (h : Acc s (pre ++ (q, sq, true) :: (x, sx, false) :: post)) (hr : right_occ post)
    (hf : (pre ++ (q, sq, true) :: (x, sx, false) :: post).length < fuel) :
    ∃ s', my_free fuel s (x + 16) = some s' ∧ s'.heap = s.heap ∧ s'.heap_size = s.heap_size
      ∧ Acc s' (pre ++ (q, (sq + 16 + sx) % WORD, true) :: post) := by
  have ha : Acc s ((pre ++ [(q, sq, true)]) ++ (x, sx, false) :: post) := by simpa using h
  obtain ⟨he, h1⟩ := @free_start_acc s _ post x sx fuel ha
  have hn := coalesce_next_occ_acc h1 hr
  simp only at hn
  rw [hn] at he
  have h1' : Acc ⟨s.heap, s.heap_size, write_is_free s.mem x true⟩
      (pre ++ (q, sq, true) :: (x, sx, true) :: post) := by simpa using h1
  have hp := coalesce_prev_free_acc h1' (show _ < fuel by simpa using hf)
  simp only at hp
  rw [hp] at he
  exact ⟨_, he, rfl, rfl, Acc_merge h1'⟩

theorem free_G4 {s : State} {pre post : List Blk} {q sq x sx y sy fuel : Nat}
    (h : Acc s (pre ++ (q, sq, true) :: (x, sx, false) :: (y, sy, true) :: post))
    (hf : (pre ++ (q, sq, true) :: (x, sx, false) :: (y, sy, true) :: post).length < fuel) :
    ∃ s', my_free fuel s (x + 16) = some s' ∧ s'.heap = s.heap ∧ s'.heap_size = s.heap_size
      ∧ Acc s' (pre ++ (q, (sq + 16 + (sx + 16 + sy) % WORD) % WORD, true) :: post) := by
  have ha : Acc s ((pre ++ [(q, sq, true)]) ++ (x, sx, false) :: (y, sy, true) :: post) := by
    simpa using h
  obtain ⟨he, h1⟩ := @free_start_acc s _ ((y, sy, true) :: post) x sx fuel ha
  have hn := coalesce_next_free_acc h1
  simp only at hn
  rw [hn] at he
  have h2 := Acc_merge h1
  simp only at h2
  have h2' : Acc ⟨s.heap, s.heap_size,
      write_block_size (write_is_free s.mem x true) x ((sx + 16 + sy) % WORD)⟩
      (pre ++ (q, sq, true) :: (x, (sx + 16 + sy) % WORD, true) :: post) := by simpa using h2
  have hp := coalesce_prev_free_acc h2'
    (show _ < fuel by simp only [List.length_append, List.length_cons] at hf ⊢; omega)
  simp only at hp
  rw [hp] at he
  exact ⟨_, he, rfl, rfl, Acc_merge h2'⟩

-- ## my_free: integrity and coalescing are preserved

theorem total_accounted_eq (w : List Blk) : total_accounted w = walk_sum w % WORD := by
  have key : ∀ (w : List Blk) (t : Nat), t < WORD →
      w.foldl (fun t b => add64 t (add64 header_size b.2.1)) t = (t + walk_sum w) % WORD := by
    intro w
    induction w with
    | nil =>
      intro t ht
      rw [walk_sum_nil, Nat.add_zero, Nat.mod_eq_of_lt ht]
      rfl
    | cons b rest ih =>
      intro t _
      rw [List.foldl_cons, ih _ (by unfold add64; exact Nat.mod_lt _ (by unfold WORD; omega)),
        walk_sum_cons]
      simp only [add64, header_size]
      unfold WORD
      omega
  unfold total_accounted
  rw [key w 0 (by unfold WORD; omega), Nat.zero_add]

theorem ff_loop_path {s : State} {R : Nat} : ∀ (w : List Blk) (cur fuel : Nat),
    Path s cur w 0 → w.length < fuel →
    ((∀ b ∈ w, ¬ fits R b) ∧ my_alloc_ff_loop s R fuel cur = some (none, s))
    ∨ ∃ pre x post, w = pre ++ x :: post ∧ fits R x ∧ (∀ c ∈ pre, ¬ fits R c)
        ∧ my_alloc_ff_loop s R fuel cur
            = some (some (grant_block s x.1 R).1, (grant_block s x.1 R).2)
  | _, _, 0, _, hf => by simp at hf
  | [], cur, fuel + 1, h, _ => by
    have hc : cur = 0 := h
    exact Or.inl ⟨by simp, by simp [my_alloc_ff_loop, hc]⟩
  | b :: rest, cur, fuel + 1, h, hf => by
    obtain ⟨h1, h2, h3, h4, h5⟩ := h
    by_cases hb : fits R b
    · refine Or.inr ⟨[], b, rest, rfl, hb, by simp, ?_⟩
      have hcond : read_is_free s.mem cur = true ∧ read_block_size s.mem cur ≥ R := by
        rw [h3, h4]
        exact hb
      simp only [my_alloc_ff_loop, if_neg h1, if_pos hcond, h2]
    · have hcond : ¬ (read_is_free s.mem cur = true ∧ read_block_size s.mem cur ≥ R) := by
        rw [h3, h4]
        exact hb
      have hlen : rest.length < fuel := by simp only [List.length_cons] at hf; omega
      simp only [my_alloc_ff_loop, if_neg h1, if_neg hcond]
      rcases ff_loop_path rest _ fuel h5 hlen with ⟨hno, hr⟩ | ⟨pre, x, post, hw, hx, hpre, hr⟩
      · refine Or.inl ⟨?_, hr⟩
        intro c hc
        rcases List.mem_cons.mp hc with hc | hc
        · rw [hc]
          exact hb
        · exact hno c hc
      · refine Or.inr ⟨b :: pre, x, post, by rw [hw]; rfl, hx, ?_, hr⟩
        intro c hc
        rcases List.mem_cons.mp hc with hc | hc
        · rw [hc]
          exact hb
        · exact hpre c hc

theorem bf_loop_path {s : State} {R : Nat} : ∀ (w : List Blk) (cur fuel sm : Nat),
    Path s cur w 0 → w.length < fuel →
    ∃ r, my_alloc_bf_loop s R fuel cur sm = some r
      ∧ (r = sm ∨ ∃ b ∈ w, b.1 = r ∧ fits R b)
      ∧ ((∀ b ∈ w, ¬ fits R b) → r = sm)
      ∧ ((∃ b ∈ w, fits R b) → r ≠ 0)
  | _, _, 0, _, _, hf => by simp at hf
  | [], cur, fuel + 1, sm, h, _ => by
    have hc : cur = 0 := h
    exact ⟨sm, by simp [my_alloc_bf_loop, hc], Or.inl rfl, fun _ => rfl, by simp⟩
  | b :: rest, cur, fuel + 1, sm, h, hf => by
    obtain ⟨h1, h2, h3, h4, h5⟩ := h
    have hlen : rest.length < fuel := by simp only [List.length_cons] at hf; omega
    simp only [my_alloc_bf_loop, if_neg h1]
    by_cases hb : fits R b
    · have hcond : read_is_free s.mem cur = true ∧ read_block_size s.mem cur ≥ R := by
        rw [h3, h4]
        exact hb
      simp only [if_pos hcond]
      by_cases hsm : sm = 0 ∨ read_block_size s.mem cur < read_block_size s.mem sm
      · simp only [if_pos hsm]
        obtain ⟨r, e, k1, _, k3⟩ := bf_loop_path rest _ fuel cur h5 hlen
        refine ⟨r, e, Or.inr ?_, fun hno => absurd hb (hno b (by simp)), fun _ => ?_⟩
        · rcases k1 with k1 | ⟨c, hc, k1⟩
          · exact ⟨b, by simp, by rw [k1, h2], hb⟩
          · exact ⟨c, by simp [hc], k1⟩
        · rcases k1 with k1 | ⟨c, hc, k1⟩
          · rw [k1]
            exact h1
          · exact k3 ⟨c, hc, k1.2⟩
      · simp only [if_neg hsm]
        obtain ⟨r, e, k1, _, k3⟩ := bf_loop_path rest _ fuel sm h5 hlen
        have hsm0 : sm ≠ 0 := fun e0 => hsm (Or.inl e0)
        refine ⟨r, e, ?_, fun hno => absurd hb (hno b (by simp)), fun _ => ?_⟩
        · rcases k1 with k1 | ⟨c, hc, k1⟩
          · exact Or.inl k1
          · exact Or.inr ⟨c, by simp [hc], k1⟩
        · rcases k1 with k1 | ⟨c, hc, k1⟩
          · rw [k1]
            exact hsm0
          · exact k3 ⟨c, hc, k1.2⟩
    · have hcond : ¬ (read_is_free s.mem cur = true ∧ read_block_size s.mem cur ≥ R) := by
        rw [h3, h4]
        exact hb
      simp only [if_neg hcond]
      obtain ⟨r, e, k1, k2, k3⟩ := bf_loop_path rest _ fuel sm h5 hlen
      refine ⟨r, e, ?_, fun hno => k2 (fun c hc => hno c (by simp [hc])), ?_⟩
      · rcases k1 with k1 | ⟨c, hc, k1⟩
        · exact Or.inl k1
        · exact Or.inr ⟨c, by simp [hc], k1⟩
      · rintro ⟨c, hc, hfc⟩
        rcases List.mem_cons.mp hc with hc | hc
        · rw [hc] at hfc
          exact absurd hfc hb
        · exact k3 ⟨c, hc, hfc⟩

theorem Acc_round_up {s : State} {w : List Blk} (h : Acc s w) {n : Nat} (h1 : 1 ≤ n)
    (h2 : n ≤ s.heap_size) :
    round_up n % 16 = 0 ∧ 16 ≤ round_up n ∧ round_up n ≤ s.heap_size
      ∧ round_up n + 32 ≤ WORD ∧ n ≤ round_up n := by
  obtain ⟨g1, g2, g3, g4⟩ := Acc_bounds h
  have hh := h.1
  have hsp := round_up_spec n (by unfold WORD at *; omega)
  have := hsp.2.2.2 _ g2 h2
  unfold WORD at *
  omega

theorem alloc_none_acc {s : State} {w : List Blk} (h : Acc s w) {n fuel : Nat} (h1 : 1 ≤ n)
    (h2 : n ≤ s.heap_size) (hf : w.length < fuel) (hno : ∀ b ∈ w, ¬ fits (round_up n) b) :
    my_alloc_ff fuel s n = some (none, s) ∧ my_alloc_bf fuel s n = some (none, s) := by
  refine ⟨?_, ?_⟩
  · unfold my_alloc_ff
    rw [if_neg h.1, if_neg (by omega), if_neg (by omega)]
    rcases ff_loop_path w _ fuel h.2.1 hf with ⟨_, hr⟩ | ⟨pre, x, post, hw, hx, _, _⟩
    · exact hr
    · exact absurd hx (hno x (by rw [hw]; simp))
  · unfold my_alloc_bf
    rw [if_neg h.1, if_neg (by omega), if_neg (by omega)]
    obtain ⟨r, e, _, k2, _⟩ := @bf_loop_path s (round_up n) w _ fuel 0 h.2.1 hf
    rw [e, k2 hno]
    simp

theorem ff_loop_mono {s : State} {R : Nat} : ∀ (fuel fuel' cur : Nat)
    (r : Option Nat × State), fuel ≤ fuel' → my_alloc_ff_loop s R fuel cur = some r →
    my_alloc_ff_loop s R fuel' cur = some r
  | 0, _, _, _, _, h => by simp [my_alloc_ff_loop] at h
  | _ + 1, 0, _, _, hle, _ => by omega
  | fuel + 1, fuel' + 1, cur, r, hle, h => by
    simp only [my_alloc_ff_loop] at h ⊢
    split
    · rename_i hc
      rw [if_pos hc] at h
      exact h
    · rename_i hc
      rw [if_neg hc] at h
      split
      · rename_i hd
        rw [if_pos hd] at h
        exact h
      · rename_i hd
        rw [if_neg hd] at h
        exact ff_loop_mono fuel fuel' _ r (by omega) h

theorem bf_loop_mono {s : State} {R : Nat} : ∀ (fuel fuel' cur sm r : Nat), fuel ≤ fuel' →
    my_alloc_bf_loop s R fuel cur sm = some r → my_alloc_bf_loop s R fuel' cur sm = some r
  | 0, _, _, _, _, _, h => by simp [my_alloc_bf_loop] at h
  | _ + 1, 0, _, _, _, hle, _ => by omega
  | fuel + 1, fuel' + 1, cur, sm, r, hle, h => by
    simp only [my_alloc_bf_loop] at h ⊢
    split
    · rename_i hc
      rw [if_pos hc] at h
      exact h
    · rename_i hc
      rw [if_neg hc] at h
      exact bf_loop_mono fuel fuel' _ _ r (by omega) h

theorem alloc_mono {s s' : State} {n fuel p : Nat} (fuel' : Nat) (hle : fuel ≤ fuel')
    (hres : my_alloc_ff fuel s n = some (some p, s')
      ∨ my_alloc_bf fuel s n = some (some p, s')) :
    my_alloc_ff fuel' s n = some (some p, s') ∨ my_alloc_bf fuel' s n = some (some p, s') := by
  rcases hres with hr | hr
  · left
    unfold my_alloc_ff at hr ⊢
    split
    · rename_i hc
      rw [if_pos hc] at hr
      exact hr
    · rename_i hc
      rw [if_neg hc] at hr
      split
      · rename_i hd
        rw [if_pos hd] at hr
        exact hr
      · rename_i hd
        rw [if_neg hd] at hr
        split
        · rename_i he
          rw [if_pos he] at hr
          exact hr
        · rename_i he
          rw [if_neg he] at hr
          exact ff_loop_mono fuel fuel' _ _ hle hr
  · right
    unfold my_alloc_bf at hr ⊢
    split
    · rename_i hc
      rw [if_pos hc] at hr
      exact hr
    · rename_i hc
      rw [if_neg hc] at hr
      split
      · rename_i hd
        rw [if_pos hd] at hr
        exact hr
      · rename_i hd
        rw [if_neg hd] at hr
        split
        · rename_i he
          rw [if_pos he] at hr
          exact hr
        · rename_i he
          rw [if_neg he] at hr
          cases hl : my_alloc_bf_loop s (round_up n) fuel s.heap 0 with
          | none => simp [hl] at hr
          | some r =>
            rw [hl] at hr
            rw [bf_loop_mono fuel fuel' _ _ r hle hl]
            exact hr

theorem alloc_granted_acc {s s' : State} {w : List Blk} {n fuel p : Nat} (h : Acc s w)
    (hres0 : my_alloc_ff fuel s n = some (some p, s')
      ∨ my_alloc_bf fuel s n = some (some p, s')) :
    ∃ x ∈ w, fits (round_up n) x ∧ p = x.1 + 16
      ∧ s' = (grant_block s x.1 (round_up n)).2 := by
  obtain ⟨h1, h2⟩ := alloc_some_request hres0
  have hres := alloc_mono (fuel + w.length + 1) (by omega) hres0
  have hf : w.length < fuel + w.length + 1 := by omega
  generalize fuel + w.length + 1 = fuel1 at hres hf
  have hfst : ∀ x ∈ w, (grant_block s x.1 (round_up n)).1 = x.1 + 16 := by
    intro x hx
    obtain ⟨_, _, b3, _⟩ := Acc_block_bounds h hx
    obtain ⟨_, _, _, g4⟩ := Acc_bounds h
    exact grant_block_fst (by omega)
  rcases hres with hr | hr
  · unfold my_alloc_ff at hr
    rw [if_neg h.1, if_neg (by omega), if_neg (by omega)] at hr
    rcases ff_loop_path w _ fuel1 h.2.1 hf with ⟨_, e⟩ | ⟨pre, x, post, hw, hx, _, e⟩
    · rw [e] at hr
      simp at hr
    · rw [e] at hr
      simp only [Option.some.injEq, Prod.mk.injEq] at hr
      have hxm : x ∈ w := by rw [hw]; simp
      exact ⟨x, hxm, hx, by rw [← hr.1, hfst x hxm], hr.2.symm⟩
  · unfold my_alloc_bf at hr
    rw [if_neg h.1, if_neg (by omega), if_neg (by omega)] at hr
    obtain ⟨r, e, k1, _, _⟩ := @bf_loop_path s (round_up n) w _ fuel1 0 h.2.1 hf
    rw [e] at hr
    simp only at hr
    by_cases hr0 : r = 0
    · simp [hr0] at hr
    · rw [if_neg hr0] at hr
      simp only [Option.some.injEq, Prod.mk.injEq] at hr
      rcases k1 with k1 | ⟨x, hxm, hx1, hx⟩
      · exact absurd k1 hr0
      · subst hx1
        exact ⟨x, hxm, hx, by rw [← hr.1, hfst x hxm], hr.2.symm⟩

theorem grant_block_header_gen {s : State} {a R : Nat} (ha : a % 16 = 0)
    (hR : R % 16 = 0) (hRw : R + 32 ≤ WORD) :
    read_is_free (grant_block s a R).2.mem a = false
      ∧ read_block_size (grant_block s a R).2.mem a = R := by
  have hb : read_is_free (write_is_free (write_block_size s.mem a R) a false) a = false
      ∧ read_block_size (write_is_free (write_block_size s.mem a R) a false) a = R := by
    refine ⟨read_write_is_free _ _ _, ?_⟩
    rw [read_block_size_write_is_free _ _ _ _ (by omega), read_write_block_size]
    exact Nat.mod_eq_of_lt (by omega)
  simp only [grant_block]
  split
  · exact hb
  · simp only
    have hn16 : add64 (add64 a header_size) R % 16 = 0 := by
      simp only [add64, header_size]
      unfold WORD at *
      omega
    have hne : a ≠ add64 (add64 a header_size) R := by
      simp only [add64, header_size]
      unfold WORD at *
      omega
    obtain ⟨f1, f2⟩ := write_is_free_frame
      (write_block_size (write_is_free (write_block_size s.mem a R) a false)
        (add64 (add64 a header_size) R)
        (sub64 (sub64 (read_block_size s.mem a) R) header_size))
      (add64 (add64 a header_size) R) true hn16 a ha hne
    obtain ⟨f3, f4⟩ := write_block_size_frame
      (write_is_free (write_block_size s.mem a R) a false)
      (add64 (add64 a header_size) R)
      (sub64 (sub64 (read_block_size s.mem a) R) header_size) hn16 a ha hne
    rw [f1, f2, f3, f4]
    exact hb

theorem realloc_move_fails_acc {s : State} {pre post : List Blk} {h c n fuel : Nat}
    (strategy : Bool)
    (hA : Acc s (pre ++ (h, c, false) :: post)) (hn : 0 < n) (hle : n ≤ s.heap_size)
    (hf : (pre ++ (h, c, false) :: post).length < fuel) (hcr : c ≤ round_up n)
    (hgrow : ∀ y f fy post', post = (y, f, fy) :: post' →
      fy = false ∨ f + 16 < round_up n - c)
    (hno : ∀ b ∈ pre ++ (h, c, false) :: post, ¬ fits (round_up n) b) :
    my_realloc_general fuel s (h + 16) n strategy = some (Outcome.ret none s) := by
  have hm : (h, c, false) ∈ pre ++ (h, c, false) :: post := by simp
  have hh := header_from_data_ptr_acc hA hm
  obtain ⟨hx0, hb5, _⟩ := Acc_block hA hm
  simp only at hh hx0 hb5
  obtain ⟨hr16, hr1, hrle, hrw, _⟩ := Acc_round_up hA hn hle
  have hrr : round_up (round_up n) = round_up n := round_up_aligned hr16
  have hno' : ∀ b ∈ pre ++ (h, c, false) :: post, ¬ fits (round_up (round_up n)) b := by
    rw [hrr]
    exact hno
  obtain ⟨hff, hbf⟩ := alloc_none_acc hA (by omega) hrle hf hno'
  have halloc : (if strategy = true then my_alloc_bf fuel s (round_up n)
      else my_alloc_ff fuel s (round_up n)) = some (none, s) := by
    cases strategy <;> simp [hff, hbf]
  obtain ⟨_, p2⟩ := Path_split_at hA.2.1
  have hcond : ¬ (next_block_header s h ≠ 0 ∧ read_is_free s.mem (next_block_header s h) = true
      ∧ add64 (read_block_size s.mem (next_block_header s h)) header_size
          ≥ sub64 (round_up n) c) := by
    cases post with
    | nil =>
      have := Path_last p2
      simp only at this
      rw [this]
      simp
    | cons yb post' =>
      obtain ⟨y, f, fy⟩ := yb
      have := (Path_next p2).1
      simp only at this
      rw [this]
      obtain ⟨_, k3, k4, _⟩ := Acc_block hA
        (show (y, f, fy) ∈ pre ++ (h, c, false) :: (y, f, fy) :: post' by simp)
      simp only at k3 k4
      rw [k3, k4]
      rcases hgrow y f fy post' rfl with hfy | hsmall
      · simp [hfy]
      · intro hc
        have h3 := hc.2.2
        simp only [add64, sub64, header_size] at h3
        unfold WORD at *
        omega
  unfold my_realloc_general
  rw [if_neg (by omega)]
  simp only [hh, hx0, if_false, hb5]
  rw [if_neg (by omega), if_neg (by omega), if_neg (by omega), if_neg hcond, halloc]

theorem my_alloc_ff_path {s : State} {w : List Blk} {n fuel : Nat} (hh : s.heap ≠ 0)
    (hP : Path s s.heap w 0) (h1 : 1 ≤ n) (h2 : n ≤ s.heap_size) (hf : w.length < fuel) :
    ((∀ b ∈ w, ¬ fits (round_up n) b) ∧ my_alloc_ff fuel s n = some (none, s))
    ∨ ∃ pre x post, w = pre ++ x :: post ∧ fits (round_up n) x
        ∧ (∀ c ∈ pre, ¬ fits (round_up n) c)
        ∧ my_alloc_ff fuel s n = some (some (grant_block s x.1 (round_up n)).1,
            (grant_block s x.1 (round_up n)).2) := by
  unfold my_alloc_ff
  rw [if_neg hh, if_neg (by omega), if_neg (by omega)]
  exact ff_loop_path w _ fuel hP hf

theorem my_alloc_bf_loop_path {s : State} (R : Nat) :
    ∀ (w : List Blk) (a fuel sm : Nat) (acc : Option Blk),
      Path s a w 0 → w.length < fuel →
      ((acc = none ∧ sm = 0)
        ∨ ∃ c, acc = some c ∧ sm = c.1 ∧ c.1 ≠ 0 ∧ read_block_size s.mem c.1 = c.2.1) →
      my_alloc_bf_loop s R fuel a sm = some (cand_addr (bf_pick R w acc))
  | _, _, 0, _, _, _, hf, _ => by simp at hf
  | [], a, fuel + 1, sm, acc, h, _, hacc => by
    have ha : a = 0 := h
    simp only [my_alloc_bf_loop, ha, if_true, bf_pick, Option.some.injEq]
    rcases hacc with ⟨e1, e2⟩ | ⟨c, e1, e2, _, _⟩
    · rw [e1, e2]; rfl
    · rw [e1, e2]; rfl
  | b :: rest, a, fuel + 1, sm, acc, h, hf, hacc => by
    obtain ⟨ha0, h1, h3, h4, h5⟩ := h
    have hfit : (read_is_free s.mem a = true ∧ read_block_size s.mem a ≥ R) ↔ fits R b := by
      rw [h3, h4]; rfl
    have hstep : (bf_step R b acc = none
          ∧ (if read_is_free s.mem a = true ∧ read_block_size s.mem a ≥ R then
              if sm = 0 ∨ read_block_size s.mem a < read_block_size s.mem sm then a else sm
            else sm) = 0)
        ∨ ∃ c, bf_step R b acc = some c
          ∧ (if read_is_free s.mem a = true ∧ read_block_size s.mem a ≥ R then
              if sm = 0 ∨ read_block_size s.mem a < read_block_size s.mem sm then a else sm
            else sm) = c.1 ∧ c.1 ≠ 0 ∧ read_block_size s.mem c.1 = c.2.1 := by
      unfold bf_step
      by_cases hb : fits R b
      · right
        simp only [hb, if_true, hfit]
        rcases hacc with ⟨hacc, hsm⟩ | ⟨c, hacc, hsm, hc0, hcs⟩
        · subst hacc hsm
          exact ⟨b, rfl, by simp [h1], by rw [h1]; exact ha0, by rw [h1]; exact h3⟩
        · subst hacc
          have hsm0 : sm ≠ 0 := by rw [hsm]; exact hc0
          simp only [hsm0, false_or]
          rw [hsm, hcs, h3]
          by_cases hlt : b.2.1 < c.2.1
          · simp only [hlt, if_true]
            exact ⟨b, rfl, h1.symm, by rw [h1]; exact ha0, by rw [h1]; exact h3⟩
          · simp only [hlt, if_false]
            exact ⟨c, rfl, rfl, hc0, hcs⟩
      · have hb' : ¬ (read_is_free s.mem a = true ∧ read_block_size s.mem a ≥ R) :=
          fun hh => hb (hfit.mp hh)
        simp only [hb, hb', if_false]
        exact hacc
    simp only [my_alloc_bf_loop, ha0, if_false, bf_pick]
    have hlen : rest.length < fuel := by simp only [List.length_cons] at hf; omega
    exact my_alloc_bf_loop_path R rest _ fuel _ _ h5 hlen hstep

theorem my_alloc_bf_path {s : State} {w : List Blk} {n fuel : Nat} (hh : s.heap ≠ 0)
    (hP : Path s s.heap w 0) (h1 : 1 ≤ n) (h2 : n ≤ s.heap_size) (hf : w.length < fuel) :
    ((∀ b ∈ w, ¬ fits (round_up n) b) ∧ my_alloc_bf fuel s n = some (none, s))
    ∨ ∃ pre x post, w = pre ++ x :: post ∧ fits (round_up n) x
        ∧ (∀ c ∈ pre, fits (round_up n) c → x.2.1 < c.2.1)
        ∧ (∀ c ∈ post, fits (round_up n) c → x.2.1 ≤ c.2.1)
        ∧ my_alloc_bf fuel s n = some (some (grant_block s x.1 (round_up n)).1,
            (grant_block s x.1 (round_up n)).2) := by
  have hloop := my_alloc_bf_loop_path (round_up n) w _ fuel 0 none hP hf (Or.inl ⟨rfl, rfl⟩)
  unfold my_alloc_bf
  rw [if_neg hh, if_neg (by omega), if_neg (by omega), hloop]
  simp only
  cases hp : bf_pick (round_up n) w none with
  | none =>
    left
    simp only [cand_addr, if_true]
    exact ⟨((bf_pick_none _ w none).mp hp).2, trivial⟩
  | some x =>
    right
    rcases bf_pick_some _ w none x hp with ⟨hacc, _⟩ | ⟨pre, post, hw, hx, hpre, hpost, _⟩
    · simp at hacc
    · have hx0 : x.1 ≠ 0 := (Path_mem hP x (by rw [hw]; simp)).1
      simp only [cand_addr, hx0, if_false]
      exact ⟨pre, x, post, hw, hx, hpre, hpost, rfl⟩

theorem Path_addr_lt {s : State} : ∀ {w : List Blk} {a e : Nat}, Path s a w e → a < WORD →
    ∀ b ∈ w, b.1 < WORD
  | [], _, _, _, _, b, hb => by simp at hb
  | c :: rest, a, e, h, ha, b, hb => by
    obtain ⟨h1, h2, h3, h4, h5⟩ := h
    rcases List.mem_cons.mp hb with hb | hb
    · rw [hb, h2]
      exact ha
    · refine Path_addr_lt h5 ?_ b hb
      rw [next_block_header_eq]
      split
      · unfold WORD; omega
      · exact Nat.mod_lt _ (by unfold WORD; omega)

theorem split_at_addr {s : State} {a : Nat} {pre post pre' post' : List Blk} {x y : Blk}
    (hP : Path s a (pre ++ x :: post) 0) (hw : pre ++ x :: post = pre' ++ y :: post')
    (hxy : y.1 = x.1) : pre' = pre ∧ y = x ∧ post' = post := by
  have hd := Path_distinct hP
  rcases List.append_eq_append_iff.mp hw with ⟨u, e1, e2⟩ | ⟨u, e1, e2⟩
  · cases u with
    | nil =>
      simp only [List.append_nil, List.nil_append] at e1 e2
      simp only [List.cons.injEq] at e2
      exact ⟨e1, e2.1.symm, e2.2.symm⟩
    | cons hd' tl =>
      simp only [List.cons_append, List.cons.injEq] at e2
      have hy : y ∈ pre ++ post := by
        rw [e2.2]
        simp
      exact absurd hxy (hd y hy)
  · cases u with
    | nil =>
      simp only [List.append_nil, List.nil_append] at e1 e2
      simp only [List.cons.injEq] at e2
      exact ⟨e1.symm, e2.1, e2.2⟩
    | cons hd' tl =>
      simp only [List.cons_append, List.cons.injEq] at e2
      have hy : y ∈ pre ++ post := by
        rw [e1]
        simp [e2.1]
      exact absurd hxy (hd y hy)

theorem first_fit_unique {P : Blk → Prop} {u v u' v' : List Blk} {r y : Blk}
    (hw : u ++ r :: v = u' ++ y :: v') (hu : ∀ c ∈ u, ¬ P c) (hr : P r)
    (hu' : ∀ c ∈ u', ¬ P c) (hy : P y) : y = r := by
  rcases List.append_eq_append_iff.mp hw with ⟨t, e1, e2⟩ | ⟨t, e1, e2⟩
  · cases t with
    | nil =>
      simp only [List.nil_append, List.cons.injEq] at e2
      exact e2.1.symm
    | cons hd tl =>
      simp only [List.cons_append, List.cons.injEq] at e2
      have : r ∈ u' := by rw [e1, e2.1]; simp
      exact absurd hr (hu' r this)
  · cases t with
    | nil =>
      simp only [List.nil_append, List.cons.injEq] at e2
      exact e2.1
    | cons hd tl =>
      simp only [List.cons_append, List.cons.injEq] at e2
      have : y ∈ u := by rw [e1, e2.1]; simp
      exact absurd hy (hu y this)

theorem Path_grant_split {s : State} {pre post : List Blk} {a S R : Nat}
    (hP : Path s s.heap (pre ++ (a, S, true) :: post) 0)
    (hin : a + 16 + S ≤ s.heap + s.heap_size) (hE : s.heap + s.heap_size < WORD)
    (hsep : ∀ c ∈ pre ++ post, c.1 + 16 ≤ a ∨ a + 16 + S ≤ c.1)
    (hR : R + 32 ≤ S) :
    Path (grant_block s a R).2 s.heap
      (pre ++ (a, R, false) :: (a + 16 + R, S - R - 16, true) :: post) 0 := by
  obtain ⟨p1, p2⟩ := Path_split_at hP
  obtain ⟨k1, _, k3, k4, k5⟩ := p2
  simp only at p1 k1 k3 k4 k5
  have hlt : a + 16 + S < WORD := by omega
  rw [grant_block_split_eq k3 hlt hR]
  have hrd : ∀ c ∈ pre ++ post,
      read_block_size (write_is_free (write_block_size (write_is_free
          (write_block_size s.mem a R) a false) (a + 16 + R) (S - R - 16)) (a + 16 + R) true) c.1
        = read_block_size s.mem c.1
      ∧ read_is_free (write_is_free (write_block_size (write_is_free
          (write_block_size s.mem a R) a false) (a + 16 + R) (S - R - 16)) (a + 16 + R) true) c.1
        = read_is_free s.mem c.1 := by
    intro c hc
    have := hsep c hc
    refine ⟨?_, ?_⟩
    · rw [read_block_size_write_is_free _ _ _ _ (by omega),
        read_block_size_write_block_size _ _ _ _ (by omega),
        read_block_size_write_is_free _ _ _ _ (by omega),
        read_block_size_write_block_size _ _ _ _ (by omega)]
    · rw [read_is_free_write_is_free _ _ _ _ (by omega),
        read_is_free_write_block_size _ _ _ _ (by omega),
        read_is_free_write_is_free _ _ _ _ (by omega),
        read_is_free_write_block_size _ _ _ _ (by omega)]
  have hsa : read_block_size (write_is_free (write_block_size (write_is_free
      (write_block_size s.mem a R) a false) (a + 16 + R) (S - R - 16)) (a + 16 + R) true) a
      = R := by
    rw [read_block_size_write_is_free _ _ _ _ (by omega),
      read_block_size_write_block_size _ _ _ _ (by omega),
      read_block_size_write_is_free _ _ _ _ (by omega), read_write_block_size]
    exact Nat.mod_eq_of_lt (by omega)
  have hfa : read_is_free (write_is_free (write_block_size (write_is_free
      (write_block_size s.mem a R) a false) (a + 16 + R) (S - R - 16)) (a + 16 + R) true) a
      = false := by
    rw [read_is_free_write_is_free _ _ _ _ (by omega),
      read_is_free_write_block_size _ _ _ _ (by omega), read_write_is_free]
  have hsn : read_block_size (write_is_free (write_block_size (write_is_free
      (write_block_size s.mem a R) a false) (a + 16 + R) (S - R - 16)) (a + 16 + R) true)
      (a + 16 + R) = S - R - 16 := by
    rw [read_block_size_write_is_free _ _ _ _ (by omega), read_write_block_size]
    exact Nat.mod_eq_of_lt (by omega)
  have hfn : read_is_free (write_is_free (write_block_size (write_is_free
      (write_block_size s.mem a R) a false) (a + 16 + R) (S - R - 16)) (a + 16 + R) true)
      (a + 16 + R) = true := read_write_is_free _ _ _
  have hna : next_block_header ⟨s.heap, s.heap_size, write_is_free (write_block_size
      (write_is_free (write_block_size s.mem a R) a false) (a + 16 + R) (S - R - 16))
      (a + 16 + R) true⟩ a = a + 16 + R := by
    rw [next_block_header_eq]
    simp only [hsa]
    unfold WORD at *
    rw [if_neg (by omega)]
    omega
  have hnn : next_block_header ⟨s.heap, s.heap_size, write_is_free (write_block_size
      (write_is_free (write_block_size s.mem a R) a false) (a + 16 + R) (S - R - 16))
      (a + 16 + R) true⟩ (a + 16 + R) = next_block_header s a := by
    rw [next_block_header_eq, next_block_header_eq]
    simp only [hsn, k3]
    unfold WORD at *
    have e : ((a + 16 + R + 16) % 18446744073709551616 + (S - R - 16)) % 18446744073709551616
        = ((a + 16) % 18446744073709551616 + S) % 18446744073709551616 := by omega
    rw [e]
  have q1 := @Path_congr s ⟨s.heap, s.heap_size, write_is_free (write_block_size
      (write_is_free (write_block_size s.mem a R) a false) (a + 16 + R) (S - R - 16))
      (a + 16 + R) true⟩ rfl rfl pre s.heap a (fun c hc => hrd c (by simp [hc])) p1
  have q3 := @Path_congr s ⟨s.heap, s.heap_size, write_is_free (write_block_size
      (write_is_free (write_block_size s.mem a R) a false) (a + 16 + R) (S - R - 16))
      (a + 16 + R) true⟩ rfl rfl post (next_block_header s a) 0
      (fun c hc => hrd c (by simp [hc])) k5
  have q2 : Path ⟨s.heap, s.heap_size, write_is_free (write_block_size
      (write_is_free (write_block_size s.mem a R) a false) (a + 16 + R) (S - R - 16))
      (a + 16 + R) true⟩ a [(a, R, false), (a + 16 + R, S - R - 16, true)]
      (next_block_header s a) := by
    refine ⟨k1, rfl, hsa, hfa, ?_⟩
    rw [hna]
    exact ⟨by omega, rfl, hsn, hfn, hnn⟩
  have := Path_append q1 (Path_append q2 q3)
  simpa using this

theorem alloc_selected_addr {s : State} {w : List Blk} {x : Blk} {a R : Nat}
    (hP : Path s s.heap w 0) (hE : s.heap + s.heap_size < WORD) (hx : x ∈ w)
    (ha : a + 16 < WORD) (hg : (grant_block s x.1 R).1 = a + 16) : x.1 = a := by
  have hxl := Path_addr_lt hP (by omega) x hx
  have e : (grant_block s x.1 R).1 = add64 x.1 header_size := by
    simp only [grant_block]
    split <;> rfl
  rw [e] at hg
  simp only [add64, header_size] at hg
  unfold WORD at *
  omega

theorem ff_selected_path {s s' : State} {pre post : List Blk} {a S n fuel p : Nat}
    (hP : Path s s.heap (pre ++ (a, S, true) :: post) 0)
    (hE : s.heap + s.heap_size < WORD) (ha : a + 16 < WORD)
    (hf : (pre ++ (a, S, true) :: post).length < fuel)
    (hres : my_alloc_ff fuel s n = some (some p, s')) (hp : p = a + 16) :
    s' = (grant_block s a (round_up n)).2 ∧ fits (round_up n) (a, S, true)
      ∧ ∀ c ∈ pre, ¬ fits (round_up n) c := by
  obtain ⟨h1, h2⟩ := alloc_some_request (Or.inl hres)
  have hh : s.heap ≠ 0 := by
    intro e
    unfold my_alloc_ff at hres
    simp [e] at hres
  rcases my_alloc_ff_path hh hP h1 h2 hf with ⟨_, hr⟩ | ⟨pre', x, post', hw, hx, hpre, hr⟩
  · rw [hr] at hres
    simp at hres
  · rw [hr] at hres
    simp only [Option.some.injEq, Prod.mk.injEq] at hres
    have hxa : x.1 = a :=
      alloc_selected_addr hP hE (by rw [hw]; simp) ha (by rw [hres.1, hp])
    obtain ⟨e1, e2, e3⟩ := split_at_addr hP hw hxa
    subst e1 e2
    exact ⟨by rw [← hres.2], hx, hpre⟩

theorem bf_selected_path {s s' : State} {pre post : List Blk} {a S n fuel p : Nat}
    (hP : Path s s.heap (pre ++ (a, S, true) :: post) 0)
    (hE : s.heap + s.heap_size < WORD) (ha : a + 16 < WORD)
    (hf : (pre ++ (a, S, true) :: post).length < fuel)
    (hres : my_alloc_bf fuel s n = some (some p, s')) (hp : p = a + 16) :
    s' = (grant_block s a (round_up n)).2 ∧ fits (round_up n) (a, S, true)
      ∧ ∀ c ∈ pre ++ post, fits (round_up n) c → S ≤ c.2.1 := by
  obtain ⟨h1, h2⟩ := alloc_some_request (Or.inr hres)
  have hh : s.heap ≠ 0 := by
    intro e
    unfold my_alloc_bf at hres
    simp [e] at hres
  rcases my_alloc_bf_path hh hP h1 h2 hf with
    ⟨_, hr⟩ | ⟨pre', x, post', hw, hx, hpre, hpost, hr⟩
  · rw [hr] at hres
    simp at hres
  · rw [hr] at hres
    simp only [Option.some.injEq, Prod.mk.injEq] at hres
    have hxa : x.1 = a :=
      alloc_selected_addr hP hE (by rw [hw]; simp) ha (by rw [hres.1, hp])
    obtain ⟨e1, e2, e3⟩ := split_at_addr hP hw hxa
    subst e1 e2 e3
    refine ⟨by rw [← hres.2], hx, ?_⟩
    intro c hc hfc
    rcases List.mem_append.mp hc with h | h
    · exact Nat.le_of_lt (hpre c h hfc)
    · exact hpost c h hfc

theorem second_ff_path {s : State} {pre post : List Blk} {a R S' n fuel : Nat}
    (hh : s.heap ≠ 0)
    (hP : Path s s.heap (pre ++ (a, R, false) :: (a + 16 + R, S', true) :: post) 0)
    (h1 : 1 ≤ n) (h2 : n ≤ s.heap_size) (hR : R = round_up n)
    (hf : (pre ++ (a, R, false) :: (a + 16 + R, S', true) :: post).length < fuel)
    (hw : a + 16 + R + 16 < WORD) (hbig : R ≤ S')
    (hpre : ∀ c ∈ pre, ¬ fits (round_up n) c) :
    ∃ s'', my_alloc_ff fuel s n = some (some (a + 16 + R + 16), s'') := by
  have hfr : fits (round_up n) (a + 16 + R, S', true) := ⟨rfl, by rw [← hR]; exact hbig⟩
  rcases my_alloc_ff_path hh hP h1 h2 hf with ⟨hno, _⟩ | ⟨pre2, y, post2, hw', hy, hpre2, hres⟩
  · exact absurd hfr (hno _ (by simp))
  · have hassoc : pre ++ (a, R, false) :: (a + 16 + R, S', true) :: post
        = (pre ++ [(a, R, false)]) ++ (a + 16 + R, S', true) :: post := by simp
    rw [hassoc] at hw'
    have hu : ∀ c ∈ pre ++ [(a, R, false)], ¬ fits (round_up n) c := by
      intro c hc
      rcases List.mem_append.mp hc with h | h
      · exact hpre c h
      · simp only [List.mem_singleton] at h
        rw [h]
        intro hf'
        exact absurd hf'.1 (by simp)
    have hyr := first_fit_unique hw' hu hfr hpre2 hy
    rw [hyr] at hres
    rw [grant_block_fst (by omega)] at hres
    exact ⟨_, hres⟩

theorem second_bf_path {s : State} {pre post : List Blk} {a R S S' n fuel : Nat}
    (hh : s.heap ≠ 0)
    (hP : Path s s.heap (pre ++ (a, R, false) :: (a + 16 + R, S', true) :: post) 0)
    (h1 : 1 ≤ n) (h2 : n ≤ s.heap_size) (hR : R = round_up n)
    (hf : (pre ++ (a, R, false) :: (a + 16 + R, S', true) :: post).length < fuel)
    (hw : a + 16 + R + 16 < WORD) (hbig : R ≤ S') (hlt : S' < S)
    (hmin : ∀ c ∈ pre ++ post, fits (round_up n) c → S ≤ c.2.1) :
    ∃ s'', my_alloc_bf fuel s n = some (some (a + 16 + R + 16), s'') := by
  have hfr : fits (round_up n) (a + 16 + R, S', true) := ⟨rfl, by rw [← hR]; exact hbig⟩
  rcases my_alloc_bf_path hh hP h1 h2 hf with
    ⟨hno, _⟩ | ⟨pre2, y, post2, hw', hy, hpre2, hpost2, hres⟩
  · exact absurd hfr (hno _ (by simp))
  · have hymem : y ∈ pre ++ (a, R, false) :: (a + 16 + R, S', true) :: post := by
      rw [hw']; simp
    have hrmem : (a + 16 + R, S', true) ∈ pre2 ++ y :: post2 := by
      rw [← hw']; simp
    have hysz : y.2.1 ≤ S' := by
      rcases mem_split_cases hrmem with h' | h' | h'
      · exact Nat.le_of_lt (hpre2 _ h' hfr)
      · rw [← h']
      · exact hpost2 _ h' hfr
    have hy1 : y.1 = a + 16 + R := by
      rcases mem_split_cases hymem with h | h | h
      · have := hmin y (by simp [h]) hy
        omega
      · rw [h] at hy
        exact absurd hy.1 (by simp)
      · rcases List.mem_cons.mp h with h | h
        · rw [h]
        · have := hmin y (by simp [h]) hy
          omega
    rw [hy1, grant_block_fst (by omega)] at hres
    exact ⟨_, hres⟩

theorem Lay_of_acc {s : State} {w : List Blk} {f0 fuel : Nat}
    (hI : check_heap_integrity f0 s = some true) (hA : Acc s w) (hlen : w.length < f0)
    (hf : w.length < fuel) (hN : walk_no_wrap fuel s = true) : Lay s w := by
  have hN0 : walk_no_wrap f0 s = true := by
    unfold walk_no_wrap at hN ⊢
    rw [Acc_heap_walk hA hf] at hN
    rw [Acc_heap_walk hA hlen]
    exact hN
  obtain ⟨w', hL⟩ := Lay_of_check hI hN0
  have e1 := Lay_heap_walk hL (show s.heap_size ≤ w.length + 1 + s.heap_size by omega)
  have e2 := Acc_heap_walk hA (show w.length < w.length + 1 + s.heap_size by omega)
  rw [e1] at e2
  simp only [Option.some.injEq] at e2
  rw [← e2]
  exact hL

/-! ## Freeing three adjacent blocks of an accepted walk -/

theorem free3_middle_acc {s : State} {pre post : List Blk} {a sa b sb c sc fuel : Nat}
    (hA : Acc s (pre ++ (a, sa, false) :: (b, sb, false) :: (c, sc, false) :: post))
    (hl : left_occ pre) (hr : right_occ post)
    (hf : (pre ++ (a, sa, false) :: (b, sb, false) :: (c, sc, false) :: post).length < fuel) :
    ∀ t ∈ six_orders (a + 16) (b + 16) (c + 16), ∃ s3,
      free3 fuel s t.1 t.2.1 t.2.2 = some s3 ∧ s3.heap = s.heap
        ∧ s3.heap_size = s.heap_size
        ∧ Acc s3 (pre ++ (a, (sa + sb + sc + 32) % WORD, true) :: post) := by
  intro t ht
  have L : ∀ (w : List Blk), w.length ≤ pre.length + post.length + 3 → w.length < fuel := by
    intro w hw
    simp only [List.length_append, List.length_cons] at hf
    omega
  simp only [six_orders, List.mem_cons, List.mem_singleton, List.not_mem_nil, or_false] at ht
  rcases ht with rfl | rfl | rfl | rfl | rfl | rfl
  · -- a, b, c
    obtain ⟨s1, f1, g1, z1, A1⟩ :=
      @free_G1 s pre _ a sa fuel hA hl (right_occ_cons _ rfl) (L _ (by simp only [List.length_append, List.length_cons, List.length_nil]; omega))
    obtain ⟨s2, f2, g2, z2, A2⟩ :=
      @free_G3 s1 pre _ a sa b sb fuel A1 (right_occ_cons _ rfl) (L _ (by simp only [List.length_append, List.length_cons, List.length_nil]; omega))
    obtain ⟨s3, f3, g3, z3, A3⟩ :=
      @free_G3 s2 pre post a ((sa + 16 + sb) % WORD) c sc fuel A2 hr (L _ (by simp only [List.length_append, List.length_cons, List.length_nil]; omega))
    have e : ((sa + 16 + sb) % WORD + 16 + sc) % WORD = (sa + sb + sc + 32) % WORD := by
      unfold WORD
      omega
    rw [e] at A3
    exact ⟨s3, free3_eq f1 f2 f3, by rw [g3, g2, g1], by rw [z3, z2, z1], A3⟩
  · -- a, c, b
    obtain ⟨s1, f1, g1, z1, A1⟩ :=
      @free_G1 s pre _ a sa fuel hA hl (right_occ_cons _ rfl) (L _ (by simp only [List.length_append, List.length_cons, List.length_nil]; omega))
    have A1' : Acc s1 (((pre ++ [(a, sa, true)]) ++ [(b, sb, false)])
        ++ (c, sc, false) :: post) := by simpa using A1
    obtain ⟨s2, f2, g2, z2, A2⟩ :=
      @free_G1 s1 ((pre ++ [(a, sa, true)]) ++ [(b, sb, false)]) post c sc fuel A1'
        (left_occ_snoc _ rfl) hr (L _ (by simp only [List.length_append, List.length_cons, List.length_nil]; omega))
    have A2' : Acc s2 (pre ++ (a, sa, true) :: (b, sb, false) :: (c, sc, true) :: post) := by
      simpa using A2
    obtain ⟨s3, f3, g3, z3, A3⟩ := @free_G4 s2 pre post a sa b sb c sc fuel A2' (L _ (by simp only [List.length_append, List.length_cons, List.length_nil]; omega))
    have e : (sa + 16 + (sb + 16 + sc) % WORD) % WORD = (sa + sb + sc + 32) % WORD := by
      unfold WORD
      omega
    rw [e] at A3
    exact ⟨s3, free3_eq f1 f2 f3, by rw [g3, g2, g1], by rw [z3, z2, z1], A3⟩
  · -- b, a, c
    have hA' : Acc s ((pre ++ [(a, sa, false)]) ++ (b, sb, false) :: (c, sc, false) :: post) := by
      simpa using hA
    obtain ⟨s1, f1, g1, z1, A1⟩ :=
      @free_G1 s (pre ++ [(a, sa, false)]) _ b sb fuel hA' (left_occ_snoc _ rfl)
        (right_occ_cons _ rfl) (L _ (by simp only [List.length_append, List.length_cons, List.length_nil]; omega))
    have A1' : Acc s1 (pre ++ (a, sa, false) :: (b, sb, true) :: (c, sc, false) :: post) := by
      simpa using A1
    obtain ⟨s2, f2, g2, z2, A2⟩ := @free_G2 s1 pre _ a sa b sb fuel A1' hl (L _ (by simp only [List.length_append, List.length_cons, List.length_nil]; omega))
    obtain ⟨s3, f3, g3, z3, A3⟩ :=
      @free_G3 s2 pre post a ((sa + 16 + sb) % WORD) c sc fuel A2 hr (L _ (by simp only [List.length_append, List.length_cons, List.length_nil]; omega))
    have e : ((sa + 16 + sb) % WORD + 16 + sc) % WORD = (sa + sb + sc + 32) % WORD := by
      unfold WORD
      omega
    rw [e] at A3
    exact ⟨s3, free3_eq f1 f2 f3, by rw [g3, g2, g1], by rw [z3, z2, z1], A3⟩
  · -- b, c, a
    have hA' : Acc s ((pre ++ [(a, sa, false)]) ++ (b, sb, false) :: (c, sc, false) :: post) := by
      simpa using hA
    obtain ⟨s1, f1, g1, z1, A1⟩ :=
      @free_G1 s (pre ++ [(a, sa, false)]) _ b sb fuel hA' (left_occ_snoc _ rfl)
        (right_occ_cons _ rfl) (L _ (by simp only [List.length_append, List.length_cons, List.length_nil]; omega))
    obtain ⟨s2, f2, g2, z2, A2⟩ :=
      @free_G3 s1 (pre ++ [(a, sa, false)]) post b sb c sc fuel A1 hr (L _ (by simp only [List.length_append, List.length_cons, List.length_nil]; omega))
    have A2' : Acc s2 (pre ++ (a, sa, false) :: (b, (sb + 16 + sc) % WORD, true) :: post) := by
      simpa using A2
    obtain ⟨s3, f3, g3, z3, A3⟩ :=
      @free_G2 s2 pre post a sa b ((sb + 16 + sc) % WORD) fuel A2' hl (L _ (by simp only [List.length_append, List.length_cons, List.length_nil]; omega))
    have e : (sa + 16 + (sb + 16 + sc) % WORD) % WORD = (sa + sb + sc + 32) % WORD := by
      unfold WORD
      omega
    rw [e] at A3
    exact ⟨s3, free3_eq f1 f2 f3, by rw [g3, g2, g1], by rw [z3, z2, z1], A3⟩
  · -- c, a, b
    have hA' : Acc s (((pre ++ [(a, sa, false)]) ++ [(b, sb, false)])
        ++ (c, sc, false) :: post) := by simpa using hA
    obtain ⟨s1, f1, g1, z1, A1⟩ :=
      @free_G1 s ((pre ++ [(a, sa, false)]) ++ [(b, sb, false)]) post c sc fuel hA'
        (left_occ_snoc _ rfl) hr (L _ (by simp only [List.length_append, List.length_cons, List.length_nil]; omega))
    have A1' : Acc s1 (pre ++ (a, sa, false) :: (b, sb, false) :: (c, sc, true) :: post) := by
      simpa using A1
    obtain ⟨s2, f2, g2, z2, A2⟩ :=
      @free_G1 s1 pre _ a sa fuel A1' hl (right_occ_cons _ rfl) (L _ (by simp only [List.length_append, List.length_cons, List.length_nil]; omega))
    obtain ⟨s3, f3, g3, z3, A3⟩ := @free_G4 s2 pre post a sa b sb c sc fuel A2 (L _ (by simp only [List.length_append, List.length_cons, List.length_nil]; omega))
    have e : (sa + 16 + (sb + 16 + sc) % WORD) % WORD = (sa + sb + sc + 32) % WORD := by
      unfold WORD
      omega
    rw [e] at A3
    exact ⟨s3, free3_eq f1 f2 f3, by rw [g3, g2, g1], by rw [z3, z2, z1], A3⟩
  · -- c, b, a
    have hA' : Acc s (((pre ++ [(a, sa, false)]) ++ [(b, sb, false)])
        ++ (c, sc, false) :: post) := by simpa using hA
    obtain ⟨s1, f1, g1, z1, A1⟩ :=
      @free_G1 s ((pre ++ [(a, sa, false)]) ++ [(b, sb, false)]) post c sc fuel hA'
        (left_occ_snoc _ rfl) hr (L _ (by simp only [List.length_append, List.length_cons, List.length_nil]; omega))
    have A1' : Acc s1 ((pre ++ [(a, sa, false)]) ++ (b, sb, false) :: (c, sc, true) :: post) := by
      simpa using A1
    obtain ⟨s2, f2, g2, z2, A2⟩ :=
      @free_G2 s1 (pre ++ [(a, sa, false)]) post b sb c sc fuel A1' (left_occ_snoc _ rfl) (L _ (by simp only [List.length_append, List.length_cons, List.length_nil]; omega))
    have A2' : Acc s2 (pre ++ (a, sa, false) :: (b, (sb + 16 + sc) % WORD, true) :: post) := by
      simpa using A2
    obtain ⟨s3, f3, g3, z3, A3⟩ :=
      @free_G2 s2 pre post a sa b ((sb + 16 + sc) % WORD) fuel A2' hl (L _ (by simp only [List.length_append, List.length_cons, List.length_nil]; omega))
    have e : (sa + 16 + (sb + 16 + sc) % WORD) % WORD = (sa + sb + sc + 32) % WORD := by
      unfold WORD
      omega
    rw [e] at A3
    exact ⟨s3, free3_eq f1 f2 f3, by rw [g3, g2, g1], by rw [z3, z2, z1], A3⟩

theorem Acc_single {s : State} {a X : Nat} {f : Bool} (h : Acc s [(a, X, f)]) :
    a = s.heap ∧ X = s.heap_size - 16 := by
  obtain ⟨_, _, _, _, _, b6, _⟩ := Acc_block_bounds h (show (a, X, f) ∈ [(a, X, f)] by simp)
  obtain ⟨_, _, g3, _⟩ := Acc_bounds h
  have hs := h.2.2.2
  have ha := Path_head h.2.1
  simp only [walk_sum, List.map_cons, List.map_nil, List.sum_cons, List.sum_nil,
    header_size] at hs
  simp only at b6 ha
  unfold WORD at *
  omega

theorem free3_trailing_acc {s : State} {a sa b sb c sc d sd fuel : Nat}
    (hA : Acc s [(a, sa, false), (b, sb, false), (c, sc, false), (d, sd, true)])
    (hf : 4 < fuel) :
    ∀ t ∈ six_orders (a + 16) (b + 16) (c + 16), ∃ s3,
      free3 fuel s t.1 t.2.1 t.2.2 = some s3 ∧ s3.heap = s.heap
        ∧ s3.heap_size = s.heap_size
        ∧ Acc s3 [(s.heap, s.heap_size - 16, true)] := by
  intro t ht
  have hfin : ∀ {s3 : State} {X : Nat}, s3.heap = s.heap → s3.heap_size = s.heap_size →
      Acc s3 [(a, X, true)] → Acc s3 [(s.heap, s.heap_size - 16, true)] := by
    intro s3 X g z L
    obtain ⟨k1, k2⟩ := Acc_single L
    rw [k1, k2, g, z] at L
    exact L
  have l4 : ∀ (w : List Blk), w.length ≤ 4 → w.length < fuel := fun w hw => by omega
  simp only [six_orders, List.mem_cons, List.mem_singleton, List.not_mem_nil, or_false] at ht
  rcases ht with rfl | rfl | rfl | rfl | rfl | rfl
  · -- a, b, c
    obtain ⟨s1, f1, g1, z1, A1⟩ :=
      @free_G1 s [] _ a sa fuel hA left_occ_nil (right_occ_cons _ rfl) (l4 _ (by simp))
    obtain ⟨s2, f2, g2, z2, A2⟩ :=
      @free_G3 s1 [] _ a sa b sb fuel A1 (right_occ_cons _ rfl) (l4 _ (by simp))
    obtain ⟨s3, f3, g3, z3, A3⟩ :=
      @free_G4 s2 [] [] a ((sa + 16 + sb) % WORD) c sc d sd fuel A2 (l4 _ (by simp))
    exact ⟨s3, free3_eq f1 f2 f3, by rw [g3, g2, g1], by rw [z3, z2, z1],
      hfin (by rw [g3, g2, g1]) (by rw [z3, z2, z1]) A3⟩
  · -- a, c, b
    obtain ⟨s1, f1, g1, z1, A1⟩ :=
      @free_G1 s [] _ a sa fuel hA left_occ_nil (right_occ_cons _ rfl) (l4 _ (by simp))
    obtain ⟨s2, f2, g2, z2, A2⟩ :=
      @free_G2 s1 ([(a, sa, true)] ++ [(b, sb, false)]) [] c sc d sd fuel A1
        (left_occ_snoc _ rfl) (l4 _ (by simp))
    obtain ⟨s3, f3, g3, z3, A3⟩ :=
      @free_G4 s2 [] [] a sa b sb c ((sc + 16 + sd) % WORD) fuel A2 (l4 _ (by simp))
    exact ⟨s3, free3_eq f1 f2 f3, by rw [g3, g2, g1], by rw [z3, z2, z1],
      hfin (by rw [g3, g2, g1]) (by rw [z3, z2, z1]) A3⟩
  · -- b, a, c
    obtain ⟨s1, f1, g1, z1, A1⟩ :=
      @free_G1 s ([] ++ [(a, sa, false)]) _ b sb fuel hA (left_occ_snoc _ rfl)
        (right_occ_cons _ rfl) (l4 _ (by simp))
    obtain ⟨s2, f2, g2, z2, A2⟩ :=
      @free_G2 s1 [] _ a sa b sb fuel A1 left_occ_nil (l4 _ (by simp))
    obtain ⟨s3, f3, g3, z3, A3⟩ :=
      @free_G4 s2 [] [] a ((sa + 16 + sb) % WORD) c sc d sd fuel A2 (l4 _ (by simp))
    exact ⟨s3, free3_eq f1 f2 f3, by rw [g3, g2, g1], by rw [z3, z2, z1],
      hfin (by rw [g3, g2, g1]) (by rw [z3, z2, z1]) A3⟩
  · -- b, c, a
    obtain ⟨s1, f1, g1, z1, A1⟩ :=
      @free_G1 s ([] ++ [(a, sa, false)]) _ b sb fuel hA (left_occ_snoc _ rfl)
        (right_occ_cons _ rfl) (l4 _ (by simp))
    obtain ⟨s2, f2, g2, z2, A2⟩ :=
      @free_G4 s1 [(a, sa, false)] [] b sb c sc d sd fuel A1 (l4 _ (by simp))
    obtain ⟨s3, f3, g3, z3, A3⟩ :=
      @free_G2 s2 [] [] a sa b ((sb + 16 + (sc + 16 + sd) % WORD) % WORD) fuel A2 left_occ_nil
        (l4 _ (by simp))
    exact ⟨s3, free3_eq f1 f2 f3, by rw [g3, g2, g1], by rw [z3, z2, z1],
      hfin (by rw [g3, g2, g1]) (by rw [z3, z2, z1]) A3⟩
  · -- c, a, b
    obtain ⟨s1, f1, g1, z1, A1⟩ :=
      @free_G2 s ([(a, sa, false)] ++ [(b, sb, false)]) [] c sc d sd fuel hA
        (left_occ_snoc _ rfl) (l4 _ (by simp))
    obtain ⟨s2, f2, g2, z2, A2⟩ :=
      @free_G1 s1 [] _ a sa fuel A1 left_occ_nil (right_occ_cons _ rfl) (l4 _ (by simp))
    obtain ⟨s3, f3, g3, z3, A3⟩ :=
      @free_G4 s2 [] [] a sa b sb c ((sc + 16 + sd) % WORD) fuel A2 (l4 _ (by simp))
    exact ⟨s3, free3_eq f1 f2 f3, by rw [g3, g2, g1], by rw [z3, z2, z1],
      hfin (by rw [g3, g2, g1]) (by rw [z3, z2, z1]) A3⟩
  · -- c, b, a
    obtain ⟨s1, f1, g1, z1, A1⟩ :=
      @free_G2 s ([(a, sa, false)] ++ [(b, sb, false)]) [] c sc d sd fuel hA
        (left_occ_snoc _ rfl) (l4 _ (by simp))
    obtain ⟨s2, f2, g2, z2, A2⟩ :=
      @free_G2 s1 ([] ++ [(a, sa, false)]) [] b sb c ((sc + 16 + sd) % WORD) fuel A1
        (left_occ_snoc _ rfl) (l4 _ (by simp))
    obtain ⟨s3, f3, g3, z3, A3⟩ :=
      @free_G2 s2 [] [] a sa b ((sb + 16 + (sc + 16 + sd) % WORD) % WORD) fuel A2 left_occ_nil
        (l4 _ (by simp))
    exact ⟨s3, free3_eq f1 f2 f3, by rw [g3, g2, g1], by rw [z3, z2, z1],
      hfin (by rw [g3, g2, g1]) (by rw [z3, z2, z1]) A3⟩

/-! ## Growing in place along the walk of a state -/

theorem Acc_regrow_split {s : State} {pre post : List Blk} {h c y f r : Nat}
    (hA : Acc s (pre ++ (h, c, false) :: (y, f, true) :: post))
    (hin : y + 16 + f ≤ s.heap + s.heap_size)
    (hsep : ∀ b ∈ pre ++ (h, c, false) :: post, b.1 + 16 ≤ y ∨ y + 16 + f ≤ b.1)
    (hr16 : r % 16 = 0) (hrs : r ≤ s.heap_size) (hlt : c < r) (hbig : r + 16 ≤ c + f) :
    Acc ⟨s.heap, s.heap_size,
        write_is_free (write_block_size (write_block_size s.mem h r)
          (add64 (h + 16) r) (c + f - r)) (add64 (h + 16) r) true⟩
      (pre ++ (h, r, false) :: (add64 (h + 16) r, c + f - r, true) :: post) := by
  have hdh := Path_distinct hA.2.1
  obtain ⟨p1, p2⟩ := Path_split_at hA.2.1
  obtain ⟨k1, k2, k3, k4, j1, j2, j3, j4, j5⟩ := p2
  simp only at hdh p1 k1 k2 k3 k4 j1 j2 j3 j4 j5
  rw [← j2] at j1 j3 j4 j5
  obtain ⟨_, bh2, bh3, bh4, bh5, bh6, bh7⟩ := Acc_block_bounds hA
    (show (h, c, false) ∈ pre ++ (h, c, false) :: (y, f, true) :: post by simp)
  obtain ⟨_, by2, by3, by4, by5, by6, by7⟩ := Acc_block_bounds hA
    (show (y, f, true) ∈ pre ++ (h, c, false) :: (y, f, true) :: post by simp)
  obtain ⟨g1, g2, g3, g4⟩ := Acc_bounds hA
  simp only at bh2 bh3 bh4 bh5 bh6 bh7 by2 by3 by4 by5 by6 by7
  have hsh := hsep (h, c, false) (by simp)
  simp only at hsh
  have hnx := next_block_header_eq s h
  rw [k3, ← j2] at hnx
  have hny := next_block_header_eq s y
  rw [j3] at hny
  -- the address of the remainder header
  have hn : add64 (h + 16) r = y + (r - c) := by
    simp only [add64]
    split at hnx
    · omega
    · unfold WORD at *
      omega
  rw [hn]
  have hrd : ∀ b ∈ pre ++ post,
      read_block_size (write_is_free (write_block_size (write_block_size s.mem h r)
          (y + (r - c)) (c + f - r)) (y + (r - c)) true) b.1 = read_block_size s.mem b.1
      ∧ read_is_free (write_is_free (write_block_size (write_block_size s.mem h r)
          (y + (r - c)) (c + f - r)) (y + (r - c)) true) b.1 = read_is_free s.mem b.1 := by
    intro b hb
    have hbm : b ∈ pre ++ (h, c, false) :: (y, f, true) :: post := by
      rcases List.mem_append.mp hb with hb | hb
      · simp [hb]
      · simp [hb]
    have hb16 := (Acc_block_bounds hA hbm).2.2.2.1
    have hbh : b.1 ≠ h := hdh b (by
      rcases List.mem_append.mp hb with hb | hb
      · simp [hb]
      · simp [hb])
    have hbs := hsep b (by
      rcases List.mem_append.mp hb with hb | hb
      · simp [hb]
      · simp [hb])
    refine ⟨?_, ?_⟩
    · rw [read_block_size_write_is_free _ _ _ _ (by omega),
        read_block_size_write_block_size _ _ _ _ (by omega),
        read_block_size_write_block_size _ _ _ _ (by omega)]
    · rw [read_is_free_write_is_free _ _ _ _ (by omega),
        read_is_free_write_block_size _ _ _ _ (by omega),
        read_is_free_write_block_size _ _ _ _ (by omega)]
  have hsa : read_block_size (write_is_free (write_block_size (write_block_size s.mem h r)
      (y + (r - c)) (c + f - r)) (y + (r - c)) true) h = r := by
    rw [read_block_size_write_is_free _ _ _ _ (by omega),
      read_block_size_write_block_size _ _ _ _ (by omega), read_write_block_size]
    exact Nat.mod_eq_of_lt (by unfold WORD at *; omega)
  have hfa : read_is_free (write_is_free (write_block_size (write_block_size s.mem h r)
      (y + (r - c)) (c + f - r)) (y + (r - c)) true) h = false := by
    rw [read_is_free_write_is_free _ _ _ _ (by omega),
      read_is_free_write_block_size _ _ _ _ (by omega),
      read_is_free_write_block_size _ _ _ _ (by omega)]
    exact k4
  have hsn : read_block_size (write_is_free (write_block_size (write_block_size s.mem h r)
      (y + (r - c)) (c + f - r)) (y + (r - c)) true) (y + (r - c)) = c + f - r := by
    rw [read_block_size_write_is_free _ _ _ _ (by omega), read_write_block_size]
    exact Nat.mod_eq_of_lt (by unfold WORD at *; omega)
  have hfn : read_is_free (write_is_free (write_block_size (write_block_size s.mem h r)
      (y + (r - c)) (c + f - r)) (y + (r - c)) true) (y + (r - c)) = true :=
    read_write_is_free _ _ _
  have hna : next_block_header ⟨s.heap, s.heap_size, write_is_free (write_block_size
      (write_block_size s.mem h r) (y + (r - c)) (c + f - r)) (y + (r - c)) true⟩ h
      = y + (r - c) := by
    rw [next_block_header_eq]
    simp only [hsa]
    simp only [add64] at hn
    unfold WORD at *
    rw [if_neg (by omega)]
    omega
  have hnn : next_block_header ⟨s.heap, s.heap_size, write_is_free (write_block_size
      (write_block_size s.mem h r) (y + (r - c)) (c + f - r)) (y + (r - c)) true⟩
      (y + (r - c)) = next_block_header s y := by
    rw [next_block_header_eq, hny]
    simp only [hsn]
    unfold WORD at *
    have e : ((y + (r - c) + 16) % 18446744073709551616 + (c + f - r)) % 18446744073709551616
        = ((y + 16) % 18446744073709551616 + f) % 18446744073709551616 := by omega
    rw [e]
  have hA' : Acc s (pre ++ [(h, c, false), (y, f, true)] ++ post) := by simpa using hA
  have := @Acc_replace_rd s ⟨s.heap, s.heap_size, write_is_free (write_block_size
      (write_block_size s.mem h r) (y + (r - c)) (c + f - r)) (y + (r - c)) true⟩ pre
    [(h, c, false), (y, f, true)] [(h, r, false), (y + (r - c), c + f - r, true)] post h
    (next_block_header s y) hA' p1 j5 rfl rfl hrd
    (by
      refine ⟨k1, rfl, hsa, hfa, ?_⟩
      rw [hna]
      exact ⟨by omega, rfl, hsn, hfn, hnn⟩)
    (by
      intro b hb
      simp only [List.mem_cons, List.mem_singleton, List.not_mem_nil, or_false] at hb
      rcases hb with hb | hb
      · subst hb
        rw [is_valid_header_iff]
        simp only [hsa]
        simp only [add64] at hn
        unfold WORD at *
        exact ⟨by omega, by omega, by omega, by omega, by omega⟩
      · subst hb
        rw [is_valid_header_iff]
        simp only [hsn]
        unfold WORD at *
        exact ⟨by omega, by omega, by omega, by omega, by omega⟩)
    (by
      simp only [walk_sum, List.map_cons, List.map_nil, List.sum_cons, List.sum_nil,
        header_size]
      have e : 16 + r + (16 + (c + f - r) + 0) = 16 + c + (16 + f + 0) := by omega
      rw [e])
  simpa using this


theorem realloc_grow_acc {s : State} {pre post : List Blk} {h c y f n : Nat} (fuel : Nat)
    (strategy : Bool)
    (hA : Acc s (pre ++ (h, c, false) :: (y, f, true) :: post))
    (hin : y + 16 + f ≤ s.heap + s.heap_size)
    (hsep : ∀ b ∈ pre ++ (h, c, false) :: post, b.1 + 16 ≤ y ∨ y + 16 + f ≤ b.1)
    (hn : 0 < n)
    (hlt : c < round_up n) (hle : round_up n ≤ c + 16 + f)
    (hhs : round_up n ≤ s.heap_size) :
    (round_up n + 16 ≤ c + f →
      ∃ s', my_realloc_general fuel s (h + 16) n strategy = some (Outcome.ret (some (h + 16)) s')
        ∧ s'.heap_size = s.heap_size
        ∧ Acc s' (pre ++ (h, round_up n, false)
            :: (add64 (h + 16) (round_up n), c + f - round_up n, true) :: post))
    ∧ (c + f < round_up n + 16 →
      ∃ s', my_realloc_general fuel s (h + 16) n strategy = some (Outcome.ret (some (h + 16)) s')
        ∧ s'.heap_size = s.heap_size
        ∧ Acc s' (pre ++ (h, c + 16 + f, false) :: post)) := by
  have hm : (h, c, false) ∈ pre ++ (h, c, false) :: (y, f, true) :: post := by simp
  have hh := header_from_data_ptr_acc hA hm
  obtain ⟨hx0, hb5, _⟩ := Acc_block hA hm
  simp only at hh hx0 hb5
  obtain ⟨_, by3, by4, _⟩ := Acc_block hA
    (show (y, f, true) ∈ pre ++ (h, c, false) :: (y, f, true) :: post by simp)
  simp only at by3 by4
  obtain ⟨g1, g2, g3, g4⟩ := Acc_bounds hA
  obtain ⟨_, bh2, bh3, bh4, bh5, bh6, bh7⟩ := Acc_block_bounds hA hm
  obtain ⟨_, by2, by3', by4', by5, by6, by7⟩ := Acc_block_bounds hA
    (show (y, f, true) ∈ pre ++ (h, c, false) :: (y, f, true) :: post by simp)
  simp only at bh2 bh3 bh4 bh5 bh6 bh7 by2 by3' by4' by5 by6 by7
  have hsh := hsep (h, c, false) (by simp)
  simp only at hsh
  have hh0 := hA.1
  have hr16 := round_up_mod n
  obtain ⟨_, p2⟩ := Path_split_at hA.2.1
  obtain ⟨hnx, hy0⟩ := Path_next p2
  simp only at hnx hy0
  have hreq : sub64 (round_up n) c = round_up n - c := by
    simp only [sub64]
    unfold WORD at *
    omega
  have hav : add64 header_size f = 16 + f := by
    simp only [add64, header_size]
    unfold WORD at *
    omega
  have hcond : next_block_header s h ≠ 0 ∧ read_is_free s.mem (next_block_header s h) = true
      ∧ add64 (read_block_size s.mem (next_block_header s h)) header_size
          ≥ sub64 (round_up n) c := by
    rw [hnx, by3, by4, hreq]
    refine ⟨hy0, rfl, ?_⟩
    simp only [add64, header_size]
    unfold WORD at *
    omega
  have hpre : my_realloc_general fuel s (h + 16) n strategy
      = if add64 header_size f ≥ add64 (add64 (sub64 (round_up n) c) header_size) ALIGNMENT then
          some (Outcome.ret (some (h + 16)) ⟨s.heap, s.heap_size,
            write_is_free (write_block_size (write_block_size s.mem h (round_up n))
              (add64 (h + 16) (round_up n))
              (sub64 (sub64 (add64 header_size f) (sub64 (round_up n) c)) header_size))
              (add64 (h + 16) (round_up n)) true⟩)
        else
          some (Outcome.ret (some (h + 16)) ⟨s.heap, s.heap_size,
            write_block_size s.mem h (add64 c (add64 header_size f))⟩) := by
    unfold my_realloc_general
    rw [if_neg (by omega)]
    simp only [hh, hx0, if_false, hb5]
    rw [if_neg (by omega), if_neg (by omega), if_neg (by omega), if_pos hcond]
    rw [hnx, by3]
  rw [hpre, hav, hreq]
  have hthr : add64 (add64 (round_up n - c) header_size) ALIGNMENT = round_up n - c + 32 := by
    simp only [add64, header_size, ALIGNMENT]
    unfold WORD at *
    omega
  rw [hthr]
  refine ⟨fun hbig => ?_, fun hsmall => ?_⟩
  · rw [if_pos (by omega)]
    have e2 : sub64 (sub64 (16 + f) (round_up n - c)) header_size = c + f - round_up n := by
      simp only [sub64, header_size]
      unfold WORD at *
      omega
    rw [e2]
    exact ⟨_, rfl, rfl, Acc_regrow_split hA hin hsep hr16 hhs hlt hbig⟩
  · rw [if_neg (by omega)]
    have e3 : add64 c (16 + f) = (c + 16 + f) % WORD := by
      simp only [add64, Nat.add_assoc]
    have e4 : (c + 16 + f) % WORD = c + 16 + f := by
      apply Nat.mod_eq_of_lt
      unfold WORD at *
      omega
    have hM := Acc_merge hA
    rw [e3]
    rw [e4] at hM ⊢
    exact ⟨_, rfl, rfl, hM⟩

/-! ## Claims -/

/-- C1: `init_heap(size)` returns `MY_API_ERROR_INVALID_ARGUMENT` (1) exactly when `size`
is 0 or exceeds `MAX_HEAP_SIZE` (8000), and then the state (heap, heap_size, memory) is
unchanged. For every other size, when `malloc` succeeds with a region lying below `2^64`,
it returns 0, `heap_size` is the least multiple of 16 that is at least `size` (so it is a
multiple of 16 and at most 8000), and the walk from the arena start consists of exactly one
block at offset 0, free, with `block_size = heap_size - header_size`. -/
theorem init_heap_contract (s : State) (size fresh : Nat) :
    ((init_heap s size fresh).1 = MY_API_ERROR_INVALID_ARGUMENT
        ↔ (size = 0 ∨ size > MAX_HEAP_SIZE))
    ∧ ((size = 0 ∨ size > MAX_HEAP_SIZE) → (init_heap s size fresh).2 = s)
    ∧ (¬ (size = 0 ∨ size > MAX_HEAP_SIZE) → fresh ≠ 0 → fresh + size + 32 ≤ WORD →
        (init_heap s size fresh).1 = MY_API_SUCCESS
        ∧ (init_heap s size fresh).2.heap = fresh
        ∧ (init_heap s size fresh).2.heap_size % 16 = 0
        ∧ size ≤ (init_heap s size fresh).2.heap_size
        ∧ (∀ k, k % 16 = 0 → size ≤ k → (init_heap s size fresh).2.heap_size ≤ k)
        ∧ (init_heap s size fresh).2.heap_size ≤ MAX_HEAP_SIZE
        ∧ ∀ fuel, 2 ≤ fuel →
            heap_walk (init_heap s size fresh).2 fuel (init_heap s size fresh).2.heap
              = some [(fresh, (init_heap s size fresh).2.heap_size - header_size, true)]) := by
  refine ⟨?_, ?_, ?_⟩
  · unfold init_heap MY_API_ERROR_INVALID_ARGUMENT MALLOC_FAIL MY_API_SUCCESS MAX_HEAP_SIZE
    constructor
    · intro h
      by_contra hc
      rw [if_neg (by omega)] at h
      simp only at h
      split at h <;> simp at h
    · intro h
      rw [if_pos (by omega)]
  · intro h
    unfold init_heap MAX_HEAP_SIZE
    rw [if_pos (by unfold MAX_HEAP_SIZE at h; omega)]
  · intro hsz hfresh hfit
    unfold MAX_HEAP_SIZE at *
    have hr := round_up_spec size (by unfold WORD at *; omega)
    obtain ⟨hr1, hr2, hr3, hr4⟩ := hr
    have hinit : init_heap s size fresh = (MY_API_SUCCESS,
        { heap := fresh, heap_size := round_up size,
          mem := write_is_free (write_block_size s.mem fresh
            (sub64 (round_up size) header_size)) fresh true }) := by
      unfold init_heap MAX_HEAP_SIZE
      rw [if_neg (by omega)]
      simp only [hfresh, if_false]
      split <;> rfl
    rw [hinit]
    refine ⟨rfl, rfl, hr1, hr2, hr4, ?_, ?_⟩
    · exact hr4 8000 (by decide) (by omega)
    · intro fuel hfuel
      have hge : 16 ≤ round_up size := by omega
      have hsub : sub64 (round_up size) header_size = round_up size - 16 := by
        unfold sub64 header_size
        unfold WORD at *
        omega
      obtain ⟨f, rfl⟩ : ∃ f, fuel = f + 2 := ⟨fuel - 2, by omega⟩
      have hsz : read_block_size (write_is_free (write_block_size s.mem fresh
          (sub64 (round_up size) header_size)) fresh true) fresh = round_up size - 16 := by
        rw [read_block_size_write_is_free _ _ _ _ (by omega), read_write_block_size, hsub]
        unfold WORD at *
        omega
      have hfr : read_is_free (write_is_free (write_block_size s.mem fresh
          (sub64 (round_up size) header_size)) fresh true) fresh = true :=
        read_write_is_free _ _ _
      have hnx : next_block_header ⟨fresh, round_up size, write_is_free (write_block_size
          s.mem fresh (sub64 (round_up size) header_size)) fresh true⟩ fresh = 0 := by
        rw [next_block_header_eq]
        simp only [hsz]
        unfold WORD at *
        rw [if_pos (by omega)]
      simp only [heap_walk, hfresh, if_false, hnx, if_true, hsz, hfr]
      rfl


/-- Instance of `init_heap_contract`: `init_heap(100)` on the boot state, `malloc`
returning address 4096. -/
theorem init_heap_contract_witness :
    (init_heap boot_state 100 4096).1 = MY_API_SUCCESS
      ∧ (init_heap boot_state 100 4096).2.heap_size % 16 = 0
      ∧ heap_walk (init_heap boot_state 100 4096).2 2 (init_heap boot_state 100 4096).2.heap
          = some [(4096, (init_heap boot_state 100 4096).2.heap_size - header_size, true)] :=
  ⟨((init_heap_contract boot_state 100 4096).2.2 (by decide) (by decide) (by decide)).1,
    ((init_heap_contract boot_state 100 4096).2.2 (by decide) (by decide) (by decide)).2.2.1,
    ((init_heap_contract boot_state 100 4096).2.2 (by decide) (by decide)
      (by decide)).2.2.2.2.2.2 2 (le_refl 2)⟩

theorem my_alloc_ff_loop_null (s : State) (R : Nat) :
    ∀ (fuel cur : Nat) (s' : State),
      my_alloc_ff_loop s R fuel cur = some (none, s') → s' = s
  | 0, _, _, h => by simp [my_alloc_ff_loop] at h
  | fuel + 1, cur, s', h => by
    simp only [my_alloc_ff_loop] at h
    split at h
    · simp only [Option.some.injEq, Prod.mk.injEq, true_and] at h
      exact h.symm
    · split at h
      · simp at h
      · exact my_alloc_ff_loop_null s R fuel _ s' h

/-- C2: for every state and request, `my_alloc_ff` and `my_alloc_bf` return `NULL` (without
running the walk) whenever no arena exists, the request is 0, or the request exceeds
`heap_size`; whenever either function returns `NULL`, the state after the call (heap,
heap_size and the whole memory, hence every header) is the state before it; and in a state
accepted by `check_heap_integrity` (whose block end addresses do not wrap) in which no free
block of the walk is large enough for the rounded request, both functions do return `NULL`
with the state unchanged. -/
theorem alloc_null_leaves_state (fuel : Nat) (s : State) (n : Nat) :
    ((s.heap = 0 ∨ n = 0 ∨ n > s.heap_size) →
        my_alloc_ff fuel s n = some (none, s) ∧ my_alloc_bf fuel s n = some (none, s))
    ∧ (∀ s', my_alloc_ff fuel s n = some (none, s') → s' = s)
    ∧ (∀ s', my_alloc_bf fuel s n = some (none, s') → s' = s)
    ∧ (∀ f0 w, check_heap_integrity f0 s = some true → walk_no_wrap f0 s = true →
        1 ≤ n → n ≤ s.heap_size → s.heap_size ≤ fuel →
        heap_walk s fuel s.heap = some w → (∀ b ∈ w, ¬ fits (round_up n) b) →
        my_alloc_ff fuel s n = some (none, s) ∧ my_alloc_bf fuel s n = some (none, s)) := by
  refine ⟨?_, ?_, ?_, ?_⟩
  · intro h
    unfold my_alloc_ff my_alloc_bf
    by_cases h1 : s.heap = 0
    · simp [h1]
    · by_cases h2 : n > s.heap_size
      · simp [h1, h2]
      · have h3 : n = 0 := by omega
        simp [h1, h3]
  · intro s' h
    unfold my_alloc_ff at h
    split at h
    · simp only [Option.some.injEq, Prod.mk.injEq, true_and] at h; exact h.symm
    · split at h
      · simp only [Option.some.injEq, Prod.mk.injEq, true_and] at h; exact h.symm
      · split at h
        · simp only [Option.some.injEq, Prod.mk.injEq, true_and] at h; exact h.symm
        · exact my_alloc_ff_loop_null s _ fuel _ s' h
  · intro s' h
    unfold my_alloc_bf at h
    split at h
    · simp only [Option.some.injEq, Prod.mk.injEq, true_and] at h; exact h.symm
    · split at h
      · simp only [Option.some.injEq, Prod.mk.injEq, true_and] at h; exact h.symm
      · split at h
        · simp only [Option.some.injEq, Prod.mk.injEq, true_and] at h; exact h.symm
        · split at h
          · simp at h
          · split at h
            · simp only [Option.some.injEq, Prod.mk.injEq, true_and] at h; exact h.symm
            · simp at h
  · intro f0 w hI hN h1 h2 hf hw hno
    obtain ⟨w', hL⟩ := Lay_of_check hI hN
    have hwe := Lay_walk_eq hL hf hw
    subst hwe
    refine ⟨?_, ?_⟩
    · rcases my_alloc_ff_Lay hL h1 h2 hf with ⟨_, hr⟩ | ⟨pre, x, post, hw', hx, _, _⟩
      · exact hr
      · exact absurd hx (hno x (by rw [hw']; simp))
    · rcases my_alloc_bf_Lay hL h1 h2 hf with ⟨_, hr⟩ | ⟨pre, x, post, hw', hx, _, _, _⟩
      · exact hr
      · exact absurd hx (hno x (by rw [hw']; simp))

/-- Instance of `alloc_null_leaves_state`: a request of 101 bytes on the arena of
`init_heap(64)` is refused by both strategies. -/
theorem alloc_null_leaves_state_witness :
    my_alloc_ff 8 arena64 101 = some (none, arena64)
      ∧ my_alloc_bf 8 arena64 101 = some (none, arena64) :=
  (alloc_null_leaves_state 8 arena64 101).1 (Or.inr (Or.inr (by decide)))

/-- C3 (first-fit selection), amended: in every state accepted by `check_heap_integrity`
and for a request `1 ≤ n ≤ heap_size` with `R = round_up n`, `my_alloc_ff(n)` returns; it
returns `NULL` if and only if no block of the walk is free with `block_size ≥ R`; otherwise
it returns the payload address (header address plus `header_size`) of the first block in
walk order that is free with `block_size ≥ R`, and that block is marked occupied
afterwards; when no block end address of the walk wraps, that block has the lowest address
among the blocks of the walk that are free with `block_size ≥ R`. -/
theorem my_alloc_ff_first_fit (f0 fuel : Nat) (s : State) (n : Nat)
    (hI : check_heap_integrity f0 s = some true)
    (h1 : 1 ≤ n) (h2 : n ≤ s.heap_size) (hf : f0 ≤ fuel) :
    ∃ w p s', heap_walk s fuel s.heap = some w ∧ my_alloc_ff fuel s n = some (p, s')
      ∧ (p = none ↔ ∀ b ∈ w, ¬ fits (round_up n) b)
      ∧ (∀ q, p = some q → ∃ pre b post, w = pre ++ b :: post ∧ fits (round_up n) b
          ∧ q = b.1 + header_size
          ∧ (∀ c ∈ pre, ¬ fits (round_up n) c)
          ∧ read_is_free s'.mem b.1 = false
          ∧ (walk_no_wrap fuel s = true → ∀ c ∈ w, fits (round_up n) c → b.1 ≤ c.1)) := by
  obtain ⟨w, hA, hlen0⟩ := Acc_of_check hI
  have hlen : w.length < fuel := by omega
  have hwalk := Acc_heap_walk hA hlen
  rcases my_alloc_ff_path hA.1 hA.2.1 h1 h2 hlen with
    ⟨hno, hres⟩ | ⟨pre, x, post, hw, hx, hpre, hres⟩
  · exact ⟨w, none, s, hwalk, hres, by simp only [true_iff]; exact hno, by simp⟩
  · subst hw
    have hxm : x ∈ pre ++ x :: post := by simp
    obtain ⟨_, _, b3, b4, _, _, _⟩ := Acc_block_bounds hA hxm
    obtain ⟨_, _, _, g4⟩ := Acc_bounds hA
    obtain ⟨r1, _, _, r4, _⟩ := Acc_round_up hA h1 h2
    have g1 : (grant_block s x.1 (round_up n)).1 = x.1 + 16 := grant_block_fst (by omega)
    obtain ⟨g2, _⟩ := @grant_block_header_gen s x.1 (round_up n) b4 r1 r4
    refine ⟨_, _, _, hwalk, hres, ?_, ?_⟩
    · simp only [false_iff, reduceCtorEq]
      intro hall
      exact hall x (by simp) hx
    · intro q hq
      simp only [Option.some.injEq] at hq
      refine ⟨pre, x, post, rfl, hx, by rw [← hq, g1]; rfl, hpre, g2, ?_⟩
      intro hN c hc hfc
      have hL := Lay_of_acc hI hA hlen0 hlen hN
      rcases List.mem_append.mp hc with hc | hc
      · exact absurd hfc (hpre c hc)
      · rcases List.mem_cons.mp hc with hc | hc
        · rw [hc]
        · exact Nat.le_of_lt (Seg_post_gt hL.2.2.2 c hc)

/-- Instance of `my_alloc_ff_first_fit`: a request of 32 bytes on the arena of
`init_heap(64)`. -/
theorem my_alloc_ff_first_fit_witness :
    ∃ w p s', heap_walk arena64 8 arena64.heap = some w
      ∧ my_alloc_ff 8 arena64 32 = some (p, s')
      ∧ (p = none ↔ ∀ b ∈ w, ¬ fits (round_up 32) b)
      ∧ (∀ q, p = some q → ∃ pre b post, w = pre ++ b :: post ∧ fits (round_up 32) b
          ∧ q = b.1 + header_size
          ∧ (∀ c ∈ pre, ¬ fits (round_up 32) c)
          ∧ read_is_free s'.mem b.1 = false
          ∧ (walk_no_wrap 8 arena64 = true → ∀ c ∈ w, fits (round_up 32) c → b.1 ≤ c.1)) :=
  my_alloc_ff_first_fit 8 8 arena64 32 (by decide) (by decide) (by decide) (by decide)

/-- C3, evaluated on `wrap_ff`: the state is accepted by `check_heap_integrity`, the blocks
at 4128 and at 4160 are both free with `block_size ≥ 16`, and `my_alloc_ff(16)` returns the
payload address of the block at 4160, which the walk visits first, although the fitting
block at 4128 has the lower address. -/
theorem first_fit_not_lowest :
    check_heap_integrity 8 wrap_ff = some true
      ∧ heap_walk wrap_ff 8 wrap_ff.heap
          = some [(4096, 48, false), (4160, WORD - 48, true), (4128, 48, true),
              (4192, 16, false)]
      ∧ fits (round_up 16) (4128, 48, true) ∧ fits (round_up 16) (4160, WORD - 48, true)
      ∧ (my_alloc_ff 8 wrap_ff 16).map (fun r => r.1) = some (some (4160 + header_size))
      ∧ 4128 < 4160 := by
  refine ⟨by decide, by decide, by decide, by decide, by decide, by decide⟩

/-- C4 (best-fit selection), amended: in every state accepted by `check_heap_integrity`
and for a request `1 ≤ n ≤ heap_size` with `R = round_up n`, `my_alloc_bf(n)` returns; it
returns `NULL` if and only if no block of the walk is free with `block_size ≥ R`; when it
succeeds, the granted block was, before the call, a block of the walk that is free with
`block_size ≥ R`, of minimum `block_size` among such blocks, and the first in walk order
among the blocks of that minimum size (every fitting block before it is strictly larger);
when no block end address of the walk wraps, it is the block at the lowest address among
the blocks of that minimum size. -/
theorem my_alloc_bf_best_fit (f0 fuel : Nat) (s : State) (n : Nat)
    (hI : check_heap_integrity f0 s = some true)
    (h1 : 1 ≤ n) (h2 : n ≤ s.heap_size) (hf : f0 ≤ fuel) :
    ∃ w p s', heap_walk s fuel s.heap = some w ∧ my_alloc_bf fuel s n = some (p, s')
      ∧ (p = none ↔ ∀ b ∈ w, ¬ fits (round_up n) b)
      ∧ (∀ q, p = some q → ∃ pre b post, w = pre ++ b :: post ∧ fits (round_up n) b
          ∧ q = b.1 + header_size
          ∧ (∀ c ∈ w, fits (round_up n) c → b.2.1 ≤ c.2.1)
          ∧ (∀ c ∈ pre, fits (round_up n) c → b.2.1 < c.2.1)
          ∧ (walk_no_wrap fuel s = true →
              ∀ c ∈ w, fits (round_up n) c → c.2.1 = b.2.1 → b.1 ≤ c.1)) := by
  obtain ⟨w, hA, hlen0⟩ := Acc_of_check hI
  have hlen : w.length < fuel := by omega
  have hwalk := Acc_heap_walk hA hlen
  rcases my_alloc_bf_path hA.1 hA.2.1 h1 h2 hlen with
    ⟨hno, hres⟩ | ⟨pre, x, post, hw, hx, hpre, hpost, hres⟩
  · exact ⟨w, none, s, hwalk, hres, by simp only [true_iff]; exact hno, by simp⟩
  · subst hw
    have hxm : x ∈ pre ++ x :: post := by simp
    obtain ⟨_, _, b3, b4, _, _, _⟩ := Acc_block_bounds hA hxm
    obtain ⟨_, _, _, g4⟩ := Acc_bounds hA
    have g1 : (grant_block s x.1 (round_up n)).1 = x.1 + 16 := grant_block_fst (by omega)
    refine ⟨_, _, _, hwalk, hres, ?_, ?_⟩
    · simp only [false_iff, reduceCtorEq]
      intro hall
      exact hall x (by simp) hx
    · intro q hq
      simp only [Option.some.injEq] at hq
      refine ⟨pre, x, post, rfl, hx, by rw [← hq, g1]; rfl, ?_, hpre, ?_⟩
      · intro c hc hfc
        rcases List.mem_append.mp hc with hc | hc
        · exact Nat.le_of_lt (hpre c hc hfc)
        · rcases List.mem_cons.mp hc with hc | hc
          · rw [hc]
          · exact hpost c hc hfc
      · intro hN c hc hfc hsz
        have hL := Lay_of_acc hI hA hlen0 hlen hN
        rcases List.mem_append.mp hc with hc | hc
        · have := hpre c hc hfc
          omega
        · rcases List.mem_cons.mp hc with hc | hc
          · rw [hc]
          · exact Nat.le_of_lt (Seg_post_gt hL.2.2.2 c hc)

/-- Instance of `my_alloc_bf_best_fit`: a request of 32 bytes on the arena of
`init_heap(64)`. -/
theorem my_alloc_bf_best_fit_witness :
    ∃ w p s', heap_walk arena64 8 arena64.heap = some w
      ∧ my_alloc_bf 8 arena64 32 = some (p, s')
      ∧ (p = none ↔ ∀ b ∈ w, ¬ fits (round_up 32) b)
      ∧ (∀ q, p = some q → ∃ pre b post, w = pre ++ b :: post ∧ fits (round_up 32) b
          ∧ q = b.1 + header_size
          ∧ (∀ c ∈ w, fits (round_up 32) c → b.2.1 ≤ c.2.1)
          ∧ (∀ c ∈ pre, fits (round_up 32) c → b.2.1 < c.2.1)
          ∧ (walk_no_wrap 8 arena64 = true →
              ∀ c ∈ w, fits (round_up 32) c → c.2.1 = b.2.1 → b.1 ≤ c.1)) :=
  my_alloc_bf_best_fit 8 8 arena64 32 (by decide) (by decide) (by decide) (by decide)

/-- C4, evaluated on `wrap_bf`: the state is accepted by `check_heap_integrity`, the free
blocks at 4128 and at 4192 both have the minimum fitting `block_size` 16, and
`my_alloc_bf(16)` returns the payload address of the block at 4192, which the walk visits
first, although the block at 4128 has the lower address. -/
theorem best_fit_tie_not_lowest :
    check_heap_integrity 8 wrap_bf = some true
      ∧ heap_walk wrap_bf 8 wrap_bf.heap
          = some [(4096, 80, false), (4192, 16, true), (4224, WORD - 112, false),
              (4128, 16, true), (4160, 80, false)]
      ∧ fits (round_up 16) (4128, 16, true) ∧ fits (round_up 16) (4192, 16, true)
      ∧ (my_alloc_bf 8 wrap_bf 16).map (fun r => r.1) = some (some (4192 + header_size))
      ∧ 4128 < 4192 := by
  refine ⟨by decide, by decide, by decide, by decide, by decide, by decide⟩

/-- C5 (split exactness), amended: when either strategy serves a request `n` (rounded size
`R = round_up n`) from the free block of the walk at address `a` of size
`S ≥ R + header_size + 16`, and that block lies inside the arena
(`a + header_size + S ≤ heap + heap_size`, the arena inside the address space) and no other
block of the walk has its header inside it, the walk after the call is the walk before it
with that block replaced by an occupied block of size exactly `R` at `a`, immediately
followed at `a + header_size + R` by a free block of size exactly `S - R - header_size`;
every other block is unchanged. Consequently, when the remainder is itself at least `R`, a
second allocation of the same size by the same strategy returns the payload pointer exactly
`R + header_size` after the first. -/
theorem alloc_split_exact (fuel : Nat) (s : State) (n : Nat) (pre post : List Blk)
    (a S p : Nat) (s' : State)
    (hw : heap_walk s fuel s.heap = some (pre ++ (a, S, true) :: post))
    (hin : a + header_size + S ≤ s.heap + s.heap_size) (hE : s.heap + s.heap_size < WORD)
    (hsep : ∀ c ∈ pre ++ post, c.1 + header_size ≤ a ∨ a + header_size + S ≤ c.1)
    (hS : round_up n + header_size + 16 ≤ S) (hp : p = a + header_size)
    (hres : my_alloc_ff fuel s n = some (some p, s')
      ∨ my_alloc_bf fuel s n = some (some p, s')) :
    heap_walk s' (fuel + 1) s'.heap
        = some (pre ++ (a, round_up n, false)
            :: (a + header_size + round_up n, S - round_up n - header_size, true) :: post)
      ∧ (round_up n ≤ S - round_up n - header_size →
          (my_alloc_ff fuel s n = some (some p, s') →
            ∃ s'', my_alloc_ff (fuel + 1) s' n
              = some (some (p + (round_up n + header_size)), s''))
          ∧ (my_alloc_bf fuel s n = some (some p, s') →
            ∃ s'', my_alloc_bf (fuel + 1) s' n
              = some (some (p + (round_up n + header_size)), s''))) := by
  obtain ⟨hP, hlen⟩ := heap_walk_path fuel _ _ hw
  obtain ⟨h1, h2⟩ := alloc_some_request hres
  simp only [header_size] at hin hsep hS hp ⊢
  have hS' : round_up n + 32 ≤ S := by omega
  have ha : a + 16 < WORD := by omega
  have hs' : s' = (grant_block s a (round_up n)).2 := by
    rcases hres with h | h
    · exact (ff_selected_path hP hE ha hlen h hp).1
    · exact (bf_selected_path hP hE ha hlen h hp).1
  obtain ⟨hheap, hsize⟩ := grant_block_heap s a (round_up n)
  have hP' := Path_grant_split hP hin hE hsep hS'
  have hh : s.heap ≠ 0 := by
    intro e
    rcases hres with h | h
    · unfold my_alloc_ff at h
      simp [e] at h
    · unfold my_alloc_bf at h
      simp [e] at h
  have hlen' : (pre ++ (a, round_up n, false)
      :: (a + 16 + round_up n, S - round_up n - 16, true) :: post).length < fuel + 1 := by
    simp only [List.length_append, List.length_cons] at hlen ⊢
    omega
  rw [hs']
  rw [← hheap] at hP'
  refine ⟨path_heap_walk _ _ _ hP' hlen', ?_⟩
  intro hbig
  have e : p + (round_up n + 16) = a + 16 + round_up n + 16 := by omega
  rw [e]
  have hh' : (grant_block s a (round_up n)).2.heap ≠ 0 := by rw [hheap]; exact hh
  refine ⟨fun h => ?_, fun h => ?_⟩
  · exact second_ff_path hh' hP' h1 (by rw [hsize]; exact h2) rfl hlen' (by omega) hbig
      (ff_selected_path hP hE ha hlen h hp).2.2
  · exact second_bf_path hh' hP' h1 (by rw [hsize]; exact h2) rfl hlen' (by omega) hbig
      (show S - round_up n - 16 < S by omega) (bf_selected_path hP hE ha hlen h hp).2.2

/-- Instance of `alloc_split_exact`: `my_alloc_ff(50)` on the arena of `init_heap(1000)`
splits the single free block of 992 bytes. -/
theorem alloc_split_exact_witness :
    heap_walk (grant_block arena1000 4096 64).2 (8 + 1) (grant_block arena1000 4096 64).2.heap
        = some ([] ++ (4096, round_up 50, false)
            :: (4096 + header_size + round_up 50, 992 - round_up 50 - header_size, true)
            :: [])
      ∧ (round_up 50 ≤ 992 - round_up 50 - header_size →
          (my_alloc_ff 8 arena1000 50
              = some (some 4112, (grant_block arena1000 4096 64).2) →
            ∃ s'', my_alloc_ff (8 + 1) (grant_block arena1000 4096 64).2 50
              = some (some (4112 + (round_up 50 + header_size)), s''))
          ∧ (my_alloc_bf 8 arena1000 50
              = some (some 4112, (grant_block arena1000 4096 64).2) →
            ∃ s'', my_alloc_bf (8 + 1) (grant_block arena1000 4096 64).2 50
              = some (some (4112 + (round_up 50 + header_size)), s''))) :=
  alloc_split_exact 8 arena1000 50 [] [] 4096 992 4112 (grant_block arena1000 4096 64).2
    (by decide) (by decide) (by decide) (by simp) (by decide) (by decide) (Or.inl (by rfl))

/-- C5, evaluated on `wrap_ff`: the state is accepted by `check_heap_integrity`;
`my_alloc_ff(16)` selects the free block at 4160 of size `S = 2^64 - 48 ≥ 16 + 32` and
writes the remainder header at `4160 + 16 + 16 = 4192`, which is the header of another block
of the walk: that block read (16, occupied) before the call and reads (`2^64 - 80`, free)
after it. -/
theorem split_overwrites_walk_block :
    check_heap_integrity 8 wrap_ff = some true
      ∧ heap_walk wrap_ff 8 wrap_ff.heap
          = some [(4096, 48, false), (4160, WORD - 48, true), (4128, 48, true),
              (4192, 16, false)]
      ∧ round_up 16 + header_size + 16 ≤ WORD - 48
      ∧ (read_block_size wrap_ff.mem 4192, read_is_free wrap_ff.mem 4192) = (16, false)
      ∧ (my_alloc_ff 8 wrap_ff 16).map
            (fun r => (r.1, read_block_size r.2.mem 4192, read_is_free r.2.mem 4192))
          = some (some (4160 + header_size), WORD - 80, true) := by
  refine ⟨by decide, by decide, by decide, by decide, by decide⟩

/-- C6 (no-split grant), evaluated on the arena of `init_heap(64)`: the only block is free
with `block_size = 48`; for a request of 32 bytes the leftover `48 - 32 - header_size = 0`
is below `header_size`, so no remainder header is written, but both strategies have already
stored the rounded request in the header: the walk afterwards shows the granted block with
`block_size = 32`, not 48. -/
theorem no_split_grant_truncates :
    heap_walk arena64 8 arena64.heap = some [(4096, 48, true)]
      ∧ sub64 (sub64 48 (round_up 32)) header_size < header_size
      ∧ (my_alloc_ff 8 arena64 32).map (fun r => (r.1, heap_walk r.2 8 r.2.heap))
          = some (some 4112, some [(4096, 32, false)])
      ∧ (my_alloc_bf 8 arena64 32).map (fun r => (r.1, heap_walk r.2 8 r.2.heap))
          = some (some 4112, some [(4096, 32, false)]) := by
  refine ⟨by decide, by decide, by decide, by decide⟩

/-- C7 (integrity after allocation), evaluated on the arena of `init_heap(64)`: the checker
accepts the fresh arena, and after `my_alloc_ff(32)` or `my_alloc_bf(32)` (which succeed)
the checker returns false, because the granted block was truncated to 32 bytes without a
remainder header and the walk accounts for 48 of the 64 bytes. -/
theorem alloc_breaks_integrity :
    check_heap_integrity 8 arena64 = some true
      ∧ (my_alloc_ff 8 arena64 32).map (fun r => (r.1, check_heap_integrity 8 r.2))
          = some (some 4112, some false)
      ∧ (my_alloc_bf 8 arena64 32).map (fun r => (r.1, check_heap_integrity 8 r.2))
          = some (some 4112, some false) := by
  refine ⟨by decide, by decide, by decide⟩

/-- C8 (alignment): in every state accepted by `check_heap_integrity`, the arena start is
16-aligned, and for every successful `my_alloc_ff` or `my_alloc_bf` call the returned
payload pointer lies at an offset from the arena start that is a multiple of 16 (so the
pointer itself is a multiple of 16) and the `block_size` stored in the header of the granted
block (at `p - header_size`) is a multiple of 16. -/
theorem alloc_alignment (f0 fuel : Nat) (s : State) (n p : Nat) (s' : State)
    (hI : check_heap_integrity f0 s = some true)
    (hres : my_alloc_ff fuel s n = some (some p, s')
      ∨ my_alloc_bf fuel s n = some (some p, s')) :
    s.heap % ALIGNMENT = 0 ∧ s.heap ≤ p ∧ (p - s.heap) % ALIGNMENT = 0
      ∧ p % ALIGNMENT = 0
      ∧ read_block_size s'.mem (p - header_size) % ALIGNMENT = 0 := by
  obtain ⟨w, hA, _⟩ := Acc_of_check hI
  obtain ⟨h1, h2⟩ := alloc_some_request hres
  obtain ⟨x, hxm, hx, hp, hs'⟩ := alloc_granted_acc hA hres
  obtain ⟨b1, b2, b3, b4, b5, b6, b7⟩ := Acc_block_bounds hA hxm
  obtain ⟨g1, g2, g3, g4⟩ := Acc_bounds hA
  obtain ⟨r1, r2, r3, r4, r5⟩ := Acc_round_up hA h1 h2
  obtain ⟨_, k2⟩ := @grant_block_header_gen s x.1 (round_up n) b4 r1 r4
  have hpx : p - header_size = x.1 := by unfold header_size; omega
  rw [hpx, hs', k2]
  unfold ALIGNMENT
  exact ⟨g1, by omega, by omega, by omega, r1⟩

/-- Instance of `alloc_alignment`: `my_alloc_ff(7)` on the arena of `init_heap(1000)`. -/
theorem alloc_alignment_witness :
    arena1000.heap % ALIGNMENT = 0 ∧ arena1000.heap ≤ 4112
      ∧ (4112 - arena1000.heap) % ALIGNMENT = 0 ∧ 4112 % ALIGNMENT = 0
      ∧ read_block_size (grant_block arena1000 4096 16).2.mem (4112 - header_size)
          % ALIGNMENT = 0 :=
  alloc_alignment 8 1008 arena1000 7 4112 (grant_block arena1000 4096 16).2 (by decide)
    (Or.inl (by rfl))

/-- C9: `my_free(p)` leaves the state unchanged (heap_size and the whole memory, hence the
blocks of the walk and every header's `block_size` and `is_free`) whenever `p` is null, or
`p - header_size` lies outside `[heap, heap + heap_size)`, or the header at
`p - header_size` already has `is_free = true`. -/
theorem my_free_noop (fuel : Nat) (s : State) (p : Nat)
    (h : p = 0
      ∨ (sub64 p header_size < s.heap ∨ sub64 p header_size ≥ add64 s.heap s.heap_size)
      ∨ read_is_free s.mem (sub64 p header_size) = true) :
    my_free fuel s p = some s := by
  unfold my_free
  by_cases hp : p = 0
  · simp [hp]
  · rw [if_neg hp]
    simp only
    by_cases hout :
        sub64 p header_size < s.heap ∨ sub64 p header_size ≥ add64 s.heap s.heap_size
    · have hh : header_from_data_ptr s p = 0 := by
        unfold header_from_data_ptr
        rw [if_neg hp]
        exact if_pos hout
      rw [if_pos hh]
    · have hh : header_from_data_ptr s p = sub64 p header_size := by
        unfold header_from_data_ptr
        rw [if_neg hp]
        exact if_neg hout
      rw [hh]
      by_cases hz : sub64 p header_size = 0
      · rw [if_pos hz]
      · rw [if_neg hz]
        have hfree : read_is_free s.mem (sub64 p header_size) = true := by
          rcases h with h | h | h
          · exact absurd h hp
          · exact absurd h hout
          · exact h
        rw [if_pos hfree]

/-- Instance of `my_free_noop`: freeing the payload pointer of the free block of a fresh
arena (a double free) changes nothing. -/
theorem my_free_noop_witness : my_free 8 arena64 4112 = some arena64 :=
  my_free_noop 8 arena64 4112 (Or.inr (Or.inr (by decide)))

/-- C10 (coalescing completeness), amended: in every state accepted by
`check_heap_integrity` whose walk contains three consecutive occupied blocks `a`, `b`, `c`,
calling `my_free` on their three payload pointers in any of the six orders returns each
time, and (1) when the neighbour before `a` and the neighbour after `c` are occupied or
absent, the resulting walk is the original one with `a`, `b`, `c` replaced by one free block
at `a`'s address whose `block_size` is `size a + size b + size c + 2 * header_size` reduced
modulo `2^64`; (2) when `a` is the first block and `c` is followed by one trailing free
block, the resulting walk is a single free block at the arena start of size
`heap_size - header_size`; (3) when no block end of the walk wraps, the sum in (1) is below
`2^64`, so the `block_size` is the plain sum. -/
theorem free_three_coalesces (f0 fuel : Nat) (s : State)
    (hI : check_heap_integrity f0 s = some true) (pre post : List Blk)
    (a sa b sb c sc : Nat)
    (hw : heap_walk s fuel s.heap
      = some (pre ++ (a, sa, false) :: (b, sb, false) :: (c, sc, false) :: post)) :
    (left_occ pre → right_occ post →
      ∀ t ∈ six_orders (a + header_size) (b + header_size) (c + header_size), ∃ s3,
        free3 fuel s t.1 t.2.1 t.2.2 = some s3
          ∧ heap_walk s3 fuel s3.heap
              = some (pre ++ (a, (sa + sb + sc + 2 * header_size) % WORD, true) :: post))
    ∧ (pre = [] → ∀ d sd, post = [(d, sd, true)] →
      ∀ t ∈ six_orders (a + header_size) (b + header_size) (c + header_size), ∃ s3,
        free3 fuel s t.1 t.2.1 t.2.2 = some s3
          ∧ heap_walk s3 fuel s3.heap
              = some [(s.heap, s.heap_size - header_size, true)])
    ∧ (walk_no_wrap fuel s = true →
      (sa + sb + sc + 2 * header_size) % WORD = sa + sb + sc + 2 * header_size) := by
  obtain ⟨w, hA, _⟩ := Acc_of_check hI
  obtain ⟨hwe, hlen⟩ := Acc_walk_eq hA hw
  subst hwe
  simp only [header_size]
  refine ⟨?_, ?_, ?_⟩
  · intro hl hr t ht
    obtain ⟨s3, e, g, z, A3⟩ := free3_middle_acc hA hl hr hlen t ht
    refine ⟨s3, e, ?_⟩
    have e2 : sa + sb + sc + 2 * 16 = sa + sb + sc + 32 := by omega
    rw [e2]
    exact Acc_heap_walk A3 (by
      simp only [List.length_append, List.length_cons] at hlen ⊢
      omega)
  · intro hpre d sd hpost t ht
    subst hpre hpost
    obtain ⟨s3, e, g, z, A3⟩ := free3_trailing_acc hA (by simpa using hlen) t ht
    refine ⟨s3, e, ?_⟩
    rw [g]
    have := Acc_heap_walk A3 (show [(s.heap, s.heap_size - 16, true)].length < fuel by
      simp only [List.nil_append, List.length_cons, List.length_nil] at hlen ⊢
      omega)
    rw [g] at this
    exact this
  · intro hN
    unfold walk_no_wrap at hN
    rw [hw] at hN
    simp only [List.all_eq_true, decide_eq_true_eq, header_size] at hN
    have ka := hN (a, sa, false) (by simp)
    have kb := hN (b, sb, false) (by simp)
    have kc := hN (c, sc, false) (by simp)
    simp only at ka kb kc
    obtain ⟨_, p2⟩ := Path_split_at hA.2.1
    obtain ⟨hab, _⟩ := Path_next p2
    have p3 := p2.2.2.2.2
    rw [Path_head p2, hab] at p3
    obtain ⟨hbc, _⟩ := Path_next p3
    simp only at hab hbc
    rw [next_block_header_eq, (Path_mem p2 (a, sa, false) (by simp)).2.1] at hab
    rw [next_block_header_eq, (Path_mem p3 (b, sb, false) (by simp)).2.1] at hbc
    have hb0 := (Path_mem p3 (b, sb, false) (by simp)).1
    have hc0 := (Path_mem p3 (c, sc, false) (by simp)).1
    simp only at hab hbc hb0 hc0
    split at hab
    · omega
    · split at hbc
      · omega
      · unfold WORD at *
        omega

/-- Instance of `free_three_coalesces`: after `init_heap(1000)` and three allocations of 10
bytes, freeing the first, third and second pointer leaves one free block of
`heap_size - header_size` bytes. -/
theorem free_three_coalesces_witness :
    ∃ s3, free3 8 arena1000_three 4112 4176 4144 = some s3
      ∧ heap_walk s3 8 s3.heap
          = some [(arena1000_three.heap, arena1000_three.heap_size - header_size, true)] :=
  (free_three_coalesces 8 8 arena1000_three (by decide) [] _
    4096 16 4128 16 4160 16 (by decide)).2.1 rfl 4192 896 rfl (4112, 4176, 4144) (by decide)

/-- C10, evaluated on `wrap_three`: the state is accepted by `check_heap_integrity` and its
walk starts with three consecutive occupied blocks in address order, followed by an occupied
block; freeing their three payload pointers, in each of the six orders, leaves one free
block at the first address whose `block_size` is 16, less than the 48 bytes of the first
block alone, whereas `size a + size b + size c + 2 * header_size` is `2^64 + 16`. -/
theorem free_three_sum_wraps :
    check_heap_integrity 8 wrap_three = some true
      ∧ heap_walk wrap_three 8 wrap_three.heap
          = some [(4096, 48, false), (4160, 16, false), (4192, WORD - 80, false),
              (4128, 80, false)]
      ∧ (six_orders (4096 + header_size) (4160 + header_size) (4192 + header_size)).map
            (fun t => (free3 8 wrap_three t.1 t.2.1 t.2.2).map
              (fun s3 => heap_walk s3 8 s3.heap))
          = List.replicate 6 (some (some [(4096, 16, true), (4128, 80, false)]))
      ∧ 48 + 16 + (WORD - 80) + 2 * header_size = WORD + 16 ∧ 16 < 48 := by
  refine ⟨by decide, by decide, by decide, by decide, by decide⟩

/-- C11 (allocate-then-free round trip), evaluated after `init_heap(64)`: the arena is one
free block of 48 bytes; `my_alloc_ff(32)` returns a pointer `p`, and after `my_free(p)` the
walk is a single free block of 32 bytes, not of `heap_size - header_size = 48`: the initial
state is not restored. -/
theorem alloc_free_round_trip_fails :
    heap_walk arena64 8 arena64.heap = some [(4096, arena64.heap_size - header_size, true)]
      ∧ (my_alloc_ff 8 arena64 32).map (fun r => r.1) = some (some 4112)
      ∧ (my_free 8 (after_ff 8 arena64 32) 4112).map (fun s => heap_walk s 8 s.heap)
          = some (some [(4096, 32, true)])
      ∧ arena64.heap_size - header_size = 48 := by
  refine ⟨by decide, by decide, by decide, by decide⟩

/-- C13 (realloc identity on no-op resize), evaluated after `init_heap(1000)` and two
allocations of 50 bytes: the checker accepts the arena, the first block is occupied with
`block_size = 64` and is followed by an occupied block; `my_realloc_general(p, 64, _)` on its
payload pointer `p = 4112` returns the different pointer 4272 under both strategies, and the
block at `p` has been freed. -/
theorem realloc_same_size_moves :
    check_heap_integrity 8 arena1000_two = some true
      ∧ heap_walk arena1000_two 8 arena1000_two.heap
          = some [(4096, 64, false), (4176, 64, false), (4256, 832, true)]
      ∧ (my_realloc_general 8 arena1000_two 4112 64 false).map (outcome_view 8)
          = some (some (some 4272,
              some [(4096, 64, true), (4176, 64, false), (4256, 64, false),
                (4336, 752, true)]))
      ∧ (my_realloc_general 8 arena1000_two 4112 64 true).map (outcome_view 8)
          = some (some (some 4272,
              some [(4096, 64, true), (4176, 64, false), (4256, 64, false),
                (4336, 752, true)])) := by
  refine ⟨by decide, by decide, by rfl, by rfl⟩

/-- C14 (shrink), evaluated after `init_heap(1000)` and `my_alloc_ff(64)`: the block at
`p = 4112` is occupied with `block_size c = 64`; for `new_size = 48` the remainder
`c - r = 16` is not above `header_size`, and `my_realloc_general(p, 48, _)` returns `p` with
the block's `block_size` set to 48 instead of 64 (the walk then reads the 16 leftover bytes
as a header). -/
theorem realloc_shrink_truncates :
    heap_walk (after_ff 8 arena1000 64) 8 4096 = some [(4096, 64, false), (4176, 912, true)]
      ∧ (my_realloc_general 8 (after_ff 8 arena1000 64) 4112 48 false).map (outcome_view 8)
          = some (some (some 4112,
              some [(4096, 48, false), (4160, 0, false), (4176, 912, true)]))
      ∧ (my_realloc_general 8 (after_ff 8 arena1000 64) 4112 48 true).map (outcome_view 8)
          = some (some (some 4112,
              some [(4096, 48, false), (4160, 0, false), (4176, 912, true)])) := by
  refine ⟨by decide, by rfl, by rfl⟩

/-- C15 (oversize resize), evaluated after `init_heap(1000)` and `my_alloc_ff(50)`, for
`new_size = 2^64 - 1 > heap_size`: the rounding wraps the size to 0 before it is compared
with `heap_size`, and `my_realloc_general(p, 2^64 - 1, _)` returns `p` (not `NULL`) after
setting the block's `block_size` to 0 and writing a free header at `p`. -/
theorem realloc_oversize_wraps :
    heap_walk (after_ff 8 arena1000 50) 8 4096 = some [(4096, 64, false), (4176, 912, true)]
      ∧ (after_ff 8 arena1000 50).heap_size < 18446744073709551615
      ∧ round_up 18446744073709551615 = 0
      ∧ (my_realloc_general 8 (after_ff 8 arena1000 50) 4112 18446744073709551615
            false).map (outcome_view 8)
          = some (some (some 4112,
              some [(4096, 0, false), (4112, 48, true), (4176, 912, true)]))
      ∧ (my_realloc_general 8 (after_ff 8 arena1000 50) 4112 18446744073709551615
            true).map (outcome_view 8)
          = some (some (some 4112,
              some [(4096, 0, false), (4112, 48, true), (4176, 912, true)])) := by
  refine ⟨by decide, by decide, by decide, by rfl, by rfl⟩

/-- C16 (invalid pointer to resize), evaluated on the arena of `init_heap(1000)` with the
arena start address 4096 as pointer: `header_from_data_ptr` resolves it to `NULL`, and
`my_realloc_general(4096, 16, _)` then loads `block_size` through that null header: the
outcome is a fault under both strategies. -/
theorem realloc_invalid_pointer_faults :
    header_from_data_ptr arena1000 4096 = 0
      ∧ (my_realloc_general 8 arena1000 4096 16 false).map (outcome_view 8) = some none
      ∧ (my_realloc_general 8 arena1000 4096 16 true).map (outcome_view 8) = some none := by
  refine ⟨by decide, by rfl, by rfl⟩

/-- C17 (grow in place), amended: in a state accepted by `check_heap_integrity`, for an
occupied block of the walk at `h` of size `c` whose following block, at `y`, exists and is
free with size `f`, when that free block ends inside the arena and no other block header of
the walk lies inside it, and a request `n > 0` whose rounded value `r = round_up n`
satisfies `c < r ≤ c + header_size + f` and `r ≤ heap_size`, `my_realloc_general` returns the
same payload pointer under either strategy; the block stays occupied with a `block_size`
`c'` between `r` and `c + header_size + f`; the blocks before it and after the absorbed
block are unchanged (the walk is the old one with the two blocks replaced by the grown
block, followed by a free remainder of `c + f - r` bytes when that is at least 16);
`check_heap_integrity` still returns true and the total of `header_size + block_size` the
checker accumulates over the new walk is `heap_size`. -/
theorem realloc_grow_in_place (f0 fuel : Nat) (s : State) (strategy : Bool)
    (hI : check_heap_integrity f0 s = some true) (pre post : List Blk) (h c y f n : Nat)
    (hw : heap_walk s fuel s.heap = some (pre ++ (h, c, false) :: (y, f, true) :: post))
    (hin : y + header_size + f ≤ s.heap + s.heap_size)
    (hsep : ∀ b ∈ pre ++ (h, c, false) :: post,
      b.1 + header_size ≤ y ∨ y + header_size + f ≤ b.1)
    (hn : 0 < n) (hlt : c < round_up n) (hle : round_up n ≤ c + header_size + f)
    (hhs : round_up n ≤ s.heap_size) :
    ∃ s' c' w', my_realloc_general fuel s (h + header_size) n strategy
          = some (Outcome.ret (some (h + header_size)) s')
      ∧ round_up n ≤ c' ∧ c' ≤ c + header_size + f
      ∧ (w' = pre ++ (h, c', false)
              :: (add64 (h + header_size) (round_up n), c + f - round_up n, true) :: post
          ∨ w' = pre ++ (h, c', false) :: post)
      ∧ heap_walk s' fuel s'.heap = some w'
      ∧ check_heap_integrity fuel s' = some true
      ∧ total_accounted w' = s'.heap_size := by
  obtain ⟨w, hA, _⟩ := Acc_of_check hI
  obtain ⟨hwe, hlen⟩ := Acc_walk_eq hA hw
  subst hwe
  simp only [header_size] at hin hsep hle ⊢
  obtain ⟨hA1, hB1⟩ := realloc_grow_acc fuel strategy hA hin hsep hn hlt hle hhs
  by_cases hbig : round_up n + 16 ≤ c + f
  · obtain ⟨s', he, _, hA'⟩ := hA1 hbig
    have hl : (pre ++ (h, round_up n, false)
        :: (add64 (h + 16) (round_up n), c + f - round_up n, true) :: post).length < fuel := by
      simp only [List.length_append, List.length_cons] at hlen ⊢
      omega
    exact ⟨s', round_up n, _, he, le_refl _, by omega, Or.inl rfl, Acc_heap_walk hA' hl,
      Acc_check hA' hl, by rw [total_accounted_eq]; exact hA'.2.2.2⟩
  · obtain ⟨s', he, _, hA'⟩ := hB1 (by omega)
    have hl : (pre ++ (h, c + 16 + f, false) :: post).length < fuel := by
      simp only [List.length_append, List.length_cons] at hlen ⊢
      omega
    exact ⟨s', c + 16 + f, _, he, by omega, le_refl _, Or.inr rfl, Acc_heap_walk hA' hl,
      Acc_check hA' hl, by rw [total_accounted_eq]; exact hA'.2.2.2⟩

/-- Instance of `realloc_grow_in_place`: after `init_heap(1000)` and `my_alloc_ff(50)`,
growing the block of 64 bytes to 100 bytes with the first-fit strategy. -/
theorem realloc_grow_in_place_witness :
    ∃ s' c' w', my_realloc_general 8 (after_ff 8 arena1000 50) (4096 + header_size) 100 false
          = some (Outcome.ret (some (4096 + header_size)) s')
      ∧ round_up 100 ≤ c' ∧ c' ≤ 64 + header_size + 912
      ∧ (w' = [] ++ (4096, c', false)
              :: (add64 (4096 + header_size) (round_up 100), 64 + 912 - round_up 100, true)
              :: []
          ∨ w' = [] ++ (4096, c', false) :: [])
      ∧ heap_walk s' 8 s'.heap = some w'
      ∧ check_heap_integrity 8 s' = some true
      ∧ total_accounted w' = s'.heap_size :=
  realloc_grow_in_place 8 8 (after_ff 8 arena1000 50) false (by decide) [] [] 4096 64 4176
    912 100 (by decide) (by decide) (by simp [header_size]) (by decide) (by decide) (by decide)
    (by decide)

theorem check_loop_grown (strategy : Bool) : ∀ (fuel total : Nat),
    check_heap_integrity_loop (after_realloc 8 wrap_grow 4112 32 strategy) fuel 4144 total
        = none
      ∧ check_heap_integrity_loop (after_realloc 8 wrap_grow 4112 32 strategy) fuel 4208
          total = none
  | 0, _ => ⟨rfl, rfl⟩
  | fuel + 1, total => by
    have hv1 : is_valid_header (after_realloc 8 wrap_grow 4112 32 strategy) 4144 = true := by
      cases strategy <;> decide
    have hv2 : is_valid_header (after_realloc 8 wrap_grow 4112 32 strategy) 4208 = true := by
      cases strategy <;> decide
    have hn1 : next_block_header (after_realloc 8 wrap_grow 4112 32 strategy) 4144 = 4208 := by
      cases strategy <;> decide
    have hn2 : next_block_header (after_realloc 8 wrap_grow 4112 32 strategy) 4208 = 4144 := by
      cases strategy <;> decide
    simp only [check_heap_integrity_loop, hv1, hv2, hn1, hn2]
    exact ⟨(check_loop_grown strategy fuel _).2, (check_loop_grown strategy fuel _).1⟩

/-- C17, evaluated on `wrap_grow`: the state is accepted by `check_heap_integrity`; the
occupied block at 4096 (size 16) is followed by the free block at 4128 (size 64), and
`my_realloc_general(4112, 32)` grows it in place under either strategy and returns 4112,
writing the remainder header at `4112 + 32 = 4144`, the header of another block of the walk
(it read (80, occupied) and now reads (48, free)); afterwards the walk from 4144 reaches
4208 and comes back to 4144, and `check_heap_integrity` returns for no amount of fuel. -/
theorem grow_in_place_breaks_walk :
    check_heap_integrity 8 wrap_grow = some true
      ∧ heap_walk wrap_grow 8 wrap_grow.heap
          = some [(4096, 16, false), (4128, 64, true), (4208, WORD - 80, false),
              (4144, 80, false)]
      ∧ 16 < round_up 32 ∧ round_up 32 ≤ 16 + header_size + 64
      ∧ (read_block_size wrap_grow.mem 4144, read_is_free wrap_grow.mem 4144) = (80, false)
      ∧ ∀ strategy : Bool,
          my_realloc_general 8 wrap_grow (4096 + header_size) 32 strategy
              = some (Outcome.ret (some (4096 + header_size))
                  (after_realloc 8 wrap_grow 4112 32 strategy))
            ∧ (read_block_size (after_realloc 8 wrap_grow 4112 32 strategy).mem 4144,
                read_is_free (after_realloc 8 wrap_grow 4112 32 strategy).mem 4144)
              = (48, true)
            ∧ ∀ fuel, check_heap_integrity fuel (after_realloc 8 wrap_grow 4112 32 strategy)
                = none := by
  refine ⟨by decide, by decide, by decide, by decide, by decide, ?_⟩
  intro strategy
  refine ⟨by cases strategy <;> rfl, by cases strategy <;> decide, ?_⟩
  intro fuel
  have hh : (after_realloc 8 wrap_grow 4112 32 strategy).heap = 4096 := by
    cases strategy <;> decide
  unfold check_heap_integrity
  rw [if_neg (by rw [hh]; decide), hh]
  cases fuel with
  | zero => rfl
  | succ f =>
    have hv : is_valid_header (after_realloc 8 wrap_grow 4112 32 strategy) 4096 = true := by
      cases strategy <;> decide
    have hn : next_block_header (after_realloc 8 wrap_grow 4112 32 strategy) 4096 = 4144 := by
      cases strategy <;> decide
    simp only [check_heap_integrity_loop, hv, hn]
    exact (check_loop_grown strategy f _).1

/-- C18 (data preservation on move), evaluated on `move_state`: the checker accepts the
arena, whose walk is a free block of 48 bytes, the occupied block of 16 bytes with payload
`p = 4176`, an occupied block and the trailing free block. `my_realloc_general(p, 32, _)`
takes the move path and returns `q = 4112`, but the first 16 bytes at `q` afterwards
(`64, 0, ...`) differ from the first 16 bytes at `p` before the call (`32, 0, ...`): the new
block was granted without split from the 48-byte block, and the backward walk of `my_free`
went through the 16 leftover bytes and the copied payload as if they were headers. -/
theorem realloc_move_overwrites_data :
    check_heap_integrity 8 move_state = some true
      ∧ walk_no_wrap 8 move_state = true
      ∧ heap_walk move_state 8 move_state.heap
          = some [(4096, 48, true), (4160, 16, false), (4192, 16, false), (4224, 864, true)]
      ∧ payload move_state 4176 16 = [32, 0, 0, 0, 0, 0, 0, 0, 1, 0, 0, 0, 0, 0, 0, 0]
      ∧ (my_realloc_general 8 move_state 4176 32 false).map (fun o => (outcome_view 8 o).map
            (fun v => v.1)) = some (some (some 4112))
      ∧ (my_realloc_general 8 move_state 4176 32 false).bind (outcome_payload 4112 16)
          = some [64, 0, 0, 0, 0, 0, 0, 0, 1, 0, 0, 0, 0, 0, 0, 0]
      ∧ (my_realloc_general 8 move_state 4176 32 true).map (fun o => (outcome_view 8 o).map
            (fun v => v.1)) = some (some (some 4112))
      ∧ (my_realloc_general 8 move_state 4176 32 true).bind (outcome_payload 4112 16)
          = some [64, 0, 0, 0, 0, 0, 0, 0, 1, 0, 0, 0, 0, 0, 0, 0] := by
  refine ⟨by decide!, by decide!, by decide!, by decide!, by decide!, by decide!, by decide!,
    by decide!⟩

/-- C19 (failed move is atomic): in every state accepted by `check_heap_integrity`, for an
occupied block of the walk at `h` of size `c` and a request `0 < n ≤ heap_size` with rounded
value `r = round_up n` that cannot shrink (`c ≤ r`) nor grow in place (the following block
is absent, occupied, or free with `f + header_size < r - c`), when no free block of the walk
has `block_size ≥ r`, `my_realloc_general` returns `NULL` under either strategy and the
state after the call (heap, heap_size and the whole memory, headers and payload bytes) is
the state before. -/
theorem realloc_failed_move_atomic (f0 fuel : Nat) (s : State) (strategy : Bool)
    (hI : check_heap_integrity f0 s = some true) (pre post : List Blk) (h c n : Nat)
    (hw : heap_walk s fuel s.heap = some (pre ++ (h, c, false) :: post))
    (hn : 0 < n) (hle : n ≤ s.heap_size) (hcr : c ≤ round_up n)
    (hgrow : ∀ y f fy post', post = (y, f, fy) :: post' →
      fy = false ∨ f + header_size < round_up n - c)
    (hno : ∀ b ∈ pre ++ (h, c, false) :: post, ¬ fits (round_up n) b) :
    my_realloc_general fuel s (h + header_size) n strategy = some (Outcome.ret none s) := by
  obtain ⟨w, hA, _⟩ := Acc_of_check hI
  obtain ⟨hwe, hlen⟩ := Acc_walk_eq hA hw
  subst hwe
  exact realloc_move_fails_acc strategy hA hn hle hlen hcr hgrow hno

/-- Instance of `realloc_failed_move_atomic`: after `init_heap(1000)` and two allocations
of 50 bytes, growing the first block to 900 bytes fails without a change: the following
block is occupied and the only free block has 832 bytes. -/
theorem realloc_failed_move_atomic_witness :
    my_realloc_general 8 arena1000_two (4096 + header_size) 900 false
      = some (Outcome.ret none arena1000_two) :=
  realloc_failed_move_atomic 8 8 arena1000_two false (by decide)
    [] [(4176, 64, false), (4256, 832, true)] 4096 64 900 (by decide)
    (by decide) (by decide) (by decide) (by simp) (by decide)

theorem check_loop_bad : ∀ (fuel total : Nat),
    check_heap_integrity_loop arena1000_bad fuel 4096 total = none
  | 0, _ => rfl
  | fuel + 1, total => by
    have hv : is_valid_header arena1000_bad 4096 = true := by decide
    have hn : next_block_header arena1000_bad 4096 = 4096 := by decide
    simp only [check_heap_integrity_loop, hv, hn]
    exact check_loop_bad fuel _

/-- C20 (integrity checker), evaluated on the arena of `init_heap(1000)` after the first
header's `block_size` has been overwritten with `2^64 - 16`, a multiple of 16 for which the
block extends past the arena end: `is_valid_header` accepts the header, because the block
end computed modulo `2^64` is the header's own address, `next_block_header` returns the same
block again, and `check_heap_integrity` does not return for any amount of fuel; in
particular it does not return false. -/
theorem checker_misses_wrapped_size :
    arena1000_bad.heap = 4096
      ∧ read_block_size arena1000_bad.mem 4096 = WORD - 16
      ∧ (WORD - 16) % ALIGNMENT = 0
      ∧ arena1000_bad.heap + arena1000_bad.heap_size
          < 4096 + header_size + read_block_size arena1000_bad.mem 4096
      ∧ is_valid_header arena1000_bad 4096 = true
      ∧ next_block_header arena1000_bad 4096 = 4096
      ∧ ∀ fuel, check_heap_integrity fuel arena1000_bad = none := by
  refine ⟨by decide, by decide, by decide, by decide, by decide, by decide, ?_⟩
  intro fuel
  unfold check_heap_integrity
  rw [if_neg (by decide)]
  exact check_loop_bad fuel 0

/-- C21 (remainder block), evaluated on exact fits. In `arena_refit` (accepted by the
checker) the first block is free with `block_size = 64` and is followed by an occupied
block of 64 bytes at 4176; a request of 50 bytes (rounded 64) is an exact fit, the leftover
`64 - 64 - header_size` wraps to `2^64 - 16`, which is not below `header_size`, and both
strategies write a header at `block + header_size + R = 4176`: the following block's header
now reads `block_size = 2^64 - 16`, `is_free = true`. On the arena of `init_heap(64)` the
exact-fit request of 48 bytes writes the same header at the arena end, address 4160. -/
theorem exact_fit_writes_header :
    check_heap_integrity 8 arena_refit = some true
      ∧ heap_walk arena_refit 8 arena_refit.heap
          = some [(4096, 64, true), (4176, 64, false), (4256, 832, true)]
      ∧ sub64 (sub64 64 (round_up 50)) header_size = WORD - 16
      ∧ (my_alloc_ff 8 arena_refit 50).map
            (fun r => (r.1, read_block_size r.2.mem 4176, read_is_free r.2.mem 4176))
          = some (some 4112, WORD - 16, true)
      ∧ (my_alloc_bf 8 arena_refit 50).map
            (fun r => (r.1, read_block_size r.2.mem 4176, read_is_free r.2.mem 4176))
          = some (some 4112, WORD - 16, true)
      ∧ arena64.heap + arena64.heap_size = 4160
      ∧ (read_block_size arena64.mem 4160, read_is_free arena64.mem 4160) = (0, false)
      ∧ (my_alloc_ff 8 arena64 48).map
            (fun r => (r.1, read_block_size r.2.mem 4160, read_is_free r.2.mem 4160))
          = some (some 4112, WORD - 16, true)
      ∧ (my_alloc_bf 8 arena64 48).map
            (fun r => (r.1, read_block_size r.2.mem 4160, read_is_free r.2.mem 4160))
          = some (some 4112, WORD - 16, true) := by
  refine ⟨by decide, by decide, by decide, by decide, by decide, by decide, by decide,
    by decide, by decide⟩

theorem check_loop_exact : ∀ (fuel total : Nat),
    check_heap_integrity_loop arena_exact fuel 4176 total = none
  | 0, _ => rfl
  | fuel + 1, total => by
    have hv : is_valid_header arena_exact 4176 = true := by decide
    have hn : next_block_header arena_exact 4176 = 4176 := by decide
    simp only [check_heap_integrity_loop, hv, hn]
    exact check_loop_exact fuel _

theorem bf_loop_exact (R : Nat) : ∀ (fuel sm : Nat),
    my_alloc_bf_loop arena_exact R fuel 4176 sm = none
  | 0, _ => rfl
  | fuel + 1, sm => by
    have hn : next_block_header arena_exact 4176 = 4176 := by decide
    simp only [my_alloc_bf_loop, hn]
    exact bf_loop_exact R fuel _

theorem prev_loop_exact : ∀ (fuel : Nat),
    previous_block_header_loop arena_exact 4256 fuel 4176 = none
  | 0 => rfl
  | fuel + 1 => by
    have hn : next_block_header arena_exact 4176 = 4176 := by decide
    simp only [previous_block_header_loop, hn]
    exact prev_loop_exact fuel

/-- C22 (termination of the walks), evaluated on `arena_exact`, the state reached by
`init_heap(1000)`, `p1 = my_alloc_ff(50)`, `p2 = my_alloc_ff(50)`, `my_free(p1)` and
`my_alloc_ff(50)`, all of which return: the last allocation is an exact fit and has
overwritten the header of the block at 4176 with `block_size = 2^64 - 16`, so
`next_block_header` of that block is the block itself (not a strictly greater address), and
the walks of `check_heap_integrity`, `my_alloc_bf` and `previous_block_header` return for no
amount of fuel. -/
theorem walk_stands_still :
    (my_alloc_ff 8 arena1000 50).map (fun r => r.1) = some (some 4112)
      ∧ (my_alloc_ff 8 (after_ff 8 arena1000 50) 50).map (fun r => r.1) = some (some 4192)
      ∧ (my_free 8 arena1000_two 4112).map (fun s => heap_walk s 8 s.heap)
          = some (some [(4096, 64, true), (4176, 64, false), (4256, 832, true)])
      ∧ (my_alloc_ff 8 arena_refit 50).map (fun r => r.1) = some (some 4112)
      ∧ next_block_header arena_exact 4096 = 4176
      ∧ next_block_header arena_exact 4176 = 4176
      ∧ (∀ fuel, check_heap_integrity fuel arena_exact = none)
      ∧ (∀ fuel, my_alloc_bf fuel arena_exact 16 = none)
      ∧ (∀ fuel, previous_block_header fuel arena_exact 4256 = none) := by
  have hn : next_block_header arena_exact 4096 = 4176 := by decide
  refine ⟨by decide, by decide, by decide, by decide, hn, by decide, ?_, ?_, ?_⟩
  · intro fuel
    unfold check_heap_integrity
    rw [if_neg (by decide)]
    cases fuel with
    | zero => rfl
    | succ f =>
      have hv : is_valid_header arena_exact 4096 = true := by decide
      have hh : arena_exact.heap = 4096 := by decide
      simp only [hh, check_heap_integrity_loop, hv, hn]
      exact check_loop_exact f _
  · intro fuel
    have hh : arena_exact.heap = 4096 := by decide
    have hloop : my_alloc_bf_loop arena_exact (round_up 16) fuel arena_exact.heap 0 = none := by
      rw [hh]
      cases fuel with
      | zero => rfl
      | succ f =>
        simp only [my_alloc_bf_loop, hn]
        exact bf_loop_exact _ f _
    unfold my_alloc_bf
    rw [if_neg (by decide), if_neg (by decide), if_neg (by decide), hloop]
  · intro fuel
    have hh : arena_exact.heap = 4096 := by decide
    unfold previous_block_header
    rw [if_neg (by decide), if_neg (by decide), hh]
    cases fuel with
    | zero => rfl
    | succ f =>
      simp only [previous_block_header_loop, hn]
      exact prev_loop_exact f

end PocketAllocator
